import Mathlib

/-!
Verification development for the minefield engine of the MinesweeperClone
repository (`src/Minesweeper/MinefieldWindow.cpp`).

The tile array, counters and flags of `MinefieldWindow` are embedded as a Lean
structure; each state-mutating method of the source becomes a Lean function on
that structure.  `UINT` values are embedded as `Nat`: none of the arithmetic
performed by the engine (index computation `x + y*width`, counter increments,
the comparison `m_cTiles <= m_cMines + m_cRevealedTiles`) can wrap for any
realizable grid, with one deliberate exception noted at `GetTileGrid` below.
Facade calls (`m_pGameWindow->...`, `m_scene.Render()`) do not touch minefield
state and are dropped.  The window-system bookkeeping fields
(`m_bMouseTracking`, `m_lastGridPos`, `m_bLRHeldAfterChord`) only select which
handler branch runs and never alter tile state; the step relation below
quantifies over the branches instead of tracking them.
-/

namespace Minesweeper

/-- Modelled from the spec: tile contents enumeration from the repository's
`enums.h`, which is not under `src/` (§3: content is one of EMPTY, ONE..EIGHT,
MINE). -/
inductive TileContent where
  | EMPTY | ONE | TWO | THREE | FOUR | FIVE | SIX | SEVEN | EIGHT | MINE
  deriving DecidableEq, Repr

/-- Modelled from the spec: tile reveal-state enumeration from the missing
`enums.h` (§3: HIDDEN, CLICKED, REVEALED). -/
inductive TileState where
  | HIDDEN | CLICKED | REVEALED
  deriving DecidableEq, Repr

/-- Modelled from the spec: tile mark enumeration from the missing `enums.h`
(§3: NONE, FLAG, QUESTION_MARK). -/
inductive TileMark where
  | NONE | FLAG | QUESTION_MARK
  deriving DecidableEq, Repr

/-- Modelled from the spec: the `MineTile` record (its header is not under
`src/`); `MineTile()` default-constructs to EMPTY content, HIDDEN state, no
mark (§3 and the all-default reallocation in `ResetGame`).  The trivial
getters/setters `GetTileContent`/`SetTileContent` etc. are field access and
record update. -/
structure MineTile where
  content : TileContent := .EMPTY
  state : TileState := .HIDDEN
  mark : TileMark := .NONE
  deriving DecidableEq, Repr

/-- The minefield state owned by `MinefieldWindow` (field names as in the
source). -/
structure MinefieldWindow where
  m_width : Nat
  m_height : Nat
  m_cTiles : Nat
  m_cMines : Nat
  m_cRevealedTiles : Nat
  m_cFlaggedTiles : Nat
  m_bGameLost : Bool
  m_bQuestionMarksEnabled : Bool
  m_bChording : Bool
  m_aMineTiles : List MineTile
  deriving DecidableEq, Repr

/-- The constructor `MinefieldWindow(width, height, cMines)`: records the
dimensions, clamps `m_cMines` to `m_cTiles`, and allocates `m_cTiles`
default tiles. -/
def mkMinefieldWindow (width height cMines : Nat) : MinefieldWindow :=
  { m_width := width
    m_height := height
    m_cTiles := width * height
    m_cMines := if cMines > width * height then width * height else cMines
    m_cRevealedTiles := 0
    m_cFlaggedTiles := 0
    m_bGameLost := false
    m_bQuestionMarksEnabled := false
    m_bChording := false
    m_aMineTiles := List.replicate (width * height) {} }

namespace MinefieldWindow

/-- `operator()(UINT index)`: the tile at `index` in the tile array. -/
def tileAt (m : MinefieldWindow) (index : Nat) : MineTile :=
  m.m_aMineTiles.getD index {}

/-- `operator()(UINT x, UINT y)`: the tile at position `(x, y)`,
index `x + y * m_width`. -/
def tileAtXY (m : MinefieldWindow) (x y : Nat) : MineTile :=
  m.tileAt (x + y * m.m_width)

/-- Writing one entry of the tile array (the effect of a setter call on
`(*this)(i)`). -/
def setTileEntry (m : MinefieldWindow) (i : Nat) (t : MineTile) : MinefieldWindow :=
  { m with m_aMineTiles := m.m_aMineTiles.set i t }

def IsGameLost (m : MinefieldWindow) : Bool :=
  m.m_bGameLost

def IsGameWon (m : MinefieldWindow) : Bool :=
  !m.m_bGameLost && (decide (m.m_cTiles ≤ m.m_cMines + m.m_cRevealedTiles)
    && decide (m.m_cRevealedTiles > 0))

def IsGameActive (m : MinefieldWindow) : Bool :=
  !(m.IsGameLost || m.IsGameWon)

end MinefieldWindow

/-- The signed offsets `-radius, ..., radius` walked by the loops of
`GetTileGrid`. -/
def intOffsets (radius : Nat) : List Int :=
  (List.range (2 * radius + 1)).map (fun (k : Nat) => (k : Int) - (radius : Int))

namespace MinefieldWindow

/-- `GetTileGrid(x, y, radius)`: all tile indices in the square of side
`2*radius + 1` centered at `(x, y)`, clipped to the grid, sorted by index.
The source's containment test `0 <= y + yOffset && y + yOffset < m_height`
is evaluated on wrapped 32-bit unsigneds, which is exactly the signed
containment test used here for every grid smaller than 2^32 - radius. -/
def GetTileGrid (m : MinefieldWindow) (x y : Nat) (radius : Int) : List Nat :=
  if radius < 0 then
    []
  else
    (intOffsets radius.toNat).flatMap (fun yOffset =>
      if 0 ≤ (y : Int) + yOffset ∧ (y : Int) + yOffset < (m.m_height : Int) then
        (intOffsets radius.toNat).filterMap (fun xOffset =>
          if 0 ≤ (x : Int) + xOffset ∧ (x : Int) + xOffset < (m.m_width : Int) then
            some (((x : Int) + xOffset).toNat + ((y : Int) + yOffset).toNat * m.m_width)
          else none)
      else [])

/-- `GetNumberAdjacentMines(x, y)`: the number of tiles in the radius-1 grid
around `(x, y)` whose content is `MINE` (the loop's counter). -/
def GetNumberAdjacentMines (m : MinefieldWindow) (x y : Nat) : Nat :=
  (m.GetTileGrid x y 1).countP (fun tile => decide ((m.tileAt tile).content = TileContent.MINE))

end MinefieldWindow

/-- The numeric content the `switch` in `GenerateNumbers` assigns for a given
adjacent-mine count (`case 0` and `default` both give `EMPTY`). -/
def numberContent (n : Nat) : TileContent :=
  match n with
  | 1 => .ONE
  | 2 => .TWO
  | 3 => .THREE
  | 4 => .FOUR
  | 5 => .FIVE
  | 6 => .SIX
  | 7 => .SEVEN
  | 8 => .EIGHT
  | _ => .EMPTY

/-- The cell order of the double loops `for x < width: for y < height` used by
`GenerateNumbers` and `ToggleQuestionMarkUsage`. -/
def gridPositions (width height : Nat) : List (Nat × Nat) :=
  (List.range width).flatMap (fun x => (List.range height).map (fun y => (x, y)))

namespace MinefieldWindow

/-- One iteration of the `GenerateNumbers` double loop: a non-mine tile's
content is set from its current adjacent-mine count. -/
def generateNumbersCell (m : MinefieldWindow) (x y : Nat) : MinefieldWindow :=
  if (m.tileAtXY x y).content ≠ TileContent.MINE then
    m.setTileEntry (x + y * m.m_width)
      { m.tileAtXY x y with content := numberContent (m.GetNumberAdjacentMines x y) }
  else m

/-- `GenerateNumbers()`: assigns every non-mine tile its numeric content. -/
def GenerateNumbers (m : MinefieldWindow) : MinefieldWindow :=
  (gridPositions m.m_width m.m_height).foldl (fun acc p => acc.generateNumbersCell p.1 p.2) m

end MinefieldWindow

/-- The candidate-filter loop of `GenerateMines`: walks tile indices in order
against the sorted `excludedTiles` list (`itLeft`), keeping a tile when
`itLeft == itRight || tile < *itLeft` and otherwise advancing `itLeft`. -/
def dropExcluded : List Nat → List Nat → List Nat
  | [], _ => []
  | t :: ts, [] => t :: dropExcluded ts []
  | t :: ts, e :: es => if t < e then t :: dropExcluded ts (e :: es) else dropExcluded ts es

namespace MinefieldWindow

/-- The exclusion radius chosen by `GenerateMines`:
`m_cTiles - m_cMines < 9 ? 0 : 1` (truncated `Nat` subtraction matches the
`UINT` subtraction because `m_cMines ≤ m_cTiles` is maintained by clamping). -/
def mineRadius (m : MinefieldWindow) : Int :=
  if m.m_cTiles - m.m_cMines < 9 then 0 else 1

/-- `excludedTiles` of `GenerateMines`: the grid around the first click. -/
def excludedTiles (m : MinefieldWindow) (x y : Nat) : List Nat :=
  m.GetTileGrid x y m.mineRadius

/-- `tilesToToggle` before sampling: every tile index not excluded. -/
def mineCandidates (m : MinefieldWindow) (x y : Nat) : List Nat :=
  dropExcluded (List.range m.m_aMineTiles.length) (m.excludedTiles x y)

end MinefieldWindow

/-- Modelled from the spec: the contract of `Randomizer::SampleVector`
(§4.1, source not under `src/`): given candidates and a count, it returns
distinct candidate elements ("an unbiased random subset of candidate cells",
exactly `k` of them when `k ≤ len`).  A drawn selection is therefore a
duplicate-free sub-selection of the candidate list of length
`min k len`; which subset is drawn is left nondeterministic. -/
def SampleOK (m : MinefieldWindow) (x y : Nat) (sel : List Nat) : Prop :=
  sel.Sublist (m.mineCandidates x y) ∧
    sel.length = min m.m_cMines (m.mineCandidates x y).length

namespace MinefieldWindow

/-- `GenerateMines(x, y)`: marks the drawn selection `sel` (the result of
`m_rng.SampleVector(tilesToToggle, m_cMines)`, passed in explicitly and
constrained by `SampleOK`) as mines, then runs `GenerateNumbers`. -/
def GenerateMines (m : MinefieldWindow) (x y : Nat) (sel : List Nat) : MinefieldWindow :=
  (sel.foldl (fun acc t => acc.setTileEntry t { acc.tileAt t with content := .MINE }) m).GenerateNumbers

/-- The reveal of one tile inside `SetTileRevealed`:
`SetTileState(REVEALED); ++m_cRevealedTiles`. -/
def revealTile (m : MinefieldWindow) (i : Nat) : MinefieldWindow :=
  { m with
    m_aMineTiles := m.m_aMineTiles.set i { m.tileAt i with state := .REVEALED }
    m_cRevealedTiles := m.m_cRevealedTiles + 1 }

/-- The body of the inner `for` of the flood loop: reveal a not-yet-revealed,
unflagged neighbor and enqueue it when its content is `EMPTY`.  The first
component is the field, the second the tiles pushed so far. -/
def revealStep (acc : MinefieldWindow × List Nat) (tile : Nat) : MinefieldWindow × List Nat :=
  if (acc.1.tileAt tile).state ≠ TileState.REVEALED ∧ (acc.1.tileAt tile).mark ≠ TileMark.FLAG then
    if (acc.1.tileAt tile).content = TileContent.EMPTY then
      (acc.1.revealTile tile, acc.2 ++ [tile])
    else
      (acc.1.revealTile tile, acc.2)
  else acc

/-- Processing the front of the worklist: the inner `for` over
`GetTileGrid(front % m_width, front / m_width, 1)`. -/
def revealAdjacent (m : MinefieldWindow) (front : Nat) : MinefieldWindow × List Nat :=
  (m.GetTileGrid (front % m.m_width) (front / m.m_width) 1).foldl revealStep (m, [])

/-- The `while (tilesToProcess.size() != 0)` worklist loop of
`SetTileRevealed`.  The loop is embedded with explicit fuel; the returned
triple is (field, worklist left over when fuel runs out, every tile pushed
onto the worklist).  `flood_fuel_drains` below shows the fuel used by
`SetTileRevealed` always drains the worklist, so the fuel and the push trace
are instrumentation only. -/
def floodLoop : Nat → MinefieldWindow → List Nat → MinefieldWindow × List Nat × List Nat
  | _, m, [] => (m, [], [])
  | 0, m, q => (m, q, [])
  | fuel + 1, m, front :: rest =>
    let step := m.revealAdjacent front
    let next := floodLoop fuel step.1 (rest ++ step.2)
    (next.1, next.2.1, step.2 ++ next.2.2)

/-- `SetTileRevealed(x, y)`: reveal the tile if it is neither revealed nor
flagged; a mine sets `m_bGameLost`, an empty tile starts the breadth-first
flood from `x + y * m_width`. -/
def SetTileRevealed (m : MinefieldWindow) (x y : Nat) : MinefieldWindow :=
  if (m.tileAtXY x y).state ≠ TileState.REVEALED ∧ (m.tileAtXY x y).mark ≠ TileMark.FLAG then
    let m1 := m.revealTile (x + y * m.m_width)
    if (m.tileAtXY x y).content = TileContent.MINE then
      { m1 with m_bGameLost := true }
    else if (m.tileAtXY x y).content = TileContent.EMPTY then
      (floodLoop (m1.m_aMineTiles.length + 1) m1 [x + y * m.m_width]).1
    else m1
  else m

/-- The press loop shared by `BeginChord`, `MovePos` and the single-click
branch of `OnLButtonDown`: every HIDDEN, unflagged tile of the list becomes
CLICKED. -/
def pressClicked (m : MinefieldWindow) (tiles : List Nat) : MinefieldWindow :=
  tiles.foldl
    (fun acc t =>
      if (acc.tileAt t).state = TileState.HIDDEN ∧ (acc.tileAt t).mark ≠ TileMark.FLAG then
        acc.setTileEntry t { acc.tileAt t with state := .CLICKED }
      else acc) m

/-- The revert loop shared by `EndChord`, `MovePos` and `OnMouseLeave`: every
CLICKED tile of the list becomes HIDDEN again. -/
def revertClicked (m : MinefieldWindow) (tiles : List Nat) : MinefieldWindow :=
  tiles.foldl
    (fun acc t =>
      if (acc.tileAt t).state = TileState.CLICKED then
        acc.setTileEntry t { acc.tileAt t with state := .HIDDEN }
      else acc) m

/-- `BeginChord(x, y)`: press the radius-1 neighborhood and set
`m_bChording`. -/
def BeginChord (m : MinefieldWindow) (x y : Nat) : MinefieldWindow :=
  { m.pressClicked (m.GetTileGrid x y 1) with m_bChording := true }

/-- `EndChord(x, y)`: if the center is revealed and the flagged-neighbor
count matches `GetNumberAdjacentMines`, call `SetTileRevealed` on every grid
tile; otherwise revert the CLICKED preview.  Clears `m_bChording`.  (The
`IsGameLost`/`IsGameWon` checks after the reveal loop only notify the facade.) -/
def EndChord (m : MinefieldWindow) (x y : Nat) : MinefieldWindow :=
  let m' :=
    if (m.tileAtXY x y).state = TileState.REVEALED then
      let cFlags := (m.GetTileGrid x y 1).countP
        (fun t => decide ((m.tileAt t).mark = TileMark.FLAG))
      if cFlags = m.GetNumberAdjacentMines x y then
        (m.GetTileGrid x y 1).foldl
          (fun acc t => acc.SetTileRevealed (t % acc.m_width) (t / acc.m_width)) m
      else
        m.revertClicked (m.GetTileGrid x y 1)
    else
      m.revertClicked (m.GetTileGrid x y 1)
  { m' with m_bChording := false }

/-- `MovePos(oldPos, newPos, tileUpdateRadius, forceUpdate)`: when the cell
changed (or forced), revert the CLICKED tiles around the old position and
press the tiles around the new one. -/
def MovePos (m : MinefieldWindow) (oldX oldY newX newY : Nat)
    (tileUpdateRadius : Nat) (forceUpdate : Bool) : MinefieldWindow :=
  if oldX ≠ newX ∨ oldY ≠ newY ∨ forceUpdate = true then
    let m1 := m.revertClicked (m.GetTileGrid oldX oldY (tileUpdateRadius : Int))
    m1.pressClicked (m1.GetTileGrid newX newY (tileUpdateRadius : Int))
  else m

/-- `ResetGame()`: clears the lost flag and both counters and reallocates the
tile array to `m_cTiles` default tiles (facade notifications dropped). -/
def ResetGame (m : MinefieldWindow) : MinefieldWindow :=
  { m with
    m_bGameLost := false
    m_cRevealedTiles := 0
    m_cFlaggedTiles := 0
    m_aMineTiles := List.replicate m.m_cTiles {} }

/-- `Resize(width, height, cMines)`: when any parameter differs, store the new
configuration, clamp `m_cMines` to the new `m_cTiles`, reset, and return
`TRUE`; otherwise mutate nothing and return `FALSE`. -/
def Resize (m : MinefieldWindow) (width height cMines : Nat) : MinefieldWindow × Bool :=
  if m.m_width ≠ width ∨ m.m_height ≠ height ∨ m.m_cMines ≠ cMines then
    let m1 := { m with
      m_width := width
      m_height := height
      m_cTiles := width * height
      m_cMines := if cMines > width * height then width * height else cMines }
    (m1.ResetGame, true)
  else (m, false)

/-- `ToggleQuestionMarkUsage()`: flips the toggle; when it turned off, sweeps
every QUESTION_MARK mark back to NONE. -/
def ToggleQuestionMarkUsage (m : MinefieldWindow) : MinefieldWindow :=
  let m1 := { m with m_bQuestionMarksEnabled := !m.m_bQuestionMarksEnabled }
  if m1.m_bQuestionMarksEnabled = false then
    (gridPositions m1.m_width m1.m_height).foldl
      (fun acc p =>
        if (acc.tileAtXY p.1 p.2).mark = TileMark.QUESTION_MARK then
          acc.setTileEntry (p.1 + p.2 * acc.m_width)
            { acc.tileAtXY p.1 p.2 with mark := .NONE }
        else acc) m1
  else m1

/-- The single-click preview branch of `OnLButtonDown`: a HIDDEN, unflagged
tile under the cursor becomes CLICKED. -/
def pressSingle (m : MinefieldWindow) (x y : Nat) : MinefieldWindow :=
  if (m.tileAtXY x y).state = TileState.HIDDEN ∧ (m.tileAtXY x y).mark ≠ TileMark.FLAG then
    m.setTileEntry (x + y * m.m_width) { m.tileAtXY x y with state := .CLICKED }
  else m

/-- The reveal branch of `OnLButtonUp`: on the first reveal
(`m_cRevealedTiles == 0`) mines are generated first, then the tile is
revealed. -/
def revealAction (m : MinefieldWindow) (x y : Nat) (sel : List Nat) : MinefieldWindow :=
  let m0 := if m.m_cRevealedTiles = 0 then m.GenerateMines x y sel else m
  m0.SetTileRevealed x y

/-- The mark-cycling branch of `OnRButtonDown` on a HIDDEN tile:
NONE → FLAG (count up), FLAG → QUESTION_MARK or NONE (count down),
QUESTION_MARK → NONE. -/
def cycleMark (m : MinefieldWindow) (x y : Nat) : MinefieldWindow :=
  if (m.tileAtXY x y).state = TileState.HIDDEN then
    match (m.tileAtXY x y).mark with
    | .NONE =>
      { m.setTileEntry (x + y * m.m_width) { m.tileAtXY x y with mark := .FLAG } with
        m_cFlaggedTiles := m.m_cFlaggedTiles + 1 }
    | .FLAG =>
      { m.setTileEntry (x + y * m.m_width)
          { m.tileAtXY x y with
            mark := if m.m_bQuestionMarksEnabled then .QUESTION_MARK else .NONE } with
        m_cFlaggedTiles := m.m_cFlaggedTiles - 1 }
    | .QUESTION_MARK =>
      m.setTileEntry (x + y * m.m_width) { m.tileAtXY x y with mark := .NONE }
  else m

/-- The revert loop of `OnMouseLeave`: CLICKED tiles around the last position
return to HIDDEN, radius 1 while chording and 0 otherwise. -/
def mouseLeaveRevert (m : MinefieldWindow) (x y : Nat) : MinefieldWindow :=
  m.revertClicked (m.GetTileGrid x y (if m.m_bChording then 1 else 0))

end MinefieldWindow

/-- One state-mutating interaction of the engine, as dispatched by the input
handlers of `MinefieldWindow`.  In-bounds coordinates reflect the clamping of
`MouseToTilePos`; the `IsGameActive` guards reflect the gating of the
handlers; the reveal step carries the `OnLButtonUp` conditions (the tile was
CLICKED) and the `SampleOK` contract of the Randomizer draw used when mines
are generated lazily on the first reveal. -/
inductive Step : MinefieldWindow → MinefieldWindow → Prop where
  | pressSingle (m : MinefieldWindow) (x y : Nat) (hx : x < m.m_width) (hy : y < m.m_height)
      (hA : m.IsGameActive = true) : Step m (m.pressSingle x y)
  | beginChord (m : MinefieldWindow) (x y : Nat) (hx : x < m.m_width) (hy : y < m.m_height)
      (hA : m.IsGameActive = true) : Step m (m.BeginChord x y)
  | endChord (m : MinefieldWindow) (x y : Nat) (hx : x < m.m_width) (hy : y < m.m_height)
      (hA : m.IsGameActive = true) : Step m (m.EndChord x y)
  | reveal (m : MinefieldWindow) (x y : Nat) (sel : List Nat)
      (hx : x < m.m_width) (hy : y < m.m_height) (hA : m.IsGameActive = true)
      (hC : (m.tileAtXY x y).state = TileState.CLICKED)
      (hs : m.m_cRevealedTiles = 0 → SampleOK m x y sel) :
      Step m (m.revealAction x y sel)
  | cycleMark (m : MinefieldWindow) (x y : Nat) (hx : x < m.m_width) (hy : y < m.m_height)
      (hA : m.IsGameActive = true) : Step m (m.cycleMark x y)
  | movePos (m : MinefieldWindow) (oldX oldY newX newY r : Nat) (force : Bool)
      (hox : oldX < m.m_width) (hoy : oldY < m.m_height)
      (hnx : newX < m.m_width) (hny : newY < m.m_height)
      (hA : m.IsGameActive = true) : Step m (m.MovePos oldX oldY newX newY r force)
  | mouseLeave (m : MinefieldWindow) (x y : Nat) (hx : x < m.m_width) (hy : y < m.m_height)
      (hA : m.IsGameActive = true) : Step m (m.mouseLeaveRevert x y)
  | reset (m : MinefieldWindow) : Step m m.ResetGame
  | resize (m : MinefieldWindow) (width height cMines : Nat) :
      Step m (m.Resize width height cMines).1
  | toggleQM (m : MinefieldWindow) : Step m m.ToggleQuestionMarkUsage
  | setChording (m : MinefieldWindow) (b : Bool) : Step m { m with m_bChording := b }

/-- States reachable from a given start state by engine interactions. -/
inductive ReachableFrom (m0 : MinefieldWindow) : MinefieldWindow → Prop where
  | refl : ReachableFrom m0 m0
  | tail {m m' : MinefieldWindow} : ReachableFrom m0 m → Step m m' → ReachableFrom m0 m'

/-- States reachable from some freshly constructed minefield. -/
def Reachable (m : MinefieldWindow) : Prop :=
  ∃ width height cMines, ReachableFrom (mkMinefieldWindow width height cMines) m

/-- The number of tiles whose state is REVEALED. -/
def revealedTileCount (m : MinefieldWindow) : Nat :=
  m.m_aMineTiles.countP (fun t => decide (t.state = TileState.REVEALED))

/-- The number of tiles whose mark is FLAG. -/
def flaggedTileCount (m : MinefieldWindow) : Nat :=
  m.m_aMineTiles.countP (fun t => decide (t.mark = TileMark.FLAG))

/-- Tile `i` is revealed. -/
def revealedAt (m : MinefieldWindow) (i : Nat) : Prop :=
  (m.tileAt i).state = TileState.REVEALED

/-- Tile `i` holds a mine. -/
def mineAt (m : MinefieldWindow) (i : Nat) : Prop :=
  (m.tileAt i).content = TileContent.MINE

end Minesweeper

/-!
## Basic facts about the tile array
-/

namespace Minesweeper

theorem tileAt_eq_getElem (m : MinefieldWindow) (i : Nat) (h : i < m.m_aMineTiles.length) :
    m.tileAt i = m.m_aMineTiles[i] := by
  simp [MinefieldWindow.tileAt, List.getD_eq_getElem?_getD, List.getElem?_eq_getElem h]

theorem tileAt_of_length_le (m : MinefieldWindow) (i : Nat) (h : m.m_aMineTiles.length ≤ i) :
    m.tileAt i = {} := by
  simp [MinefieldWindow.tileAt, List.getD_eq_getElem?_getD, List.getElem?_eq_none h]

@[simp] theorem setTileEntry_width (m : MinefieldWindow) (i : Nat) (t : MineTile) :
    (m.setTileEntry i t).m_width = m.m_width := rfl

@[simp] theorem setTileEntry_height (m : MinefieldWindow) (i : Nat) (t : MineTile) :
    (m.setTileEntry i t).m_height = m.m_height := rfl

@[simp] theorem setTileEntry_cTiles (m : MinefieldWindow) (i : Nat) (t : MineTile) :
    (m.setTileEntry i t).m_cTiles = m.m_cTiles := rfl

@[simp] theorem setTileEntry_cMines (m : MinefieldWindow) (i : Nat) (t : MineTile) :
    (m.setTileEntry i t).m_cMines = m.m_cMines := rfl

@[simp] theorem setTileEntry_cRevealedTiles (m : MinefieldWindow) (i : Nat) (t : MineTile) :
    (m.setTileEntry i t).m_cRevealedTiles = m.m_cRevealedTiles := rfl

@[simp] theorem setTileEntry_cFlaggedTiles (m : MinefieldWindow) (i : Nat) (t : MineTile) :
    (m.setTileEntry i t).m_cFlaggedTiles = m.m_cFlaggedTiles := rfl

@[simp] theorem setTileEntry_bGameLost (m : MinefieldWindow) (i : Nat) (t : MineTile) :
    (m.setTileEntry i t).m_bGameLost = m.m_bGameLost := rfl

@[simp] theorem setTileEntry_bQuestionMarksEnabled (m : MinefieldWindow) (i : Nat) (t : MineTile) :
    (m.setTileEntry i t).m_bQuestionMarksEnabled = m.m_bQuestionMarksEnabled := rfl

@[simp] theorem setTileEntry_bChording (m : MinefieldWindow) (i : Nat) (t : MineTile) :
    (m.setTileEntry i t).m_bChording = m.m_bChording := rfl

@[simp] theorem setTileEntry_length (m : MinefieldWindow) (i : Nat) (t : MineTile) :
    (m.setTileEntry i t).m_aMineTiles.length = m.m_aMineTiles.length := by
  simp [MinefieldWindow.setTileEntry]

theorem tileAt_setTileEntry_self (m : MinefieldWindow) (i : Nat) (t : MineTile)
    (h : i < m.m_aMineTiles.length) : (m.setTileEntry i t).tileAt i = t := by
  simp [MinefieldWindow.setTileEntry, MinefieldWindow.tileAt, List.getD_eq_getElem?_getD,
    List.getElem?_set_self h]

theorem tileAt_setTileEntry_ne (m : MinefieldWindow) (i j : Nat) (t : MineTile)
    (h : i ≠ j) : (m.setTileEntry i t).tileAt j = m.tileAt j := by
  simp [MinefieldWindow.setTileEntry, MinefieldWindow.tileAt, List.getD_eq_getElem?_getD,
    List.getElem?_set_ne h]

theorem setTileEntry_of_length_le (m : MinefieldWindow) (i : Nat) (t : MineTile)
    (h : m.m_aMineTiles.length ≤ i) : m.setTileEntry i t = m := by
  rw [MinefieldWindow.setTileEntry, List.set_eq_of_length_le h]

theorem countP_setTileEntry (m : MinefieldWindow) (i : Nat) (t : MineTile) (p : MineTile → Bool)
    (h : i < m.m_aMineTiles.length) :
    (m.setTileEntry i t).m_aMineTiles.countP p
      = (m.m_aMineTiles.countP p - (if p (m.tileAt i) then 1 else 0))
        + (if p t then 1 else 0) := by
  rw [tileAt_eq_getElem m i h]
  simpa [MinefieldWindow.setTileEntry] using List.countP_set p m.m_aMineTiles i t h

/-!
## Facts about `GetTileGrid`
-/

theorem mem_intOffsets {radius : Nat} {o : Int} :
    o ∈ intOffsets radius ↔ -(radius : Int) ≤ o ∧ o ≤ (radius : Int) := by
  unfold intOffsets
  constructor
  · intro h
    obtain ⟨k, hk, hko⟩ := List.mem_map.1 h
    rw [List.mem_range] at hk
    omega
  · intro h
    exact List.mem_map.2 ⟨(o + radius).toNat, List.mem_range.2 (by omega), by omega⟩

/-- Membership characterization for `GetTileGrid` with nonnegative radius. -/
theorem mem_GetTileGrid {m : MinefieldWindow} {x y : Nat} {radius : Int} (hr : 0 ≤ radius)
    {t : Nat} :
    t ∈ m.GetTileGrid x y radius ↔
      ∃ cx cy : Nat, cx < m.m_width ∧ cy < m.m_height ∧ t = cx + cy * m.m_width ∧
        -radius ≤ (cx : Int) - (x : Int) ∧ (cx : Int) - (x : Int) ≤ radius ∧
        -radius ≤ (cy : Int) - (y : Int) ∧ (cy : Int) - (y : Int) ≤ radius := by
  rw [MinefieldWindow.GetTileGrid, if_neg (by omega)]
  rw [List.mem_flatMap]
  constructor
  · rintro ⟨yo, hyo, ht⟩
    rw [mem_intOffsets] at hyo
    obtain ⟨hyo1, hyo2⟩ := hyo
    by_cases hyin : 0 ≤ (y : Int) + yo ∧ (y : Int) + yo < (m.m_height : Int)
    · rw [if_pos hyin, List.mem_filterMap] at ht
      obtain ⟨xo, hxo, ht⟩ := ht
      rw [mem_intOffsets] at hxo
      obtain ⟨hxo1, hxo2⟩ := hxo
      by_cases hxin : 0 ≤ (x : Int) + xo ∧ (x : Int) + xo < (m.m_width : Int)
      · rw [if_pos hxin] at ht
        injection ht with ht
        exact ⟨((x : Int) + xo).toNat, ((y : Int) + yo).toNat, by omega, by omega, ht.symm,
          by omega, by omega, by omega, by omega⟩
      · rw [if_neg hxin] at ht
        exact absurd ht (by simp)
    · rw [if_neg hyin] at ht
      exact absurd ht (by simp)
  · rintro ⟨cx, cy, hcx, hcy, rfl, h1, h2, h3, h4⟩
    refine ⟨(cy : Int) - (y : Int), mem_intOffsets.2 ⟨by omega, by omega⟩, ?_⟩
    rw [if_pos (by constructor <;> omega), List.mem_filterMap]
    refine ⟨(cx : Int) - (x : Int), mem_intOffsets.2 ⟨by omega, by omega⟩, ?_⟩
    rw [if_pos (by constructor <;> omega)]
    have e1 : ((x : Int) + ((cx : Int) - (x : Int))).toNat = cx := by omega
    have e2 : ((y : Int) + ((cy : Int) - (y : Int))).toNat = cy := by omega
    rw [e1, e2]

theorem mem_GetTileGrid_lt {m : MinefieldWindow} {x y : Nat} {radius : Int} {t : Nat}
    (ht : t ∈ m.GetTileGrid x y radius) : t < m.m_width * m.m_height := by
  by_cases hr : 0 ≤ radius
  · obtain ⟨cx, cy, hcx, hcy, rfl, -⟩ := (mem_GetTileGrid hr).1 ht
    calc cx + cy * m.m_width < m.m_width + cy * m.m_width := by omega
    _ = (cy + 1) * m.m_width := by ring
    _ ≤ m.m_height * m.m_width := Nat.mul_le_mul_right _ (by omega)
    _ = m.m_width * m.m_height := Nat.mul_comm _ _
  · rw [MinefieldWindow.GetTileGrid, if_pos (by omega)] at ht
    simp at ht

theorem center_mem_GetTileGrid {m : MinefieldWindow} {x y : Nat} {radius : Int}
    (hr : 0 ≤ radius) (hx : x < m.m_width) (hy : y < m.m_height) :
    x + y * m.m_width ∈ m.GetTileGrid x y radius := by
  exact (mem_GetTileGrid hr).2 ⟨x, y, hx, hy, rfl, by omega, by omega, by omega, by omega⟩

theorem GetTileGrid_zero {m : MinefieldWindow} {x y : Nat}
    (hx : x < m.m_width) (hy : y < m.m_height) :
    m.GetTileGrid x y 0 = [x + y * m.m_width] := by
  rw [MinefieldWindow.GetTileGrid, if_neg (by omega)]
  have : (0 : Int).toNat = 0 := rfl
  rw [this]
  have hoffs : intOffsets 0 = [0] := rfl
  rw [hoffs]
  simp only [List.flatMap_cons, List.flatMap_nil, List.append_nil, List.filterMap_cons,
    List.filterMap_nil]
  rw [if_pos (by constructor <;> omega), if_pos (by constructor <;> omega)]
  have e1 : ((x : Int) + 0).toNat = x := by omega
  have e2 : ((y : Int) + 0).toNat = y := by omega
  simp only [List.append_nil, e1, e2]

/-- `GetTileGrid` reads only the dimensions of the minefield. -/
theorem GetTileGrid_congr {m m' : MinefieldWindow} (hw : m.m_width = m'.m_width)
    (hh : m.m_height = m'.m_height) (x y : Nat) (radius : Int) :
    m.GetTileGrid x y radius = m'.GetTileGrid x y radius := by
  rw [MinefieldWindow.GetTileGrid, MinefieldWindow.GetTileGrid, hw, hh]

theorem pairwise_intOffsets (radius : Nat) : (intOffsets radius).Pairwise (· < ·) := by
  unfold intOffsets
  rw [List.pairwise_map]
  exact (List.pairwise_lt_range _).imp (by omega)

theorem pairwise_GetTileGrid (m : MinefieldWindow) (x y : Nat) (radius : Int) :
    (m.GetTileGrid x y radius).Pairwise (· < ·) := by
  rw [MinefieldWindow.GetTileGrid]
  split
  · exact List.Pairwise.nil
  · next hr =>
    apply List.pairwise_flatMap.2
    constructor
    · intro yo hyo
      split
      · next hyin =>
        apply List.pairwise_filterMap.2
        apply (pairwise_intOffsets radius.toNat).imp
        intro xo xo' hlt t ht t' ht'
        split at ht
        · next hx1 =>
          split at ht'
          · next hx2 =>
            injection ht with ht
            injection ht' with ht'
            omega
          · exact absurd ht' (by simp)
        · exact absurd ht (by simp)
      · exact List.Pairwise.nil
    · apply (pairwise_intOffsets radius.toNat).imp
      intro yo yo' hlt t ht t' ht'
      split at ht
      · next hy1 =>
        split at ht'
        · next hy2 =>
          simp only [List.mem_filterMap] at ht ht'
          obtain ⟨xo, -, ht⟩ := ht
          obtain ⟨xo', -, ht'⟩ := ht'
          split at ht
          · next hx1 =>
            split at ht'
            · next hx2 =>
              injection ht with ht
              injection ht' with ht'
              subst ht ht'
              have hw : ((x : Int) + xo).toNat < m.m_width := by omega
              have h1 : ((y : Int) + yo).toNat + 1 ≤ ((y : Int) + yo').toNat := by omega
              calc ((x : Int) + xo).toNat + ((y : Int) + yo).toNat * m.m_width
                  < (((y : Int) + yo).toNat + 1) * m.m_width := by
                    rw [Nat.add_mul, Nat.one_mul]; omega
                _ ≤ ((y : Int) + yo').toNat * m.m_width := Nat.mul_le_mul_right _ h1
                _ ≤ ((x : Int) + xo').toNat + ((y : Int) + yo').toNat * m.m_width := by omega
            · exact absurd ht' (by simp)
          · exact absurd ht (by simp)
        · exact absurd ht' (by simp)
      · exact absurd ht (by simp)

theorem nodup_GetTileGrid (m : MinefieldWindow) (x y : Nat) (radius : Int) :
    (m.GetTileGrid x y radius).Nodup :=
  (pairwise_GetTileGrid m x y radius).imp Nat.ne_of_lt

theorem length_GetTileGrid_le (m : MinefieldWindow) (x y : Nat) (radius : Int) :
    (m.GetTileGrid x y radius).length ≤ (2 * radius.toNat + 1) * (2 * radius.toNat + 1) := by
  rw [MinefieldWindow.GetTileGrid]
  split
  · simp
  · rw [List.length_flatMap]
    have hlen : ∀ o ∈ (intOffsets radius.toNat).map
        (List.length ∘ fun yOffset =>
          if 0 ≤ (y : Int) + yOffset ∧ (y : Int) + yOffset < (m.m_height : Int) then
            (intOffsets radius.toNat).filterMap (fun xOffset =>
              if 0 ≤ (x : Int) + xOffset ∧ (x : Int) + xOffset < (m.m_width : Int) then
                some (((x : Int) + xOffset).toNat + ((y : Int) + yOffset).toNat * m.m_width)
              else none)
          else []), o ≤ 2 * radius.toNat + 1 := by
      intro o ho
      simp only [List.mem_map, Function.comp] at ho
      obtain ⟨yo, -, rfl⟩ := ho
      split
      · calc (List.filterMap _ (intOffsets radius.toNat)).length
            ≤ (intOffsets radius.toNat).length := List.length_filterMap_le _ _
          _ = 2 * radius.toNat + 1 := by simp [intOffsets]
      · simp
    calc (List.map _ (intOffsets radius.toNat)).sum
        ≤ (List.map _ (intOffsets radius.toNat)).length • (2 * radius.toNat + 1) :=
          List.sum_le_card_nsmul _ _ hlen
      _ = (2 * radius.toNat + 1) * (2 * radius.toNat + 1) := by
          simp [intOffsets, Nat.smul_one_eq_cast]

end Minesweeper

/-!
## Facts about the candidate filter of `GenerateMines`
-/

namespace Minesweeper

theorem dropExcluded_nil (ts : List Nat) : dropExcluded ts [] = ts := by
  induction ts with
  | nil => rfl
  | cons t ts ih => rw [dropExcluded, ih]

theorem dropExcluded_sublist (ts excl : List Nat) : (dropExcluded ts excl).Sublist ts := by
  induction ts generalizing excl with
  | nil => rw [dropExcluded]
  | cons t ts ih =>
    cases excl with
    | nil => exact (ih []).cons₂ t
    | cons e es =>
      rw [dropExcluded]
      split
      · exact (ih (e :: es)).cons₂ t
      · exact (ih es).cons t

theorem dropExcluded_range' (k : Nat) : ∀ (a : Nat) (excl : List Nat),
    excl.Pairwise (· < ·) → (∀ e ∈ excl, a ≤ e) →
    dropExcluded (List.range' a k) excl
      = (List.range' a k).filter (fun t => decide (t ∉ excl)) := by
  induction k with
  | zero => intro a excl _ _; rfl
  | succ k ih =>
    intro a excl hp hb
    rw [List.range'_succ]
    cases excl with
    | nil =>
      rw [dropExcluded_nil]
      simp
    | cons e es =>
      by_cases hae : a < e
      · have hnotin : a ∉ e :: es := by
          intro hmem
          rcases List.mem_cons.1 hmem with h | h
          · omega
          · have := List.rel_of_pairwise_cons hp h
            omega
        rw [dropExcluded, if_pos hae, List.filter_cons, if_pos (by simpa using hnotin)]
        rw [ih (a + 1) (e :: es) hp]
        intro e' he'
        rcases List.mem_cons.1 he' with h | h
        · omega
        · have := List.rel_of_pairwise_cons hp h
          omega
      · have hea : a = e := by
          have := hb e (List.mem_cons_self e es)
          omega
        rw [dropExcluded, if_neg hae, List.filter_cons, if_neg (by simp [hea.symm])]
        rw [ih (a + 1) es (List.Pairwise.sublist (List.sublist_cons_self e es) hp)]
        · apply List.filter_congr
          intro t htmem
          rw [List.mem_range'] at htmem
          obtain ⟨i, hi, rfl⟩ := htmem
          have hne : a + 1 + 1 * i ≠ e := by omega
          rw [decide_eq_decide]
          refine ⟨fun h hm => ?_, fun h hm => h (List.mem_cons_of_mem _ hm)⟩
          rcases List.mem_cons.1 hm with h1 | h1
          · exact hne h1
          · exact h h1
        · intro e' he'
          have := List.rel_of_pairwise_cons hp he'
          omega

theorem mineCandidates_eq_filter (m : MinefieldWindow) (x y : Nat) :
    m.mineCandidates x y
      = (List.range m.m_aMineTiles.length).filter
          (fun t => decide (t ∉ m.excludedTiles x y)) := by
  rw [MinefieldWindow.mineCandidates, List.range_eq_range']
  exact dropExcluded_range' _ 0 _
    (pairwise_GetTileGrid m x y m.mineRadius) (fun e _ => Nat.zero_le e)

theorem mem_mineCandidates {m : MinefieldWindow} {x y t : Nat} :
    t ∈ m.mineCandidates x y
      ↔ t < m.m_aMineTiles.length ∧ t ∉ m.excludedTiles x y := by
  rw [mineCandidates_eq_filter, List.mem_filter, List.mem_range]
  simp

theorem nodup_mineCandidates (m : MinefieldWindow) (x y : Nat) :
    (m.mineCandidates x y).Nodup := by
  rw [mineCandidates_eq_filter]
  exact (List.nodup_range _).filter _

theorem length_mineCandidates (m : MinefieldWindow) (x y : Nat)
    (hsub : ∀ e ∈ m.excludedTiles x y, e < m.m_aMineTiles.length) :
    (m.mineCandidates x y).length
      = m.m_aMineTiles.length - (m.excludedTiles x y).length := by
  rw [mineCandidates_eq_filter]
  have hperm : ((List.range m.m_aMineTiles.length).filter
      (fun t => decide (t ∈ m.excludedTiles x y))).Perm (m.excludedTiles x y) := by
    apply List.perm_of_nodup_nodup_toFinset_eq
    · exact (List.nodup_range _).filter _
    · exact nodup_GetTileGrid m x y m.mineRadius
    · ext a
      simp only [List.mem_toFinset, List.mem_filter, List.mem_range, decide_eq_true_eq]
      exact ⟨fun h => h.2, fun h => ⟨hsub a h, h⟩⟩
  have hsplit := List.length_eq_countP_add_countP
    (fun t => decide (t ∈ m.excludedTiles x y)) (List.range m.m_aMineTiles.length)
  rw [List.length_range] at hsplit
  have h1 : ((List.range m.m_aMineTiles.length).filter
      (fun t => decide (t ∈ m.excludedTiles x y))).length = (m.excludedTiles x y).length :=
    hperm.length_eq
  rw [List.countP_eq_length_filter, List.countP_eq_length_filter] at hsplit
  rw [h1] at hsplit
  have h2 : ((List.range m.m_aMineTiles.length).filter
        (fun t => decide (t ∉ m.excludedTiles x y)))
      = ((List.range m.m_aMineTiles.length).filter
        (fun t => decide ¬(decide (t ∈ m.excludedTiles x y)) = true)) := by
    apply List.filter_congr
    intro t _
    simp
  rw [h2]
  omega

end Minesweeper

/-!
## Frame lemmas for the press / revert preview loops
-/

namespace Minesweeper

theorem countP_setTileEntry_eq (m : MinefieldWindow) (i : Nat) (t : MineTile)
    (p : MineTile → Bool) (hold : p (m.tileAt i) = p t) :
    (m.setTileEntry i t).m_aMineTiles.countP p = m.m_aMineTiles.countP p := by
  by_cases h : i < m.m_aMineTiles.length
  · rw [countP_setTileEntry m i t p h, ← hold]
    rcases h' : p (m.tileAt i) with _ | _
    · simp
    · have hpos : 0 < m.m_aMineTiles.countP p := by
        rw [List.countP_pos]
        refine ⟨m.m_aMineTiles[i], List.getElem_mem h, ?_⟩
        rw [← tileAt_eq_getElem m i h]
        exact h'
      simp
      omega
  · rw [setTileEntry_of_length_le m i t (Nat.le_of_not_lt h)]

theorem pressClicked_nil (m : MinefieldWindow) : m.pressClicked [] = m := rfl

theorem pressClicked_cons (m : MinefieldWindow) (t : Nat) (ts : List Nat) :
    m.pressClicked (t :: ts)
      = (if (m.tileAt t).state = TileState.HIDDEN ∧ (m.tileAt t).mark ≠ TileMark.FLAG then
          m.setTileEntry t { m.tileAt t with state := .CLICKED }
        else m).pressClicked ts := by
  rw [MinefieldWindow.pressClicked, List.foldl_cons]
  split <;> rfl

theorem revertClicked_nil (m : MinefieldWindow) : m.revertClicked [] = m := rfl

theorem revertClicked_cons (m : MinefieldWindow) (t : Nat) (ts : List Nat) :
    m.revertClicked (t :: ts)
      = (if (m.tileAt t).state = TileState.CLICKED then
          m.setTileEntry t { m.tileAt t with state := .HIDDEN }
        else m).revertClicked ts := by
  rw [MinefieldWindow.revertClicked, List.foldl_cons]
  split <;> rfl

/-- Non-tile fields and the array length survive the press loop. -/
theorem pressClicked_fields (m : MinefieldWindow) (l : List Nat) :
    (m.pressClicked l).m_width = m.m_width ∧ (m.pressClicked l).m_height = m.m_height ∧
    (m.pressClicked l).m_cTiles = m.m_cTiles ∧ (m.pressClicked l).m_cMines = m.m_cMines ∧
    (m.pressClicked l).m_cRevealedTiles = m.m_cRevealedTiles ∧
    (m.pressClicked l).m_cFlaggedTiles = m.m_cFlaggedTiles ∧
    (m.pressClicked l).m_bGameLost = m.m_bGameLost ∧
    (m.pressClicked l).m_bQuestionMarksEnabled = m.m_bQuestionMarksEnabled ∧
    (m.pressClicked l).m_bChording = m.m_bChording ∧
    (m.pressClicked l).m_aMineTiles.length = m.m_aMineTiles.length := by
  induction l generalizing m with
  | nil => rw [pressClicked_nil]; simp
  | cons t ts ih =>
    rw [pressClicked_cons]
    split
    · simpa using ih (m.setTileEntry t { m.tileAt t with state := .CLICKED })
    · exact ih m

/-- Non-tile fields and the array length survive the revert loop. -/
theorem revertClicked_fields (m : MinefieldWindow) (l : List Nat) :
    (m.revertClicked l).m_width = m.m_width ∧ (m.revertClicked l).m_height = m.m_height ∧
    (m.revertClicked l).m_cTiles = m.m_cTiles ∧ (m.revertClicked l).m_cMines = m.m_cMines ∧
    (m.revertClicked l).m_cRevealedTiles = m.m_cRevealedTiles ∧
    (m.revertClicked l).m_cFlaggedTiles = m.m_cFlaggedTiles ∧
    (m.revertClicked l).m_bGameLost = m.m_bGameLost ∧
    (m.revertClicked l).m_bQuestionMarksEnabled = m.m_bQuestionMarksEnabled ∧
    (m.revertClicked l).m_bChording = m.m_bChording ∧
    (m.revertClicked l).m_aMineTiles.length = m.m_aMineTiles.length := by
  induction l generalizing m with
  | nil => rw [revertClicked_nil]; simp
  | cons t ts ih =>
    rw [revertClicked_cons]
    split
    · simpa using ih (m.setTileEntry t { m.tileAt t with state := .HIDDEN })
    · exact ih m

/-- Pointwise effect of the press loop: a tile is unchanged, or it was a
HIDDEN unflagged tile of the list and became CLICKED. -/
theorem pressClicked_tileAt (m : MinefieldWindow) (l : List Nat) (j : Nat) :
    (m.pressClicked l).tileAt j = m.tileAt j ∨
      ((m.pressClicked l).tileAt j = { m.tileAt j with state := .CLICKED }
        ∧ (m.tileAt j).state = TileState.HIDDEN ∧ (m.tileAt j).mark ≠ TileMark.FLAG ∧ j ∈ l) := by
  induction l generalizing m with
  | nil => exact Or.inl rfl
  | cons t ts ih =>
    rw [pressClicked_cons]
    split
    · next hguard =>
      by_cases hb : t < m.m_aMineTiles.length
      · by_cases hj : t = j
        · subst hj
          rcases ih (m.setTileEntry t { m.tileAt t with state := .CLICKED }) with h | ⟨h, hs, hm, hmem⟩
          · rw [h, tileAt_setTileEntry_self m t _ hb]
            exact Or.inr ⟨rfl, hguard.1, hguard.2, List.mem_cons_self t ts⟩
          · rw [tileAt_setTileEntry_self m t _ hb] at hs
            exact absurd hs (by simp)
        · rcases ih (m.setTileEntry t { m.tileAt t with state := .CLICKED }) with h | ⟨h, hs, hm, hmem⟩
          · rw [h, tileAt_setTileEntry_ne m t j _ hj]
            exact Or.inl rfl
          · rw [tileAt_setTileEntry_ne m t j _ hj] at h hs hm
            exact Or.inr ⟨h, hs, hm, List.mem_cons_of_mem t hmem⟩
      · rw [setTileEntry_of_length_le m t _ (Nat.le_of_not_lt hb)]
        rcases ih m with h | ⟨h, hs, hm, hmem⟩
        · exact Or.inl h
        · exact Or.inr ⟨h, hs, hm, List.mem_cons_of_mem t hmem⟩
    · rcases ih m with h | ⟨h, hs, hm, hmem⟩
      · exact Or.inl h
      · exact Or.inr ⟨h, hs, hm, List.mem_cons_of_mem t hmem⟩

/-- Pointwise effect of the revert loop: a tile is unchanged, or it was a
CLICKED tile of the list and became HIDDEN. -/
theorem revertClicked_tileAt (m : MinefieldWindow) (l : List Nat) (j : Nat) :
    (m.revertClicked l).tileAt j = m.tileAt j ∨
      ((m.revertClicked l).tileAt j = { m.tileAt j with state := .HIDDEN }
        ∧ (m.tileAt j).state = TileState.CLICKED ∧ j ∈ l) := by
  induction l generalizing m with
  | nil => exact Or.inl rfl
  | cons t ts ih =>
    rw [revertClicked_cons]
    split
    · next hguard =>
      by_cases hb : t < m.m_aMineTiles.length
      · by_cases hj : t = j
        · subst hj
          rcases ih (m.setTileEntry t { m.tileAt t with state := .HIDDEN }) with h | ⟨h, hs, hmem⟩
          · rw [h, tileAt_setTileEntry_self m t _ hb]
            exact Or.inr ⟨rfl, hguard, List.mem_cons_self t ts⟩
          · rw [tileAt_setTileEntry_self m t _ hb] at hs
            exact absurd hs (by simp)
        · rcases ih (m.setTileEntry t { m.tileAt t with state := .HIDDEN }) with h | ⟨h, hs, hmem⟩
          · rw [h, tileAt_setTileEntry_ne m t j _ hj]
            exact Or.inl rfl
          · rw [tileAt_setTileEntry_ne m t j _ hj] at h hs
            exact Or.inr ⟨h, hs, List.mem_cons_of_mem t hmem⟩
      · rw [setTileEntry_of_length_le m t _ (Nat.le_of_not_lt hb)]
        rcases ih m with h | ⟨h, hs, hmem⟩
        · exact Or.inl h
        · exact Or.inr ⟨h, hs, List.mem_cons_of_mem t hmem⟩
    · rcases ih m with h | ⟨h, hs, hmem⟩
      · exact Or.inl h
      · exact Or.inr ⟨h, hs, List.mem_cons_of_mem t hmem⟩

/-- The press loop does not change which tiles are revealed, flagged, marked,
or mined. -/
theorem pressClicked_pointwise (m : MinefieldWindow) (l : List Nat) (j : Nat) :
    ((m.pressClicked l).tileAt j).content = (m.tileAt j).content ∧
    ((m.pressClicked l).tileAt j).mark = (m.tileAt j).mark ∧
    (((m.pressClicked l).tileAt j).state = TileState.REVEALED
      ↔ (m.tileAt j).state = TileState.REVEALED) := by
  rcases pressClicked_tileAt m l j with h | ⟨h, hs, -, -⟩
  · rw [h]
    exact ⟨rfl, rfl, Iff.rfl⟩
  · rw [h, hs]
    exact ⟨rfl, rfl, by simp⟩

/-- The revert loop does not change which tiles are revealed, flagged, marked,
or mined. -/
theorem revertClicked_pointwise (m : MinefieldWindow) (l : List Nat) (j : Nat) :
    ((m.revertClicked l).tileAt j).content = (m.tileAt j).content ∧
    ((m.revertClicked l).tileAt j).mark = (m.tileAt j).mark ∧
    (((m.revertClicked l).tileAt j).state = TileState.REVEALED
      ↔ (m.tileAt j).state = TileState.REVEALED) := by
  rcases revertClicked_tileAt m l j with h | ⟨h, hs, -⟩
  · rw [h]
    exact ⟨rfl, rfl, Iff.rfl⟩
  · rw [h, hs]
    exact ⟨rfl, rfl, by simp⟩

/-- The press loop preserves the revealed-tile count. -/
theorem pressClicked_revealedTileCount (m : MinefieldWindow) (l : List Nat) :
    revealedTileCount (m.pressClicked l) = revealedTileCount m := by
  induction l generalizing m with
  | nil => rw [pressClicked_nil]
  | cons t ts ih =>
    rw [pressClicked_cons]
    split
    · next hguard =>
      rw [ih]
      unfold revealedTileCount
      exact countP_setTileEntry_eq m t _ _ (by simp [hguard.1])
    · exact ih m

/-- The press loop preserves the flagged-tile count. -/
theorem pressClicked_flaggedTileCount (m : MinefieldWindow) (l : List Nat) :
    flaggedTileCount (m.pressClicked l) = flaggedTileCount m := by
  induction l generalizing m with
  | nil => rw [pressClicked_nil]
  | cons t ts ih =>
    rw [pressClicked_cons]
    split
    · rw [ih]
      unfold flaggedTileCount
      exact countP_setTileEntry_eq m t _ _ (by simp)
    · exact ih m

/-- The revert loop preserves the revealed-tile count. -/
theorem revertClicked_revealedTileCount (m : MinefieldWindow) (l : List Nat) :
    revealedTileCount (m.revertClicked l) = revealedTileCount m := by
  induction l generalizing m with
  | nil => rw [revertClicked_nil]
  | cons t ts ih =>
    rw [revertClicked_cons]
    split
    · next hguard =>
      rw [ih]
      unfold revealedTileCount
      exact countP_setTileEntry_eq m t _ _ (by simp [hguard])
    · exact ih m

/-- The revert loop preserves the flagged-tile count. -/
theorem revertClicked_flaggedTileCount (m : MinefieldWindow) (l : List Nat) :
    flaggedTileCount (m.revertClicked l) = flaggedTileCount m := by
  induction l generalizing m with
  | nil => rw [revertClicked_nil]
  | cons t ts ih =>
    rw [revertClicked_cons]
    split
    · rw [ih]
      unfold flaggedTileCount
      exact countP_setTileEntry_eq m t _ _ (by simp)
    · exact ih m

end Minesweeper

/-!
## Frame lemmas for the flood-reveal machinery
-/

namespace Minesweeper

/-- Tiles that the flood loop can still reveal and possibly enqueue. -/
def unrevealedEmptyCount (m : MinefieldWindow) : Nat :=
  m.m_aMineTiles.countP (fun t =>
    decide (t.state ≠ TileState.REVEALED ∧ t.mark ≠ TileMark.FLAG
      ∧ t.content = TileContent.EMPTY))

theorem revealTile_fields (m : MinefieldWindow) (i : Nat) :
    (m.revealTile i).m_width = m.m_width ∧ (m.revealTile i).m_height = m.m_height ∧
    (m.revealTile i).m_cTiles = m.m_cTiles ∧ (m.revealTile i).m_cMines = m.m_cMines ∧
    (m.revealTile i).m_cRevealedTiles = m.m_cRevealedTiles + 1 ∧
    (m.revealTile i).m_cFlaggedTiles = m.m_cFlaggedTiles ∧
    (m.revealTile i).m_bGameLost = m.m_bGameLost ∧
    (m.revealTile i).m_bQuestionMarksEnabled = m.m_bQuestionMarksEnabled ∧
    (m.revealTile i).m_bChording = m.m_bChording ∧
    (m.revealTile i).m_aMineTiles.length = m.m_aMineTiles.length := by
  simp [MinefieldWindow.revealTile]

theorem revealTile_tileAt_self (m : MinefieldWindow) (i : Nat) (h : i < m.m_aMineTiles.length) :
    (m.revealTile i).tileAt i = { m.tileAt i with state := .REVEALED } := by
  show (m.revealTile i).m_aMineTiles.getD i {} = _
  rw [MinefieldWindow.revealTile]
  simp only [List.getD_eq_getElem?_getD, List.getElem?_set_self h]
  rfl

theorem revealTile_tileAt_ne (m : MinefieldWindow) (i j : Nat) (h : i ≠ j) :
    (m.revealTile i).tileAt j = m.tileAt j := by
  show (m.revealTile i).m_aMineTiles.getD j {} = _
  rw [MinefieldWindow.revealTile]
  simp only [List.getD_eq_getElem?_getD, List.getElem?_set_ne h]
  rw [MinefieldWindow.tileAt, List.getD_eq_getElem?_getD]

theorem revealTile_tiles_eq_setTileEntry (m : MinefieldWindow) (i : Nat) :
    (m.revealTile i).m_aMineTiles
      = (m.setTileEntry i { m.tileAt i with state := .REVEALED }).m_aMineTiles := rfl

theorem revealedTileCount_revealTile (m : MinefieldWindow) (i : Nat)
    (h : i < m.m_aMineTiles.length) (hst : (m.tileAt i).state ≠ TileState.REVEALED) :
    revealedTileCount (m.revealTile i) = revealedTileCount m + 1 := by
  unfold revealedTileCount
  rw [revealTile_tiles_eq_setTileEntry, countP_setTileEntry m i _ _ h]
  simp [hst]

theorem flaggedTileCount_revealTile (m : MinefieldWindow) (i : Nat) :
    flaggedTileCount (m.revealTile i) = flaggedTileCount m := by
  unfold flaggedTileCount
  rw [revealTile_tiles_eq_setTileEntry]
  exact countP_setTileEntry_eq m i _ _ (by simp)

theorem uec_revealTile_le (m : MinefieldWindow) (i : Nat) :
    unrevealedEmptyCount (m.revealTile i) ≤ unrevealedEmptyCount m := by
  unfold unrevealedEmptyCount
  rw [revealTile_tiles_eq_setTileEntry]
  by_cases h : i < m.m_aMineTiles.length
  · rw [countP_setTileEntry m i _ _ h]
    simp
  · rw [setTileEntry_of_length_le m i _ (Nat.le_of_not_lt h)]

theorem countP_setTileEntry_dec (m : MinefieldWindow) (i : Nat) (t : MineTile)
    (p : MineTile → Bool) (h : i < m.m_aMineTiles.length)
    (h1 : p (m.tileAt i) = true) (h2 : p t = false) :
    (m.setTileEntry i t).m_aMineTiles.countP p + 1 = m.m_aMineTiles.countP p := by
  have hpos : 0 < m.m_aMineTiles.countP p := by
    rw [List.countP_pos_iff]
    refine ⟨m.m_aMineTiles[i], List.getElem_mem h, ?_⟩
    rw [← tileAt_eq_getElem m i h]
    exact h1
  rw [countP_setTileEntry m i t p h, h1, h2]
  simp
  omega

theorem uec_revealTile_lt (m : MinefieldWindow) (i : Nat)
    (h : i < m.m_aMineTiles.length)
    (hst : (m.tileAt i).state ≠ TileState.REVEALED)
    (hmk : (m.tileAt i).mark ≠ TileMark.FLAG)
    (hct : (m.tileAt i).content = TileContent.EMPTY) :
    unrevealedEmptyCount (m.revealTile i) + 1 ≤ unrevealedEmptyCount m := by
  unfold unrevealedEmptyCount
  rw [revealTile_tiles_eq_setTileEntry]
  rw [countP_setTileEntry_dec m i _ _ h (by simp [hst, hmk, hct]) (by simp)]

/-- Main frame lemma for the inner `for` loop of the flood: fields, counter
synchronization, and the pointwise effect on tiles. -/
theorem foldReveal_main (L : List Nat) (m : MinefieldWindow) (ps : List Nat)
    (hL : ∀ u ∈ L, u < m.m_aMineTiles.length) :
    ((L.foldl MinefieldWindow.revealStep (m, ps)).1.m_width = m.m_width ∧
      (L.foldl MinefieldWindow.revealStep (m, ps)).1.m_height = m.m_height ∧
      (L.foldl MinefieldWindow.revealStep (m, ps)).1.m_cTiles = m.m_cTiles ∧
      (L.foldl MinefieldWindow.revealStep (m, ps)).1.m_cMines = m.m_cMines ∧
      (L.foldl MinefieldWindow.revealStep (m, ps)).1.m_bGameLost = m.m_bGameLost ∧
      (L.foldl MinefieldWindow.revealStep (m, ps)).1.m_bQuestionMarksEnabled
        = m.m_bQuestionMarksEnabled ∧
      (L.foldl MinefieldWindow.revealStep (m, ps)).1.m_bChording = m.m_bChording ∧
      (L.foldl MinefieldWindow.revealStep (m, ps)).1.m_aMineTiles.length
        = m.m_aMineTiles.length) ∧
    (L.foldl MinefieldWindow.revealStep (m, ps)).1.m_cFlaggedTiles = m.m_cFlaggedTiles ∧
    flaggedTileCount (L.foldl MinefieldWindow.revealStep (m, ps)).1 = flaggedTileCount m ∧
    (L.foldl MinefieldWindow.revealStep (m, ps)).1.m_cRevealedTiles + revealedTileCount m
      = m.m_cRevealedTiles + revealedTileCount (L.foldl MinefieldWindow.revealStep (m, ps)).1 ∧
    ∀ j, (L.foldl MinefieldWindow.revealStep (m, ps)).1.tileAt j = m.tileAt j ∨
      ((L.foldl MinefieldWindow.revealStep (m, ps)).1.tileAt j
          = { m.tileAt j with state := .REVEALED }
        ∧ (m.tileAt j).state ≠ TileState.REVEALED
        ∧ (m.tileAt j).mark ≠ TileMark.FLAG ∧ j ∈ L) := by
  induction L generalizing m ps with
  | nil =>
    refine ⟨⟨rfl, rfl, rfl, rfl, rfl, rfl, rfl, rfl⟩, rfl, rfl, rfl, fun j => Or.inl rfl⟩
  | cons t ts ih =>
    rw [List.foldl_cons]
    have ht : t < m.m_aMineTiles.length := hL t (List.mem_cons_self t ts)
    have hts : ∀ u ∈ ts, u < m.m_aMineTiles.length :=
      fun u hu => hL u (List.mem_cons_of_mem t hu)
    rw [MinefieldWindow.revealStep]
    split
    · next hguard =>
      have hst : (m.tileAt t).state ≠ TileState.REVEALED := hguard.1
      have hmk : (m.tileAt t).mark ≠ TileMark.FLAG := hguard.2
      have key : ∀ ps' : List Nat,
          ((ts.foldl MinefieldWindow.revealStep (m.revealTile t, ps')).1.m_width = m.m_width ∧
            (ts.foldl MinefieldWindow.revealStep (m.revealTile t, ps')).1.m_height = m.m_height ∧
            (ts.foldl MinefieldWindow.revealStep (m.revealTile t, ps')).1.m_cTiles = m.m_cTiles ∧
            (ts.foldl MinefieldWindow.revealStep (m.revealTile t, ps')).1.m_cMines = m.m_cMines ∧
            (ts.foldl MinefieldWindow.revealStep (m.revealTile t, ps')).1.m_bGameLost
              = m.m_bGameLost ∧
            (ts.foldl MinefieldWindow.revealStep (m.revealTile t, ps')).1.m_bQuestionMarksEnabled
              = m.m_bQuestionMarksEnabled ∧
            (ts.foldl MinefieldWindow.revealStep (m.revealTile t, ps')).1.m_bChording
              = m.m_bChording ∧
            (ts.foldl MinefieldWindow.revealStep (m.revealTile t, ps')).1.m_aMineTiles.length
              = m.m_aMineTiles.length) ∧
          (ts.foldl MinefieldWindow.revealStep (m.revealTile t, ps')).1.m_cFlaggedTiles
            = m.m_cFlaggedTiles ∧
          flaggedTileCount (ts.foldl MinefieldWindow.revealStep (m.revealTile t, ps')).1
            = flaggedTileCount m ∧
          (ts.foldl MinefieldWindow.revealStep (m.revealTile t, ps')).1.m_cRevealedTiles
              + revealedTileCount m
            = m.m_cRevealedTiles
              + revealedTileCount (ts.foldl MinefieldWindow.revealStep (m.revealTile t, ps')).1 ∧
          ∀ j, (ts.foldl MinefieldWindow.revealStep (m.revealTile t, ps')).1.tileAt j
              = m.tileAt j ∨
            ((ts.foldl MinefieldWindow.revealStep (m.revealTile t, ps')).1.tileAt j
                = { m.tileAt j with state := .REVEALED }
              ∧ (m.tileAt j).state ≠ TileState.REVEALED
              ∧ (m.tileAt j).mark ≠ TileMark.FLAG ∧ j ∈ t :: ts) := by
        intro ps'
        have hL' : ∀ u ∈ ts, u < (m.revealTile t).m_aMineTiles.length := by
          rw [(revealTile_fields m t).2.2.2.2.2.2.2.2.2]
          exact hts
        obtain ⟨⟨f1, f2, f3, f4, f5, f6, f7, f8⟩, g1, g2, g3, g4⟩ := ih (m.revealTile t) ps' hL'
        obtain ⟨r1, r2, r3, r4, r5, r6, r7, r8, r9, r10⟩ := revealTile_fields m t
        refine ⟨⟨f1.trans r1, f2.trans r2, f3.trans r3, f4.trans r4, f5.trans r7,
          f6.trans r8, f7.trans r9, f8.trans r10⟩, g1.trans r6,
          g2.trans (flaggedTileCount_revealTile m t), ?_, ?_⟩
        · have hcnt : revealedTileCount (m.revealTile t) = revealedTileCount m + 1 :=
            revealedTileCount_revealTile m t ht hst
          rw [r5, hcnt] at g3
          omega
        · intro j
          by_cases hj : t = j
          · subst hj
            rcases g4 t with h | ⟨h, hs, -, -⟩
            · rw [revealTile_tileAt_self m t ht] at h
              exact Or.inr ⟨h, hst, hmk, List.mem_cons_self t ts⟩
            · rw [revealTile_tileAt_self m t ht] at hs
              exact absurd hs (by simp)
          · rcases g4 j with h | ⟨h, hs, hm2, hmem⟩
            · rw [revealTile_tileAt_ne m t j hj] at h
              exact Or.inl h
            · rw [revealTile_tileAt_ne m t j hj] at h hs hm2
              exact Or.inr ⟨h, hs, hm2, List.mem_cons_of_mem t hmem⟩
      split
      · exact key (ps ++ [t])
      · exact key ps
    · obtain ⟨⟨f1, f2, f3, f4, f5, f6, f7, f8⟩, g1, g2, g3, g4⟩ := ih m ps hts
      refine ⟨⟨f1, f2, f3, f4, f5, f6, f7, f8⟩, g1, g2, g3, fun j => ?_⟩
      rcases g4 j with h | ⟨h, hs, hm2, hmem⟩
      · exact Or.inl h
      · exact Or.inr ⟨h, hs, hm2, List.mem_cons_of_mem t hmem⟩

end Minesweeper

namespace Minesweeper

theorem foldRevealStep_cons (m : MinefieldWindow) (ps : List Nat) (t : Nat) (ts : List Nat) :
    (t :: ts).foldl MinefieldWindow.revealStep (m, ps)
      = if (m.tileAt t).state ≠ TileState.REVEALED ∧ (m.tileAt t).mark ≠ TileMark.FLAG then
          if (m.tileAt t).content = TileContent.EMPTY then
            ts.foldl MinefieldWindow.revealStep (m.revealTile t, ps ++ [t])
          else
            ts.foldl MinefieldWindow.revealStep (m.revealTile t, ps)
        else ts.foldl MinefieldWindow.revealStep (m, ps) := by
  rw [List.foldl_cons, MinefieldWindow.revealStep]
  split
  · split <;> rfl
  · rfl

/-- Trace lemma for the inner `for` loop of the flood: the tiles it pushes are
distinct list members that were revealable EMPTY tiles and are revealed
afterwards, and each push strictly consumes the revealable-EMPTY budget. -/
theorem foldReveal_trace (L : List Nat) (m : MinefieldWindow) (ps : List Nat)
    (hL : ∀ u ∈ L, u < m.m_aMineTiles.length) :
    ∃ new : List Nat,
      (L.foldl MinefieldWindow.revealStep (m, ps)).2 = ps ++ new ∧
      new.Nodup ∧
      unrevealedEmptyCount (L.foldl MinefieldWindow.revealStep (m, ps)).1 + new.length
        ≤ unrevealedEmptyCount m ∧
      ∀ p ∈ new, p ∈ L ∧ (m.tileAt p).state ≠ TileState.REVEALED
        ∧ (m.tileAt p).mark ≠ TileMark.FLAG ∧ (m.tileAt p).content = TileContent.EMPTY
        ∧ revealedAt (L.foldl MinefieldWindow.revealStep (m, ps)).1 p := by
  induction L generalizing m ps with
  | nil =>
    exact ⟨[], by simp, List.nodup_nil, by simp, by simp⟩
  | cons t ts ih =>
    rw [foldRevealStep_cons]
    have ht : t < m.m_aMineTiles.length := hL t (List.mem_cons_self t ts)
    have hts : ∀ u ∈ ts, u < m.m_aMineTiles.length :=
      fun u hu => hL u (List.mem_cons_of_mem t hu)
    have hL' : ∀ u ∈ ts, u < (m.revealTile t).m_aMineTiles.length := by
      rw [(revealTile_fields m t).2.2.2.2.2.2.2.2.2]
      exact hts
    have hrevt : ((m.revealTile t).tileAt t).state = TileState.REVEALED := by
      rw [revealTile_tileAt_self m t ht]
    split
    · next hguard =>
      have hmono : ∀ j, revealedAt (m.revealTile t) j →
          ∀ ps', revealedAt (ts.foldl MinefieldWindow.revealStep (m.revealTile t, ps')).1 j := by
        intro j hj ps'
        obtain ⟨-, -, -, -, g4⟩ := foldReveal_main ts (m.revealTile t) ps' hL'
        rcases g4 j with h | ⟨h, hs, -, -⟩
        · unfold revealedAt
          rw [h]
          exact hj
        · exact absurd hj hs
      split
      · next hempty =>
        obtain ⟨new', e1, e2, e3, e4⟩ := ih (m.revealTile t) (ps ++ [t]) hL'
        refine ⟨t :: new', ?_, ?_, ?_, ?_⟩
        · rw [e1, List.append_assoc]
          rfl
        · rw [List.nodup_cons]
          refine ⟨fun hmem => ?_, e2⟩
          have := (e4 t hmem).2.1
          exact this hrevt
        · have hlt := uec_revealTile_lt m t ht hguard.1 hguard.2 hempty
          simp only [List.length_cons]
          omega
        · intro p hp
          rcases List.mem_cons.1 hp with rfl | hp'
          · exact ⟨List.mem_cons_self p ts, hguard.1, hguard.2, hempty,
              hmono p (by rw [revealedAt, revealTile_tileAt_self m p ht]) (ps ++ [p])⟩
          · obtain ⟨q1, q2, q3, q4, q5⟩ := e4 p hp'
            have hpt : p ≠ t := by
              intro hpt
              subst hpt
              exact q2 hrevt
            rw [revealTile_tileAt_ne m t p (fun h => hpt h.symm)] at q2 q3 q4
            exact ⟨List.mem_cons_of_mem t q1, q2, q3, q4, q5⟩
      · next hempty =>
        obtain ⟨new', e1, e2, e3, e4⟩ := ih (m.revealTile t) ps hL'
        refine ⟨new', e1, e2, ?_, ?_⟩
        · have hle := uec_revealTile_le m t
          omega
        · intro p hp
          obtain ⟨q1, q2, q3, q4, q5⟩ := e4 p hp
          have hpt : p ≠ t := by
            intro hpt
            subst hpt
            exact q2 hrevt
          rw [revealTile_tileAt_ne m t p (fun h => hpt h.symm)] at q2 q3 q4
          exact ⟨List.mem_cons_of_mem t q1, q2, q3, q4, q5⟩
    · obtain ⟨new', e1, e2, e3, e4⟩ := ih m ps hts
      refine ⟨new', e1, e2, e3, ?_⟩
      intro p hp
      obtain ⟨q1, q2, q3, q4, q5⟩ := e4 p hp
      exact ⟨List.mem_cons_of_mem t q1, q2, q3, q4, q5⟩

end Minesweeper

namespace Minesweeper

/-- What a reveal pass may do to the state: every field except
`m_cRevealedTiles` and `m_bGameLost` is untouched, the revealed counter stays
synchronized with the tile array, and each tile is either untouched or flips
an unflagged, not-yet-revealed tile to REVEALED. -/
def revealsOnly (m m' : MinefieldWindow) : Prop :=
  m'.m_width = m.m_width ∧ m'.m_height = m.m_height ∧ m'.m_cTiles = m.m_cTiles ∧
  m'.m_cMines = m.m_cMines ∧ m'.m_bQuestionMarksEnabled = m.m_bQuestionMarksEnabled ∧
  m'.m_bChording = m.m_bChording ∧
  m'.m_aMineTiles.length = m.m_aMineTiles.length ∧
  m'.m_cFlaggedTiles = m.m_cFlaggedTiles ∧
  flaggedTileCount m' = flaggedTileCount m ∧
  m'.m_cRevealedTiles + revealedTileCount m = m.m_cRevealedTiles + revealedTileCount m' ∧
  ∀ j, m'.tileAt j = m.tileAt j ∨
    (m'.tileAt j = { m.tileAt j with state := .REVEALED }
      ∧ (m.tileAt j).state ≠ TileState.REVEALED ∧ (m.tileAt j).mark ≠ TileMark.FLAG)

theorem revealsOnly_refl (m : MinefieldWindow) : revealsOnly m m :=
  ⟨rfl, rfl, rfl, rfl, rfl, rfl, rfl, rfl, rfl, rfl, fun _ => Or.inl rfl⟩

theorem revealsOnly_trans {m m' m'' : MinefieldWindow}
    (h1 : revealsOnly m m') (h2 : revealsOnly m' m'') : revealsOnly m m'' := by
  obtain ⟨a1, a2, a3, a4, a5, a6, a7, a8, a9, a10, a11⟩ := h1
  obtain ⟨b1, b2, b3, b4, b5, b6, b7, b8, b9, b10, b11⟩ := h2
  refine ⟨b1.trans a1, b2.trans a2, b3.trans a3, b4.trans a4, b5.trans a5, b6.trans a6,
    b7.trans a7, b8.trans a8, b9.trans a9, by omega, fun j => ?_⟩
  rcases b11 j with hb | ⟨hb, hbs, hbm⟩
  · rcases a11 j with ha | ⟨ha, has, ham⟩
    · exact Or.inl (hb.trans ha)
    · exact Or.inr ⟨hb.trans ha, has, ham⟩
  · rcases a11 j with ha | ⟨ha, has, ham⟩
    · rw [ha] at hb hbs hbm
      exact Or.inr ⟨hb, hbs, hbm⟩
    · rw [ha] at hbs
      exact absurd rfl hbs

theorem revealsOnly_mono {m m' : MinefieldWindow} (h : revealsOnly m m') {j : Nat}
    (hj : revealedAt m j) : revealedAt m' j := by
  rcases h.2.2.2.2.2.2.2.2.2.2 j with hc | ⟨hc, hs, -⟩
  · unfold revealedAt
    rw [hc]
    exact hj
  · exact absurd hj hs

theorem revealsOnly_content {m m' : MinefieldWindow} (h : revealsOnly m m') (j : Nat) :
    (m'.tileAt j).content = (m.tileAt j).content := by
  rcases h.2.2.2.2.2.2.2.2.2.2 j with hc | ⟨hc, -, -⟩ <;> rw [hc]

theorem revealsOnly_mark {m m' : MinefieldWindow} (h : revealsOnly m m') (j : Nat) :
    (m'.tileAt j).mark = (m.tileAt j).mark := by
  rcases h.2.2.2.2.2.2.2.2.2.2 j with hc | ⟨hc, -, -⟩ <;> rw [hc]

theorem foldReveal_revealsOnly (L : List Nat) (m : MinefieldWindow) (ps : List Nat)
    (hL : ∀ u ∈ L, u < m.m_aMineTiles.length) :
    revealsOnly m (L.foldl MinefieldWindow.revealStep (m, ps)).1 ∧
      (L.foldl MinefieldWindow.revealStep (m, ps)).1.m_bGameLost = m.m_bGameLost := by
  obtain ⟨⟨f1, f2, f3, f4, f5, f6, f7, f8⟩, g1, g2, g3, g4⟩ := foldReveal_main L m ps hL
  refine ⟨⟨f1, f2, f3, f4, f6, f7, f8, g1, g2, g3, fun j => ?_⟩, f5⟩
  rcases g4 j with h | ⟨h, hs, hm2, -⟩
  · exact Or.inl h
  · exact Or.inr ⟨h, hs, hm2⟩

theorem floodLoop_nil (fuel : Nat) (m : MinefieldWindow) :
    MinefieldWindow.floodLoop fuel m [] = (m, [], []) := by
  cases fuel <;> rfl

theorem floodLoop_succ_cons (fuel : Nat) (m : MinefieldWindow) (c : Nat) (rest : List Nat) :
    MinefieldWindow.floodLoop (fuel + 1) m (c :: rest)
      = ((MinefieldWindow.floodLoop fuel (m.revealAdjacent c).1 (rest ++ (m.revealAdjacent c).2)).1,
        (MinefieldWindow.floodLoop fuel (m.revealAdjacent c).1 (rest ++ (m.revealAdjacent c).2)).2.1,
        (m.revealAdjacent c).2
          ++ (MinefieldWindow.floodLoop fuel (m.revealAdjacent c).1
              (rest ++ (m.revealAdjacent c).2)).2.2) := rfl

theorem revealAdjacent_eq (m : MinefieldWindow) (front : Nat) :
    m.revealAdjacent front
      = (m.GetTileGrid (front % m.m_width) (front / m.m_width) 1).foldl
          MinefieldWindow.revealStep (m, []) := rfl

theorem grid_mem_lt_length {m : MinefieldWindow}
    (hwf : m.m_aMineTiles.length = m.m_width * m.m_height) (x y : Nat) (radius : Int) :
    ∀ u ∈ m.GetTileGrid x y radius, u < m.m_aMineTiles.length := by
  intro u hu
  rw [hwf]
  exact mem_GetTileGrid_lt hu

theorem floodLoop_revealsOnly (fuel : Nat) (m : MinefieldWindow) (q : List Nat)
    (hwf : m.m_aMineTiles.length = m.m_width * m.m_height) :
    revealsOnly m (MinefieldWindow.floodLoop fuel m q).1 ∧
      (MinefieldWindow.floodLoop fuel m q).1.m_bGameLost = m.m_bGameLost := by
  induction fuel generalizing m q with
  | zero =>
    cases q with
    | nil => rw [floodLoop_nil]; exact ⟨revealsOnly_refl m, rfl⟩
    | cons c rest => exact ⟨revealsOnly_refl m, rfl⟩
  | succ fuel ih =>
    cases q with
    | nil => rw [floodLoop_nil]; exact ⟨revealsOnly_refl m, rfl⟩
    | cons c rest =>
      rw [floodLoop_succ_cons]
      have hL := grid_mem_lt_length hwf (c % m.m_width) (c / m.m_width) 1
      obtain ⟨hro, hlost⟩ := foldReveal_revealsOnly _ m [] hL
      have hwf' : (m.revealAdjacent c).1.m_aMineTiles.length
          = (m.revealAdjacent c).1.m_width * (m.revealAdjacent c).1.m_height := by
        rw [revealAdjacent_eq]
        rw [hro.2.2.2.2.2.2.1, hro.1, hro.2.1]
        exact hwf
      obtain ⟨iro, ilost⟩ := ih (m.revealAdjacent c).1 (rest ++ (m.revealAdjacent c).2) hwf'
      rw [revealAdjacent_eq] at iro ilost
      exact ⟨revealsOnly_trans hro iro, ilost.trans hlost⟩

end Minesweeper

namespace Minesweeper

/-- The worklist of the flood loop drains completely whenever the fuel covers
the current queue plus every tile that could still be revealed and enqueued. -/
theorem floodLoop_drains (fuel : Nat) : ∀ (m : MinefieldWindow) (q : List Nat),
    m.m_aMineTiles.length = m.m_width * m.m_height →
    q.length + unrevealedEmptyCount m ≤ fuel →
    (MinefieldWindow.floodLoop fuel m q).2.1 = [] := by
  induction fuel with
  | zero =>
    intro m q hwf hfuel
    have : q = [] := by
      cases q with
      | nil => rfl
      | cons c rest => simp at hfuel
    subst this
    rw [floodLoop_nil]
  | succ fuel ih =>
    intro m q hwf hfuel
    cases q with
    | nil => rw [floodLoop_nil]
    | cons c rest =>
      rw [floodLoop_succ_cons]
      have hL := grid_mem_lt_length hwf (c % m.m_width) (c / m.m_width) 1
      obtain ⟨hro, -⟩ := foldReveal_revealsOnly _ m [] hL
      obtain ⟨new, e1, -, e3, -⟩ := foldReveal_trace _ m [] hL
      have h2 : (m.revealAdjacent c).2 = new := by
        rw [revealAdjacent_eq, e1, List.nil_append]
      have hwf' : (m.revealAdjacent c).1.m_aMineTiles.length
          = (m.revealAdjacent c).1.m_width * (m.revealAdjacent c).1.m_height := by
        rw [revealAdjacent_eq, hro.2.2.2.2.2.2.1, hro.1, hro.2.1]
        exact hwf
      apply ih _ _ hwf'
      rw [h2, List.length_append, revealAdjacent_eq]
      simp only [List.length_cons] at hfuel
      omega

/-- The flood loop never reveals a mine: as long as every queued tile is an
in-bounds EMPTY tile and EMPTY tiles have no mine in their neighborhood,
every tile revealed by the loop is mine-free. -/
theorem floodLoop_no_new_mine (fuel : Nat) : ∀ (m : MinefieldWindow) (q : List Nat),
    m.m_aMineTiles.length = m.m_width * m.m_height →
    (∀ c ∈ q, c < m.m_aMineTiles.length ∧ (m.tileAt c).content = TileContent.EMPTY) →
    (∀ i, i < m.m_aMineTiles.length → (m.tileAt i).content = TileContent.EMPTY →
      ∀ u ∈ m.GetTileGrid (i % m.m_width) (i / m.m_width) 1,
        (m.tileAt u).content ≠ TileContent.MINE) →
    ∀ j, revealedAt (MinefieldWindow.floodLoop fuel m q).1 j →
      revealedAt m j ∨ (m.tileAt j).content ≠ TileContent.MINE := by
  induction fuel with
  | zero =>
    intro m q hwf hqc hsep j hj
    cases q with
    | nil => rw [floodLoop_nil] at hj; exact Or.inl hj
    | cons c rest => exact Or.inl hj
  | succ fuel ih =>
    intro m q hwf hqc hsep j hj
    cases q with
    | nil => rw [floodLoop_nil] at hj; exact Or.inl hj
    | cons c rest =>
      rw [floodLoop_succ_cons] at hj
      have hL := grid_mem_lt_length hwf (c % m.m_width) (c / m.m_width) 1
      obtain ⟨hcb, hce⟩ := hqc c (List.mem_cons_self c rest)
      obtain ⟨hro, -⟩ := foldReveal_revealsOnly _ m [] hL
      obtain ⟨⟨-, -, -, -, -, -, -, -⟩, -, -, -, g4⟩ := foldReveal_main _ m [] hL
      obtain ⟨new, e1, -, -, e4⟩ := foldReveal_trace _ m [] hL
      have h2 : (m.revealAdjacent c).2 = new := by
        rw [revealAdjacent_eq, e1, List.nil_append]
      have hgridsafe := hsep c hcb hce
      have hwf' : (m.revealAdjacent c).1.m_aMineTiles.length
          = (m.revealAdjacent c).1.m_width * (m.revealAdjacent c).1.m_height := by
        rw [revealAdjacent_eq, hro.2.2.2.2.2.2.1, hro.1, hro.2.1]
        exact hwf
      have hlen' : (m.revealAdjacent c).1.m_aMineTiles.length = m.m_aMineTiles.length := by
        rw [revealAdjacent_eq]
        exact hro.2.2.2.2.2.2.1
      have hcontent : ∀ u, ((m.revealAdjacent c).1.tileAt u).content = (m.tileAt u).content := by
        intro u
        rw [revealAdjacent_eq]
        exact revealsOnly_content hro u
      have hqc' : ∀ u ∈ rest ++ (m.revealAdjacent c).2,
          u < (m.revealAdjacent c).1.m_aMineTiles.length
            ∧ ((m.revealAdjacent c).1.tileAt u).content = TileContent.EMPTY := by
        intro u hu
        rcases List.mem_append.1 hu with hu | hu
        · obtain ⟨hub, hue⟩ := hqc u (List.mem_cons_of_mem c hu)
          rw [hlen', hcontent u]
          exact ⟨hub, hue⟩
        · rw [h2] at hu
          obtain ⟨hmem, -, -, hue, -⟩ := e4 u hu
          rw [hlen', hcontent u]
          exact ⟨hL u hmem, hue⟩
      have hsep' : ∀ i, i < (m.revealAdjacent c).1.m_aMineTiles.length →
          ((m.revealAdjacent c).1.tileAt i).content = TileContent.EMPTY →
          ∀ u ∈ (m.revealAdjacent c).1.GetTileGrid
            (i % (m.revealAdjacent c).1.m_width) (i / (m.revealAdjacent c).1.m_width) 1,
            ((m.revealAdjacent c).1.tileAt u).content ≠ TileContent.MINE := by
        intro i hib hie u hu
        have hwconst : (m.revealAdjacent c).1.m_width = m.m_width := by
          rw [revealAdjacent_eq]; exact hro.1
        have hhconst : (m.revealAdjacent c).1.m_height = m.m_height := by
          rw [revealAdjacent_eq]; exact hro.2.1
        rw [hwconst] at hu
        rw [GetTileGrid_congr hwconst hhconst] at hu
        rw [hcontent u]
        rw [hlen'] at hib
        rw [hcontent i] at hie
        exact hsep i hib hie u hu
      have := ih (m.revealAdjacent c).1 (rest ++ (m.revealAdjacent c).2) hwf' hqc' hsep' j hj
      rcases this with hrev | hmine
      · rw [revealAdjacent_eq] at hrev
        rcases g4 j with h | ⟨h, -, -, hmem⟩
        · unfold revealedAt at hrev
          rw [h] at hrev
          exact Or.inl hrev
        · exact Or.inr (hgridsafe j hmem)
      · rw [hcontent j] at hmine
        exact Or.inr hmine

end Minesweeper

namespace Minesweeper

/-- Every tile pushed onto the flood worklist is fresh: given an initial
worklist of distinct, already-revealed tiles, the initial worklist and the
pushed trace together contain no duplicates — each cell enters the worklist
at most once. -/
theorem floodLoop_trace_nodup (fuel : Nat) : ∀ (m : MinefieldWindow) (q seen : List Nat),
    m.m_aMineTiles.length = m.m_width * m.m_height →
    (∀ c ∈ seen ++ q, revealedAt m c) →
    (seen ++ q).Nodup →
    (seen ++ q ++ (MinefieldWindow.floodLoop fuel m q).2.2).Nodup := by
  induction fuel with
  | zero =>
    intro m q seen hwf hrev hnd
    cases q with
    | nil => rw [floodLoop_nil]; simpa using hnd
    | cons c rest =>
      show (seen ++ (c :: rest) ++ []).Nodup
      simpa using hnd
  | succ fuel ih =>
    intro m q seen hwf hrev hnd
    cases q with
    | nil => rw [floodLoop_nil]; simpa using hnd
    | cons c rest =>
      rw [floodLoop_succ_cons]
      have hL := grid_mem_lt_length hwf (c % m.m_width) (c / m.m_width) 1
      obtain ⟨hro, -⟩ := foldReveal_revealsOnly _ m [] hL
      obtain ⟨new, e1, e2, -, e4⟩ := foldReveal_trace _ m [] hL
      have h2 : (m.revealAdjacent c).2 = new := by
        rw [revealAdjacent_eq, e1, List.nil_append]
      have hwf' : (m.revealAdjacent c).1.m_aMineTiles.length
          = (m.revealAdjacent c).1.m_width * (m.revealAdjacent c).1.m_height := by
        rw [revealAdjacent_eq, hro.2.2.2.2.2.2.1, hro.1, hro.2.1]
        exact hwf
      have hrev' : ∀ u ∈ (seen ++ [c]) ++ (rest ++ (m.revealAdjacent c).2),
          revealedAt (m.revealAdjacent c).1 u := by
        intro u hu
        rw [revealAdjacent_eq]
        rcases List.mem_append.1 hu with hu | hu
        · rcases List.mem_append.1 hu with hu | hu
          · exact revealsOnly_mono hro (hrev u (List.mem_append.2 (Or.inl hu)))
          · rw [List.mem_singleton] at hu
            subst hu
            exact revealsOnly_mono hro
              (hrev u (List.mem_append.2 (Or.inr (List.mem_cons_self u rest))))
        · rcases List.mem_append.1 hu with hu | hu
          · exact revealsOnly_mono hro
              (hrev u (List.mem_append.2 (Or.inr (List.mem_cons_of_mem c hu))))
          · rw [h2] at hu
            exact (e4 u hu).2.2.2.2
      have hnd' : ((seen ++ [c]) ++ (rest ++ (m.revealAdjacent c).2)).Nodup := by
        rw [h2]
        have hshape : (seen ++ [c]) ++ (rest ++ new) = (seen ++ c :: rest) ++ new := by
          simp
        rw [hshape]
        apply List.Nodup.append hnd e2
        intro u hu hunew
        have hurev : revealedAt m u := hrev u hu
        exact (e4 u hunew).2.1 hurev
      have := ih (m.revealAdjacent c).1 (rest ++ (m.revealAdjacent c).2) (seen ++ [c])
        hwf' hrev' hnd'
      have hshape2 : (seen ++ [c]) ++ (rest ++ (m.revealAdjacent c).2)
            ++ (MinefieldWindow.floodLoop fuel (m.revealAdjacent c).1
                (rest ++ (m.revealAdjacent c).2)).2.2
          = seen ++ (c :: rest)
            ++ ((m.revealAdjacent c).2
              ++ (MinefieldWindow.floodLoop fuel (m.revealAdjacent c).1
                  (rest ++ (m.revealAdjacent c).2)).2.2) := by
        simp
      rw [hshape2] at this
      exact this

end Minesweeper

namespace Minesweeper

theorem idx_lt_size {x y w h : Nat} (hx : x < w) (hy : y < h) : x + y * w < w * h := by
  calc x + y * w < w + y * w := by omega
    _ = (y + 1) * w := by ring
    _ ≤ h * w := Nat.mul_le_mul_right w hy
    _ = w * h := Nat.mul_comm h w

theorem revealTile_tileAt_of_length_le (m : MinefieldWindow) (i j : Nat)
    (h : m.m_aMineTiles.length ≤ i) : (m.revealTile i).tileAt j = m.tileAt j := by
  show (m.revealTile i).m_aMineTiles.getD j {} = _
  rw [revealTile_tiles_eq_setTileEntry, setTileEntry_of_length_le m i _ h]
  rfl

theorem revealTile_content (m : MinefieldWindow) (i j : Nat) :
    ((m.revealTile i).tileAt j).content = (m.tileAt j).content := by
  by_cases hij : i = j
  · subst hij
    by_cases hb : i < m.m_aMineTiles.length
    · rw [revealTile_tileAt_self m i hb]
    · rw [revealTile_tileAt_of_length_le m i i (Nat.le_of_not_lt hb)]
  · rw [revealTile_tileAt_ne m i j hij]

theorem revealTile_revealsOnly (m : MinefieldWindow) (i : Nat)
    (h : i < m.m_aMineTiles.length)
    (hst : (m.tileAt i).state ≠ TileState.REVEALED)
    (hmk : (m.tileAt i).mark ≠ TileMark.FLAG) :
    revealsOnly m (m.revealTile i) := by
  obtain ⟨r1, r2, r3, r4, r5, r6, r7, r8, r9, r10⟩ := revealTile_fields m i
  refine ⟨r1, r2, r3, r4, r8, r9, r10, r6, flaggedTileCount_revealTile m i, ?_, fun j => ?_⟩
  · rw [r5, revealedTileCount_revealTile m i h hst]
    omega
  · by_cases hij : i = j
    · subst hij
      exact Or.inr ⟨revealTile_tileAt_self m i h, hst, hmk⟩
    · exact Or.inl (revealTile_tileAt_ne m i j hij)

theorem SetTileRevealed_eq (m : MinefieldWindow) (x y : Nat) :
    m.SetTileRevealed x y
      = if (m.tileAtXY x y).state ≠ TileState.REVEALED
          ∧ (m.tileAtXY x y).mark ≠ TileMark.FLAG then
          if (m.tileAtXY x y).content = TileContent.MINE then
            { m.revealTile (x + y * m.m_width) with m_bGameLost := true }
          else if (m.tileAtXY x y).content = TileContent.EMPTY then
            (MinefieldWindow.floodLoop
              ((m.revealTile (x + y * m.m_width)).m_aMineTiles.length + 1)
              (m.revealTile (x + y * m.m_width)) [x + y * m.m_width]).1
          else m.revealTile (x + y * m.m_width)
        else m := rfl

theorem revealsOnly_of_lost_set (m m1 : MinefieldWindow) (h : revealsOnly m m1) :
    revealsOnly m { m1 with m_bGameLost := true } := h

/-- Frame lemma for `SetTileRevealed`: it is a reveal pass, and it sets
`m_bGameLost` exactly when the guard passed and the target held a mine. -/
theorem SetTileRevealed_spec (m : MinefieldWindow) (x y : Nat)
    (hwf : m.m_aMineTiles.length = m.m_width * m.m_height)
    (hx : x < m.m_width) (hy : y < m.m_height) :
    revealsOnly m (m.SetTileRevealed x y) ∧
    (m.SetTileRevealed x y).m_bGameLost
      = (m.m_bGameLost || (decide ((m.tileAtXY x y).state ≠ TileState.REVEALED
            ∧ (m.tileAtXY x y).mark ≠ TileMark.FLAG)
          && decide ((m.tileAtXY x y).content = TileContent.MINE))) := by
  have hidx : x + y * m.m_width < m.m_aMineTiles.length := by
    rw [hwf]
    exact idx_lt_size hx hy
  rw [SetTileRevealed_eq]
  by_cases hguard : (m.tileAtXY x y).state ≠ TileState.REVEALED
      ∧ (m.tileAtXY x y).mark ≠ TileMark.FLAG
  · rw [if_pos hguard]
    have hst : (m.tileAt (x + y * m.m_width)).state ≠ TileState.REVEALED := hguard.1
    have hmk : (m.tileAt (x + y * m.m_width)).mark ≠ TileMark.FLAG := hguard.2
    have ro1 := revealTile_revealsOnly m (x + y * m.m_width) hidx hst hmk
    by_cases hmine : (m.tileAtXY x y).content = TileContent.MINE
    · rw [if_pos hmine]
      refine ⟨revealsOnly_of_lost_set m _ ro1, ?_⟩
      simp [hguard, hmine]
    · rw [if_neg hmine]
      by_cases hempty : (m.tileAtXY x y).content = TileContent.EMPTY
      · rw [if_pos hempty]
        have hwf1 : (m.revealTile (x + y * m.m_width)).m_aMineTiles.length
            = (m.revealTile (x + y * m.m_width)).m_width
              * (m.revealTile (x + y * m.m_width)).m_height := by
          obtain ⟨r1, r2, -, -, -, -, -, -, -, r10⟩ := revealTile_fields m (x + y * m.m_width)
          rw [r1, r2, r10]
          exact hwf
        obtain ⟨ro2, hlost2⟩ := floodLoop_revealsOnly _ _ [x + y * m.m_width] hwf1
        refine ⟨revealsOnly_trans ro1 ro2, ?_⟩
        rw [hlost2, (revealTile_fields m (x + y * m.m_width)).2.2.2.2.2.2.1]
        simp [hmine]
      · rw [if_neg hempty]
        refine ⟨ro1, ?_⟩
        rw [(revealTile_fields m (x + y * m.m_width)).2.2.2.2.2.2.1]
        simp [hmine]
  · rw [if_neg hguard]
    refine ⟨revealsOnly_refl m, ?_⟩
    simp [hguard]

/-- `SetTileRevealed` reveals its target whenever the target is not
flag-marked. -/
theorem SetTileRevealed_target (m : MinefieldWindow) (x y : Nat)
    (hwf : m.m_aMineTiles.length = m.m_width * m.m_height)
    (hx : x < m.m_width) (hy : y < m.m_height)
    (hmk : (m.tileAtXY x y).mark ≠ TileMark.FLAG) :
    revealedAt (m.SetTileRevealed x y) (x + y * m.m_width) := by
  have hidx : x + y * m.m_width < m.m_aMineTiles.length := by
    rw [hwf]
    exact idx_lt_size hx hy
  rw [SetTileRevealed_eq]
  by_cases hguard : (m.tileAtXY x y).state ≠ TileState.REVEALED
      ∧ (m.tileAtXY x y).mark ≠ TileMark.FLAG
  · rw [if_pos hguard]
    have hself : revealedAt (m.revealTile (x + y * m.m_width)) (x + y * m.m_width) := by
      unfold revealedAt
      rw [revealTile_tileAt_self m _ hidx]
    by_cases hmine : (m.tileAtXY x y).content = TileContent.MINE
    · rw [if_pos hmine]
      exact hself
    · rw [if_neg hmine]
      by_cases hempty : (m.tileAtXY x y).content = TileContent.EMPTY
      · rw [if_pos hempty]
        have hwf1 : (m.revealTile (x + y * m.m_width)).m_aMineTiles.length
            = (m.revealTile (x + y * m.m_width)).m_width
              * (m.revealTile (x + y * m.m_width)).m_height := by
          obtain ⟨r1, r2, -, -, -, -, -, -, -, r10⟩ := revealTile_fields m (x + y * m.m_width)
          rw [r1, r2, r10]
          exact hwf
        obtain ⟨ro2, -⟩ := floodLoop_revealsOnly _ _ [x + y * m.m_width] hwf1
        exact revealsOnly_mono ro2 hself
      · rw [if_neg hempty]
        exact hself
  · rw [if_neg hguard]
    have hst : (m.tileAtXY x y).state = TileState.REVEALED := by
      by_cases h : (m.tileAtXY x y).state = TileState.REVEALED
      · exact h
      · exact absurd ⟨h, hmk⟩ hguard
    exact hst

/-- Tiles revealed by `SetTileRevealed` were already revealed, are the
clicked target, or are mine-free (the flood never reaches a mine when EMPTY
tiles have mine-free neighborhoods). -/
theorem SetTileRevealed_new_mine (m : MinefieldWindow) (x y : Nat)
    (hwf : m.m_aMineTiles.length = m.m_width * m.m_height)
    (hx : x < m.m_width) (hy : y < m.m_height)
    (hsep : ∀ i, i < m.m_aMineTiles.length → (m.tileAt i).content = TileContent.EMPTY →
      ∀ u ∈ m.GetTileGrid (i % m.m_width) (i / m.m_width) 1,
        (m.tileAt u).content ≠ TileContent.MINE) :
    ∀ j, revealedAt (m.SetTileRevealed x y) j →
      revealedAt m j ∨ j = x + y * m.m_width ∨ (m.tileAt j).content ≠ TileContent.MINE := by
  have hidx : x + y * m.m_width < m.m_aMineTiles.length := by
    rw [hwf]
    exact idx_lt_size hx hy
  intro j hj
  rw [SetTileRevealed_eq] at hj
  by_cases hguard : (m.tileAtXY x y).state ≠ TileState.REVEALED
      ∧ (m.tileAtXY x y).mark ≠ TileMark.FLAG
  · rw [if_pos hguard] at hj
    by_cases hij : j = x + y * m.m_width
    · exact Or.inr (Or.inl hij)
    · have hne : x + y * m.m_width ≠ j := fun h => hij h.symm
      by_cases hmine : (m.tileAtXY x y).content = TileContent.MINE
      · rw [if_pos hmine] at hj
        unfold revealedAt at hj
        have : ({ m.revealTile (x + y * m.m_width) with m_bGameLost := true }).tileAt j
            = (m.revealTile (x + y * m.m_width)).tileAt j := rfl
        rw [this, revealTile_tileAt_ne m _ j hne] at hj
        exact Or.inl hj
      · rw [if_neg hmine] at hj
        by_cases hempty : (m.tileAtXY x y).content = TileContent.EMPTY
        · rw [if_pos hempty] at hj
          set m1 := m.revealTile (x + y * m.m_width) with hm1
          obtain ⟨r1, r2, -, -, -, -, -, -, -, r10⟩ := revealTile_fields m (x + y * m.m_width)
          have hwf1 : m1.m_aMineTiles.length = m1.m_width * m1.m_height := by
            rw [r1, r2, r10]
            exact hwf
          have hcontent1 : ∀ u, (m1.tileAt u).content = (m.tileAt u).content :=
            revealTile_content m (x + y * m.m_width)
          have hqc1 : ∀ c ∈ [x + y * m.m_width],
              c < m1.m_aMineTiles.length ∧ (m1.tileAt c).content = TileContent.EMPTY := by
            intro c hc
            rw [List.mem_singleton] at hc
            subst hc
            rw [r10, hcontent1]
            exact ⟨hidx, hempty⟩
          have hsep1 : ∀ i, i < m1.m_aMineTiles.length →
              (m1.tileAt i).content = TileContent.EMPTY →
              ∀ u ∈ m1.GetTileGrid (i % m1.m_width) (i / m1.m_width) 1,
                (m1.tileAt u).content ≠ TileContent.MINE := by
            intro i hib hie u hu
            rw [r1] at hu
            rw [GetTileGrid_congr r1 r2] at hu
            rw [hcontent1 u]
            rw [r10] at hib
            rw [hcontent1 i] at hie
            exact hsep i hib hie u hu
          have := floodLoop_no_new_mine _ m1 [x + y * m.m_width] hwf1 hqc1 hsep1 j hj
          rcases this with hrev | hm
          · unfold revealedAt at hrev
            rw [revealTile_tileAt_ne m _ j hne] at hrev
            exact Or.inl hrev
          · rw [hcontent1 j] at hm
            exact Or.inr (Or.inr hm)
        · rw [if_neg hempty] at hj
          unfold revealedAt at hj
          rw [revealTile_tileAt_ne m _ j hne] at hj
          exact Or.inl hj
  · rw [if_neg hguard] at hj
    exact Or.inl hj

end Minesweeper

namespace Minesweeper

theorem EndChord_eq (m : MinefieldWindow) (x y : Nat) :
    m.EndChord x y
      = { (if (m.tileAtXY x y).state = TileState.REVEALED then
            if (m.GetTileGrid x y 1).countP
                (fun t => decide ((m.tileAt t).mark = TileMark.FLAG))
                = m.GetNumberAdjacentMines x y then
              (m.GetTileGrid x y 1).foldl
                (fun acc t => acc.SetTileRevealed (t % acc.m_width) (t / acc.m_width)) m
            else m.revertClicked (m.GetTileGrid x y 1)
          else m.revertClicked (m.GetTileGrid x y 1)) with m_bChording := false } := rfl

/-- A CLICKED tile of the list is reverted to HIDDEN by the revert loop. -/
theorem revertClicked_of_mem_clicked (m : MinefieldWindow) (l : List Nat) (t : Nat)
    (hmem : t ∈ l) (hcl : (m.tileAt t).state = TileState.CLICKED) :
    ((m.revertClicked l).tileAt t).state = TileState.HIDDEN := by
  have hb : t < m.m_aMineTiles.length := by
    by_contra hb
    rw [tileAt_of_length_le m t (Nat.le_of_not_lt hb)] at hcl
    exact absurd hcl (by decide)
  induction l generalizing m with
  | nil => exact absurd hmem (by simp)
  | cons u us ih =>
    rw [revertClicked_cons]
    rcases List.mem_cons.1 hmem with rfl | hmem'
    · rw [if_pos hcl]
      have hhid : ((m.setTileEntry t { m.tileAt t with state := .HIDDEN }).tileAt t).state
          = TileState.HIDDEN := by
        rw [tileAt_setTileEntry_self m t _ hb]
      rcases revertClicked_tileAt (m.setTileEntry t { m.tileAt t with state := .HIDDEN }) us t
        with h | ⟨-, hs, -⟩
      · rw [h]
        exact hhid
      · rw [hhid] at hs
        exact absurd hs (by decide)
    · by_cases hu : (m.tileAt u).state = TileState.CLICKED
      · rw [if_pos hu]
        by_cases hut : u = t
        · subst hut
          have hhid : ((m.setTileEntry u { m.tileAt u with state := .HIDDEN }).tileAt u).state
              = TileState.HIDDEN := by
            rw [tileAt_setTileEntry_self m u _ hb]
          rcases revertClicked_tileAt (m.setTileEntry u { m.tileAt u with state := .HIDDEN }) us u
            with h | ⟨-, hs, -⟩
          · rw [h]
            exact hhid
          · rw [hhid] at hs
            exact absurd hs (by decide)
        · apply ih (m.setTileEntry u { m.tileAt u with state := .HIDDEN }) hmem'
          · rw [tileAt_setTileEntry_ne m u t _ hut]
            exact hcl
          · rw [setTileEntry_length]
            exact hb
      · rw [if_neg hu]
        exact ih m hmem' hcl hb

/-- The reveal pass of a matching chord: `SetTileRevealed` on every tile of
the list reveals, in particular, every unflagged tile of the list. -/
theorem foldSTR_spec (L : List Nat) (m : MinefieldWindow)
    (hwf : m.m_aMineTiles.length = m.m_width * m.m_height)
    (hL : ∀ t ∈ L, t < m.m_aMineTiles.length) :
    revealsOnly m (L.foldl
        (fun acc t => acc.SetTileRevealed (t % acc.m_width) (t / acc.m_width)) m) ∧
      ∀ t ∈ L, (m.tileAt t).mark ≠ TileMark.FLAG →
        revealedAt (L.foldl
          (fun acc t => acc.SetTileRevealed (t % acc.m_width) (t / acc.m_width)) m) t := by
  induction L generalizing m with
  | nil => exact ⟨revealsOnly_refl m, by simp⟩
  | cons t ts ih =>
    rw [List.foldl_cons]
    have htb : t < m.m_aMineTiles.length := hL t (List.mem_cons_self t ts)
    have hw0 : 0 < m.m_width := by
      rcases Nat.eq_zero_or_pos m.m_width with h0 | h0
      · rw [hwf, h0] at htb
        simp at htb
      · exact h0
    have hx : t % m.m_width < m.m_width := Nat.mod_lt t hw0
    have hy : t / m.m_width < m.m_height := by
      rw [Nat.div_lt_iff_lt_mul hw0]
      rw [hwf] at htb
      calc t < m.m_width * m.m_height := htb
        _ = m.m_height * m.m_width := Nat.mul_comm _ _
    have hidx : t % m.m_width + t / m.m_width * m.m_width = t := Nat.mod_add_div' t m.m_width
    obtain ⟨ro1, hlost1⟩ := SetTileRevealed_spec m (t % m.m_width) (t / m.m_width) hwf hx hy
    have hwf' : (m.SetTileRevealed (t % m.m_width) (t / m.m_width)).m_aMineTiles.length
        = (m.SetTileRevealed (t % m.m_width) (t / m.m_width)).m_width
          * (m.SetTileRevealed (t % m.m_width) (t / m.m_width)).m_height := by
      rw [ro1.2.2.2.2.2.2.1, ro1.1, ro1.2.1]
      exact hwf
    have hL' : ∀ u ∈ ts,
        u < (m.SetTileRevealed (t % m.m_width) (t / m.m_width)).m_aMineTiles.length := by
      rw [ro1.2.2.2.2.2.2.1]
      exact fun u hu => hL u (List.mem_cons_of_mem t hu)
    obtain ⟨ro2, htar2⟩ := ih (m.SetTileRevealed (t % m.m_width) (t / m.m_width)) hwf' hL'
    refine ⟨revealsOnly_trans ro1 ro2, ?_⟩
    intro u hu hmk
    rcases List.mem_cons.1 hu with rfl | hu'
    · have hmk' : (m.tileAtXY (u % m.m_width) (u / m.m_width)).mark ≠ TileMark.FLAG := by
        unfold MinefieldWindow.tileAtXY
        rw [hidx]
        exact hmk
      have htar := SetTileRevealed_target m (u % m.m_width) (u / m.m_width) hwf hx hy hmk'
      rw [hidx] at htar
      exact revealsOnly_mono ro2 htar
    · apply htar2 u hu'
      rw [revealsOnly_mark ro1 u]
      exact hmk

end Minesweeper

/-!
## Frame lemmas for mine generation
-/

namespace Minesweeper

theorem numberContent_ne_mine (n : Nat) : numberContent n ≠ TileContent.MINE := by
  unfold numberContent
  split <;> decide

theorem numberContent_eq_empty {n : Nat} (h : numberContent n = TileContent.EMPTY) :
    n = 0 ∨ 9 ≤ n := by
  rcases n with _ | _ | _ | _ | _ | _ | _ | _ | _ | k
  · exact Or.inl rfl
  · exact absurd h (by decide)
  · exact absurd h (by decide)
  · exact absurd h (by decide)
  · exact absurd h (by decide)
  · exact absurd h (by decide)
  · exact absurd h (by decide)
  · exact absurd h (by decide)
  · exact absurd h (by decide)
  · exact Or.inr (by omega)

/-- The count of mine tiles. -/
def mineTileCount (m : MinefieldWindow) : Nat :=
  m.m_aMineTiles.countP (fun t => decide (t.content = TileContent.MINE))

/-- The mine-marking loop of `GenerateMines`, before `GenerateNumbers`. -/
def placeMines (m : MinefieldWindow) (sel : List Nat) : MinefieldWindow :=
  sel.foldl (fun acc t => acc.setTileEntry t { acc.tileAt t with content := .MINE }) m

theorem GenerateMines_eq (m : MinefieldWindow) (x y : Nat) (sel : List Nat) :
    m.GenerateMines x y sel = (placeMines m sel).GenerateNumbers := rfl

theorem placeMines_nil (m : MinefieldWindow) : placeMines m [] = m := rfl

theorem placeMines_cons (m : MinefieldWindow) (t : Nat) (ts : List Nat) :
    placeMines m (t :: ts)
      = placeMines (m.setTileEntry t { m.tileAt t with content := .MINE }) ts := rfl

/-- Pointwise effect of the mine-marking loop. -/
theorem placeMines_spec (sel : List Nat) (m : MinefieldWindow) :
    ((placeMines m sel).m_width = m.m_width ∧ (placeMines m sel).m_height = m.m_height ∧
      (placeMines m sel).m_cTiles = m.m_cTiles ∧ (placeMines m sel).m_cMines = m.m_cMines ∧
      (placeMines m sel).m_cRevealedTiles = m.m_cRevealedTiles ∧
      (placeMines m sel).m_cFlaggedTiles = m.m_cFlaggedTiles ∧
      (placeMines m sel).m_bGameLost = m.m_bGameLost ∧
      (placeMines m sel).m_bQuestionMarksEnabled = m.m_bQuestionMarksEnabled ∧
      (placeMines m sel).m_bChording = m.m_bChording ∧
      (placeMines m sel).m_aMineTiles.length = m.m_aMineTiles.length) ∧
    (∀ j, ((placeMines m sel).tileAt j).state = (m.tileAt j).state ∧
      ((placeMines m sel).tileAt j).mark = (m.tileAt j).mark) ∧
    (∀ j, j ∉ sel → (placeMines m sel).tileAt j = m.tileAt j) ∧
    (∀ j ∈ sel, j < m.m_aMineTiles.length →
      ((placeMines m sel).tileAt j).content = TileContent.MINE) ∧
    (∀ j, (m.tileAt j).content = TileContent.MINE →
      ((placeMines m sel).tileAt j).content = TileContent.MINE) := by
  induction sel generalizing m with
  | nil =>
    exact ⟨⟨rfl, rfl, rfl, rfl, rfl, rfl, rfl, rfl, rfl, rfl⟩,
      fun j => ⟨rfl, rfl⟩, fun j _ => rfl, by simp, fun j h => h⟩
  | cons t ts ih =>
    rw [placeMines_cons]
    set m1 := m.setTileEntry t { m.tileAt t with content := .MINE } with hm1
    obtain ⟨⟨f1, f2, f3, f4, f5, f6, f7, f8, f9, f10⟩, g1, g2, g3, g4⟩ := ih m1
    have hpoint : ∀ j, (m1.tileAt j).state = (m.tileAt j).state ∧
        (m1.tileAt j).mark = (m.tileAt j).mark := by
      intro j
      rw [hm1]
      by_cases hj : t = j
      · subst hj
        by_cases hb : t < m.m_aMineTiles.length
        · rw [tileAt_setTileEntry_self m t _ hb]
          exact ⟨rfl, rfl⟩
        · rw [setTileEntry_of_length_le m t _ (Nat.le_of_not_lt hb)]
          exact ⟨rfl, rfl⟩
      · rw [tileAt_setTileEntry_ne m t j _ hj]
        exact ⟨rfl, rfl⟩
    refine ⟨⟨f1, f2, f3, f4, f5, f6, f7, f8, f9, by rw [f10, hm1, setTileEntry_length]⟩,
      ?_, ?_, ?_, ?_⟩
    · intro j
      obtain ⟨s1, s2⟩ := g1 j
      obtain ⟨p1, p2⟩ := hpoint j
      exact ⟨s1.trans p1, s2.trans p2⟩
    · intro j hj
      have hjt : j ≠ t := fun h => hj (h ▸ List.mem_cons_self t ts)
      have hjts : j ∉ ts := fun h => hj (List.mem_cons_of_mem t h)
      rw [g2 j hjts, hm1, tileAt_setTileEntry_ne m t j _ (fun h => hjt h.symm)]
    · intro j hj hb
      rcases List.mem_cons.1 hj with rfl | hj'
      · by_cases hjts : j ∈ ts
        · exact g3 j hjts (by rw [hm1, setTileEntry_length]; exact hb)
        · rw [g2 j hjts, hm1, tileAt_setTileEntry_self m j _ hb]
      · exact g3 j hj' (by rw [hm1, setTileEntry_length]; exact hb)
    · intro j hj
      apply g4 j
      obtain - := hpoint j
      by_cases hjt : t = j
      · subst hjt
        by_cases hb : t < m.m_aMineTiles.length
        · rw [hm1, tileAt_setTileEntry_self m t _ hb]
        · rw [hm1, setTileEntry_of_length_le m t _ (Nat.le_of_not_lt hb)]
          exact hj
      · rw [hm1, tileAt_setTileEntry_ne m t j _ hjt]
        exact hj

/-- Marking a duplicate-free, in-bounds, mine-free selection adds exactly its
length to the mine count. -/
theorem mineTileCount_placeMines (sel : List Nat) (m : MinefieldWindow)
    (hnd : sel.Nodup)
    (hb : ∀ j ∈ sel, j < m.m_aMineTiles.length ∧ (m.tileAt j).content ≠ TileContent.MINE) :
    mineTileCount (placeMines m sel) = mineTileCount m + sel.length := by
  induction sel generalizing m with
  | nil => rfl
  | cons t ts ih =>
    rw [placeMines_cons]
    obtain ⟨htb, htm⟩ := hb t (List.mem_cons_self t ts)
    set m1 := m.setTileEntry t { m.tileAt t with content := .MINE } with hm1
    have hcount1 : mineTileCount m1 = mineTileCount m + 1 := by
      unfold mineTileCount
      rw [hm1, countP_setTileEntry m t _ _ htb]
      simp [htm]
    have hb' : ∀ j ∈ ts, j < m1.m_aMineTiles.length
        ∧ (m1.tileAt j).content ≠ TileContent.MINE := by
      intro j hj
      obtain ⟨hjb, hjm⟩ := hb j (List.mem_cons_of_mem t hj)
      have hjt : t ≠ j := by
        rintro rfl
        exact (List.nodup_cons.1 hnd).1 hj
      rw [hm1, setTileEntry_length, tileAt_setTileEntry_ne m t j _ hjt]
      exact ⟨hjb, hjm⟩
    rw [ih m1 (List.nodup_cons.1 hnd).2 hb', hcount1, List.length_cons]
    omega

theorem mem_gridPositions {w h : Nat} {p : Nat × Nat} :
    p ∈ gridPositions w h ↔ p.1 < w ∧ p.2 < h := by
  unfold gridPositions
  rw [List.mem_flatMap]
  constructor
  · rintro ⟨a, ha, hp⟩
    rw [List.mem_map] at hp
    obtain ⟨b, hb, rfl⟩ := hp
    rw [List.mem_range] at ha hb
    exact ⟨ha, hb⟩
  · rintro ⟨h1, h2⟩
    exact ⟨p.1, List.mem_range.2 h1, List.mem_map.2 ⟨p.2, List.mem_range.2 h2, by
      cases p
      rfl⟩⟩

theorem nodup_gridPositions (w h : Nat) : (gridPositions w h).Nodup := by
  unfold gridPositions
  rw [List.nodup_flatMap]
  constructor
  · intro a _
    exact (List.nodup_range h).map_on (fun b _ b' _ hbb => by injection hbb)
  · apply (List.pairwise_lt_range w).imp
    intro a a' haa p hp hp'
    rw [List.mem_map] at hp hp'
    obtain ⟨b, -, rfl⟩ := hp
    obtain ⟨b', -, h⟩ := hp'
    injection h with h1 h2
    omega

theorem nodup_gridPositions_idx (w h : Nat) :
    ((gridPositions w h).map (fun p => p.1 + p.2 * w)).Nodup := by
  apply (nodup_gridPositions w h).map_on
  intro p hp q hq hpq
  rw [mem_gridPositions] at hp hq
  have h1 : (p.1 + p.2 * w) % w = p.1 := by
    rw [Nat.add_mul_mod_self_right]
    exact Nat.mod_eq_of_lt hp.1
  have h2 : (q.1 + q.2 * w) % w = q.1 := by
    rw [Nat.add_mul_mod_self_right]
    exact Nat.mod_eq_of_lt hq.1
  have hfst : p.1 = q.1 := by
    rw [← h1, ← h2, hpq]
  have hw0 : 0 < w := by omega
  have hsnd : p.2 = q.2 := by
    have := hpq
    rw [hfst] at this
    have h3 : p.2 * w = q.2 * w := by omega
    exact Nat.eq_of_mul_eq_mul_right hw0 h3
  cases p
  cases q
  simp only at hfst hsnd
  rw [hfst, hsnd]

end Minesweeper

namespace Minesweeper

theorem GetNumberAdjacentMines_congr (m m' : MinefieldWindow)
    (hw : m'.m_width = m.m_width) (hh : m'.m_height = m.m_height)
    (hc : ∀ j, (m'.tileAt j).content = TileContent.MINE
      ↔ (m.tileAt j).content = TileContent.MINE) (x y : Nat) :
    m'.GetNumberAdjacentMines x y = m.GetNumberAdjacentMines x y := by
  unfold MinefieldWindow.GetNumberAdjacentMines
  rw [GetTileGrid_congr hw hh]
  apply List.countP_congr
  intro u _
  simp only [decide_eq_true_eq]
  exact hc u

theorem generateNumbersCell_fields (m : MinefieldWindow) (x y : Nat) :
    (m.generateNumbersCell x y).m_width = m.m_width ∧
    (m.generateNumbersCell x y).m_height = m.m_height ∧
    (m.generateNumbersCell x y).m_cTiles = m.m_cTiles ∧
    (m.generateNumbersCell x y).m_cMines = m.m_cMines ∧
    (m.generateNumbersCell x y).m_cRevealedTiles = m.m_cRevealedTiles ∧
    (m.generateNumbersCell x y).m_cFlaggedTiles = m.m_cFlaggedTiles ∧
    (m.generateNumbersCell x y).m_bGameLost = m.m_bGameLost ∧
    (m.generateNumbersCell x y).m_bQuestionMarksEnabled = m.m_bQuestionMarksEnabled ∧
    (m.generateNumbersCell x y).m_bChording = m.m_bChording ∧
    (m.generateNumbersCell x y).m_aMineTiles.length = m.m_aMineTiles.length := by
  unfold MinefieldWindow.generateNumbersCell
  split <;> simp

theorem generateNumbersCell_tileAt_ne (m : MinefieldWindow) (x y j : Nat)
    (hj : j ≠ x + y * m.m_width) :
    (m.generateNumbersCell x y).tileAt j = m.tileAt j := by
  unfold MinefieldWindow.generateNumbersCell
  split
  · exact tileAt_setTileEntry_ne m _ j _ (fun h => hj h.symm)
  · rfl

theorem generateNumbersCell_tileAt_self (m : MinefieldWindow) (x y : Nat)
    (hidx : x + y * m.m_width < m.m_aMineTiles.length)
    (hnm : (m.tileAtXY x y).content ≠ TileContent.MINE) :
    (m.generateNumbersCell x y).tileAt (x + y * m.m_width)
      = { m.tileAtXY x y with content := numberContent (m.GetNumberAdjacentMines x y) } := by
  unfold MinefieldWindow.generateNumbersCell
  rw [if_pos hnm]
  exact tileAt_setTileEntry_self m _ _ hidx

theorem generateNumbersCell_of_mine (m : MinefieldWindow) (x y : Nat)
    (hm : (m.tileAtXY x y).content = TileContent.MINE) :
    m.generateNumbersCell x y = m := by
  unfold MinefieldWindow.generateNumbersCell
  rw [if_neg (by simpa using hm)]

theorem generateNumbersCell_pointwise (m : MinefieldWindow) (x y j : Nat) :
    ((m.generateNumbersCell x y).tileAt j).state = (m.tileAt j).state ∧
    ((m.generateNumbersCell x y).tileAt j).mark = (m.tileAt j).mark ∧
    (((m.generateNumbersCell x y).tileAt j).content = TileContent.MINE
      ↔ (m.tileAt j).content = TileContent.MINE) := by
  by_cases hj : j = x + y * m.m_width
  · by_cases hnm : (m.tileAtXY x y).content = TileContent.MINE
    · rw [generateNumbersCell_of_mine m x y hnm]
      exact ⟨rfl, rfl, Iff.rfl⟩
    · by_cases hidx : x + y * m.m_width < m.m_aMineTiles.length
      · rw [hj, generateNumbersCell_tileAt_self m x y hidx hnm]
        unfold MinefieldWindow.tileAtXY at hnm ⊢
        refine ⟨rfl, rfl, ?_⟩
        constructor
        · intro h
          exact absurd h (numberContent_ne_mine _)
        · intro h
          exact absurd h hnm
      · unfold MinefieldWindow.generateNumbersCell
        rw [if_pos hnm]
        rw [setTileEntry_of_length_le m _ _ (Nat.le_of_not_lt hidx)]
        exact ⟨rfl, rfl, Iff.rfl⟩
  · rw [generateNumbersCell_tileAt_ne m x y j hj]
    exact ⟨rfl, rfl, Iff.rfl⟩

/-- Main frame lemma for the `GenerateNumbers` double loop, generalized over
the remaining cell worklist. -/
theorem genFold_spec (ps : List (Nat × Nat)) : ∀ (m : MinefieldWindow),
    (∀ p ∈ ps, p.1 < m.m_width ∧ p.2 < m.m_height) →
    ((ps.map (fun p => p.1 + p.2 * m.m_width)).Nodup) →
    m.m_aMineTiles.length = m.m_width * m.m_height →
    ((ps.foldl (fun acc p => acc.generateNumbersCell p.1 p.2) m).m_width = m.m_width ∧
      (ps.foldl (fun acc p => acc.generateNumbersCell p.1 p.2) m).m_height = m.m_height ∧
      (ps.foldl (fun acc p => acc.generateNumbersCell p.1 p.2) m).m_cTiles = m.m_cTiles ∧
      (ps.foldl (fun acc p => acc.generateNumbersCell p.1 p.2) m).m_cMines = m.m_cMines ∧
      (ps.foldl (fun acc p => acc.generateNumbersCell p.1 p.2) m).m_cRevealedTiles
        = m.m_cRevealedTiles ∧
      (ps.foldl (fun acc p => acc.generateNumbersCell p.1 p.2) m).m_cFlaggedTiles
        = m.m_cFlaggedTiles ∧
      (ps.foldl (fun acc p => acc.generateNumbersCell p.1 p.2) m).m_bGameLost = m.m_bGameLost ∧
      (ps.foldl (fun acc p => acc.generateNumbersCell p.1 p.2) m).m_bQuestionMarksEnabled
        = m.m_bQuestionMarksEnabled ∧
      (ps.foldl (fun acc p => acc.generateNumbersCell p.1 p.2) m).m_bChording = m.m_bChording ∧
      (ps.foldl (fun acc p => acc.generateNumbersCell p.1 p.2) m).m_aMineTiles.length
        = m.m_aMineTiles.length) ∧
    (∀ j, ((ps.foldl (fun acc p => acc.generateNumbersCell p.1 p.2) m).tileAt j).state
        = (m.tileAt j).state ∧
      ((ps.foldl (fun acc p => acc.generateNumbersCell p.1 p.2) m).tileAt j).mark
        = (m.tileAt j).mark ∧
      (((ps.foldl (fun acc p => acc.generateNumbersCell p.1 p.2) m).tileAt j).content
          = TileContent.MINE ↔ (m.tileAt j).content = TileContent.MINE)) ∧
    (∀ j, (∀ p ∈ ps, j ≠ p.1 + p.2 * m.m_width) →
      (ps.foldl (fun acc p => acc.generateNumbersCell p.1 p.2) m).tileAt j = m.tileAt j) ∧
    (∀ p ∈ ps, (m.tileAt (p.1 + p.2 * m.m_width)).content ≠ TileContent.MINE →
      ((ps.foldl (fun acc p => acc.generateNumbersCell p.1 p.2) m).tileAt
          (p.1 + p.2 * m.m_width)).content
        = numberContent (m.GetNumberAdjacentMines p.1 p.2)) := by
  induction ps with
  | nil =>
    intro m _ _ _
    exact ⟨⟨rfl, rfl, rfl, rfl, rfl, rfl, rfl, rfl, rfl, rfl⟩,
      fun j => ⟨rfl, rfl, Iff.rfl⟩, fun j _ => rfl, by simp⟩
  | cons p ps' ih =>
    intro m hbounds hnd hwf
    rw [List.foldl_cons]
    obtain ⟨w1, w2, w3, w4, w5, w6, w7, w8, w9, w10⟩ := generateNumbersCell_fields m p.1 p.2
    have hbounds' : ∀ q ∈ ps', q.1 < (m.generateNumbersCell p.1 p.2).m_width
        ∧ q.2 < (m.generateNumbersCell p.1 p.2).m_height := by
      intro q hq
      rw [w1, w2]
      exact hbounds q (List.mem_cons_of_mem p hq)
    have hnd0 : (p.1 + p.2 * m.m_width) ∉ ps'.map (fun q => q.1 + q.2 * m.m_width)
        ∧ (ps'.map (fun q => q.1 + q.2 * m.m_width)).Nodup := by
      rw [List.map_cons, List.nodup_cons] at hnd
      exact hnd
    have hnd' : (ps'.map (fun q => q.1 + q.2 * (m.generateNumbersCell p.1 p.2).m_width)).Nodup := by
      rw [w1]
      exact hnd0.2
    have hwf' : (m.generateNumbersCell p.1 p.2).m_aMineTiles.length
        = (m.generateNumbersCell p.1 p.2).m_width * (m.generateNumbersCell p.1 p.2).m_height := by
      rw [w1, w2, w10]
      exact hwf
    obtain ⟨⟨f1, f2, f3, f4, f5, f6, f7, f8, f9, f10⟩, g1, g2, g3⟩ :=
      ih (m.generateNumbersCell p.1 p.2) hbounds' hnd' hwf'
    have hg2 : ∀ j, (∀ q ∈ ps', j ≠ q.1 + q.2 * m.m_width) →
        (ps'.foldl (fun acc q => acc.generateNumbersCell q.1 q.2)
          (m.generateNumbersCell p.1 p.2)).tileAt j
          = (m.generateNumbersCell p.1 p.2).tileAt j := by
      intro j hj
      apply g2 j
      intro q hq
      rw [w1]
      exact hj q hq
    refine ⟨⟨f1.trans w1, f2.trans w2, f3.trans w3, f4.trans w4, f5.trans w5, f6.trans w6,
      f7.trans w7, f8.trans w8, f9.trans w9, f10.trans w10⟩, ?_, ?_, ?_⟩
    · intro j
      obtain ⟨s1, s2, s3⟩ := g1 j
      obtain ⟨t1, t2, t3⟩ := generateNumbersCell_pointwise m p.1 p.2 j
      exact ⟨s1.trans t1, s2.trans t2, s3.trans t3⟩
    · intro j hj
      have hjp : j ≠ p.1 + p.2 * m.m_width := hj p (List.mem_cons_self p ps')
      have hj' : ∀ q ∈ ps', j ≠ q.1 + q.2 * m.m_width :=
        fun q hq => hj q (List.mem_cons_of_mem p hq)
      rw [hg2 j hj', generateNumbersCell_tileAt_ne m p.1 p.2 j hjp]
    · intro q hq hqm
      have hidxp : p.1 + p.2 * m.m_width < m.m_aMineTiles.length := by
        rw [hwf]
        exact idx_lt_size (hbounds p (List.mem_cons_self p ps')).1
          (hbounds p (List.mem_cons_self p ps')).2
      rcases List.mem_cons.1 hq with rfl | hq'
      · have hfix : ∀ q' ∈ ps', q.1 + q.2 * m.m_width ≠ q'.1 + q'.2 * m.m_width := by
          intro q' hq'
          intro heq
          exact hnd0.1 (List.mem_map.2 ⟨q', hq', heq.symm⟩)
        rw [hg2 _ hfix]
        rw [generateNumbersCell_tileAt_self m q.1 q.2 hidxp (by
          unfold MinefieldWindow.tileAtXY
          exact hqm)]
      · have hqidx : q.1 + q.2 * m.m_width < m.m_aMineTiles.length := by
          rw [hwf]
          exact idx_lt_size (hbounds q (List.mem_cons_of_mem p hq')).1
            (hbounds q (List.mem_cons_of_mem p hq')).2
        have hqp : q.1 + q.2 * m.m_width ≠ p.1 + p.2 * m.m_width := by
          intro heq
          exact hnd0.1 (List.mem_map.2 ⟨q, hq', heq⟩)
        have hcell : (m.generateNumbersCell p.1 p.2).tileAt (q.1 + q.2 * m.m_width)
            = m.tileAt (q.1 + q.2 * m.m_width) :=
          generateNumbersCell_tileAt_ne m p.1 p.2 _ hqp
        have hq3 := g3 q hq' (by
          rw [w1, hcell]
          exact hqm)
        rw [w1] at hq3
        rw [hq3]
        congr 1
        apply GetNumberAdjacentMines_congr
        · exact w1
        · exact w2
        · intro j
          exact (generateNumbersCell_pointwise m p.1 p.2 j).2.2

end Minesweeper

namespace Minesweeper

theorem GenerateNumbers_eqn (m : MinefieldWindow) :
    m.GenerateNumbers
      = (gridPositions m.m_width m.m_height).foldl
          (fun acc p => acc.generateNumbersCell p.1 p.2) m := rfl

theorem mineTileCount_generateNumbersCell (m : MinefieldWindow) (x y : Nat) :
    mineTileCount (m.generateNumbersCell x y) = mineTileCount m := by
  unfold MinefieldWindow.generateNumbersCell
  split
  · next hguard =>
    exact countP_setTileEntry_eq m _ _ _ (by
      simp only [MinefieldWindow.tileAtXY] at hguard
      simp [hguard, numberContent_ne_mine])
  · rfl

theorem counts_generateNumbersCell (m : MinefieldWindow) (x y : Nat) :
    revealedTileCount (m.generateNumbersCell x y) = revealedTileCount m ∧
    flaggedTileCount (m.generateNumbersCell x y) = flaggedTileCount m := by
  unfold MinefieldWindow.generateNumbersCell
  split
  · exact ⟨countP_setTileEntry_eq m _ _ _ (by simp [MinefieldWindow.tileAtXY]),
      countP_setTileEntry_eq m _ _ _ (by simp [MinefieldWindow.tileAtXY])⟩
  · exact ⟨rfl, rfl⟩

theorem counts_genFold (ps : List (Nat × Nat)) : ∀ m : MinefieldWindow,
    mineTileCount (ps.foldl (fun acc p => acc.generateNumbersCell p.1 p.2) m)
      = mineTileCount m ∧
    revealedTileCount (ps.foldl (fun acc p => acc.generateNumbersCell p.1 p.2) m)
      = revealedTileCount m ∧
    flaggedTileCount (ps.foldl (fun acc p => acc.generateNumbersCell p.1 p.2) m)
      = flaggedTileCount m := by
  induction ps with
  | nil => exact fun m => ⟨rfl, rfl, rfl⟩
  | cons p ps' ih =>
    intro m
    rw [List.foldl_cons]
    obtain ⟨i1, i2, i3⟩ := ih (m.generateNumbersCell p.1 p.2)
    obtain ⟨c1, c2⟩ := counts_generateNumbersCell m p.1 p.2
    exact ⟨i1.trans (mineTileCount_generateNumbersCell m p.1 p.2), i2.trans c1, i3.trans c2⟩

theorem counts_placeMines (sel : List Nat) : ∀ m : MinefieldWindow,
    revealedTileCount (placeMines m sel) = revealedTileCount m ∧
    flaggedTileCount (placeMines m sel) = flaggedTileCount m := by
  induction sel with
  | nil => exact fun m => ⟨rfl, rfl⟩
  | cons t ts ih =>
    intro m
    rw [placeMines_cons]
    obtain ⟨i1, i2⟩ := ih (m.setTileEntry t { m.tileAt t with content := .MINE })
    refine ⟨i1.trans ?_, i2.trans ?_⟩
    · exact countP_setTileEntry_eq m _ _ _ (by simp)
    · exact countP_setTileEntry_eq m _ _ _ (by simp)

/-- The length of the exclusion zone under the two possible radii. -/
theorem excludedTiles_cases (m : MinefieldWindow) (x y : Nat)
    (hx : x < m.m_width) (hy : y < m.m_height) :
    (m.m_cTiles - m.m_cMines < 9 ∧ m.excludedTiles x y = [x + y * m.m_width]) ∨
    (9 ≤ m.m_cTiles - m.m_cMines ∧ m.excludedTiles x y = m.GetTileGrid x y 1
      ∧ (m.excludedTiles x y).length ≤ 9) := by
  unfold MinefieldWindow.excludedTiles MinefieldWindow.mineRadius
  by_cases h9 : m.m_cTiles - m.m_cMines < 9
  · rw [if_pos h9]
    exact Or.inl ⟨h9, GetTileGrid_zero hx hy⟩
  · rw [if_neg h9]
    refine Or.inr ⟨by omega, rfl, ?_⟩
    have := length_GetTileGrid_le m x y 1
    simpa using this

/-- Number of candidate cells available to the mine draw. -/
theorem mineCandidates_length_ge (m : MinefieldWindow) (x y : Nat)
    (hlenc : m.m_aMineTiles.length = m.m_cTiles)
    (hsize : m.m_cTiles = m.m_width * m.m_height)
    (hx : x < m.m_width) (hy : y < m.m_height)
    (hmlt : m.m_cMines < m.m_cTiles) :
    m.m_cMines ≤ (m.mineCandidates x y).length := by
  have hwf : m.m_aMineTiles.length = m.m_width * m.m_height := hlenc.trans hsize
  have hsub : ∀ e ∈ m.excludedTiles x y, e < m.m_aMineTiles.length :=
    grid_mem_lt_length hwf x y m.mineRadius
  rw [length_mineCandidates m x y hsub]
  rcases excludedTiles_cases m x y hx hy with ⟨h9, hexcl⟩ | ⟨h9, -, hlen9⟩
  · rw [hexcl]
    simp only [List.length_cons, List.length_nil]
    omega
  · omega

/-- Exactly `min m_cMines candidateCount` = `m_cMines` mines are placed when
fewer mines than tiles are requested. -/
theorem GenerateMines_count (m : MinefieldWindow) (x y : Nat) (sel : List Nat)
    (hlenc : m.m_aMineTiles.length = m.m_cTiles)
    (hsize : m.m_cTiles = m.m_width * m.m_height)
    (hx : x < m.m_width) (hy : y < m.m_height)
    (hnomine : ∀ j, (m.tileAt j).content ≠ TileContent.MINE)
    (hs : SampleOK m x y sel)
    (hmlt : m.m_cMines < m.m_cTiles) :
    mineTileCount (m.GenerateMines x y sel) = m.m_cMines := by
  rw [GenerateMines_eq, GenerateNumbers_eqn]
  rw [(counts_genFold _ _).1]
  have hselnd : sel.Nodup := hs.1.nodup (nodup_mineCandidates m x y)
  have hselb : ∀ j ∈ sel, j < m.m_aMineTiles.length ∧ (m.tileAt j).content ≠ TileContent.MINE := by
    intro j hj
    have hjc := hs.1.subset hj
    rw [mem_mineCandidates] at hjc
    exact ⟨hjc.1, hnomine j⟩
  rw [mineTileCount_placeMines sel m hselnd hselb]
  have hzero : mineTileCount m = 0 := by
    unfold mineTileCount
    rw [List.countP_eq_zero]
    intro a ha
    simp only [decide_eq_true_eq]
    intro hmine
    obtain ⟨i, hi, rfl⟩ := List.mem_iff_getElem.1 ha
    rw [← tileAt_eq_getElem m i hi] at hmine
    exact hnomine i hmine
  rw [hzero, hs.2, Nat.zero_add]
  have := mineCandidates_length_ge m x y hlenc hsize hx hy hmlt
  omega

/-- With the full 3x3 exclusion zone in effect, no grid-neighborhood cell of
the first click is ever a mine afterwards. -/
theorem GenerateMines_safe (m : MinefieldWindow) (x y : Nat) (sel : List Nat)
    (hlenc : m.m_aMineTiles.length = m.m_cTiles)
    (hsize : m.m_cTiles = m.m_width * m.m_height)
    (hx : x < m.m_width) (hy : y < m.m_height)
    (hnomine : ∀ j, (m.tileAt j).content ≠ TileContent.MINE)
    (hs : SampleOK m x y sel)
    (h9 : 9 ≤ m.m_cTiles - m.m_cMines) :
    ∀ u ∈ m.GetTileGrid x y 1,
      ((m.GenerateMines x y sel).tileAt u).content ≠ TileContent.MINE := by
  intro u hu
  have hexcl : m.excludedTiles x y = m.GetTileGrid x y 1 := by
    rcases excludedTiles_cases m x y hx hy with ⟨h9', -⟩ | ⟨-, hexcl, -⟩
    · omega
    · exact hexcl
  have huexcl : u ∈ m.excludedTiles x y := by
    rw [hexcl]
    exact hu
  have husel : u ∉ sel := by
    intro husel
    have := hs.1.subset husel
    rw [mem_mineCandidates] at this
    exact this.2 huexcl
  have huP : (placeMines m sel).tileAt u = m.tileAt u :=
    (placeMines_spec sel m).2.2.1 u husel
  rw [GenerateMines_eq, GenerateNumbers_eqn]
  obtain ⟨-, g1, -, -⟩ := genFold_spec (gridPositions (placeMines m sel).m_width
      (placeMines m sel).m_height) (placeMines m sel)
    (fun p hp => mem_gridPositions.1 hp)
    (nodup_gridPositions_idx _ _)
    (by
      obtain ⟨⟨p1, p2, -, -, -, -, -, -, -, p10⟩, -, -, -, -⟩ := placeMines_spec sel m
      rw [p1, p2, p10, hlenc, hsize])
  intro hmine
  have := (g1 u).2.2.1 hmine
  rw [huP] at this
  exact hnomine u this

end Minesweeper

/-!
## The reachable-state invariant
-/

namespace Minesweeper

/-- `m_bGameLost` holds exactly when a revealed mine exists. -/
def lostIffMine (m : MinefieldWindow) : Prop :=
  m.m_bGameLost = true ↔
    ∃ i, i < m.m_aMineTiles.length ∧ revealedAt m i ∧ mineAt m i

/-- Every EMPTY tile has a mine-free neighborhood (the correctness premise of
the flood loop, established by `GenerateNumbers`). -/
def emptySeparated (m : MinefieldWindow) : Prop :=
  ∀ i, i < m.m_aMineTiles.length → (m.tileAt i).content = TileContent.EMPTY →
    ∀ u ∈ m.GetTileGrid (i % m.m_width) (i / m.m_width) 1,
      (m.tileAt u).content ≠ TileContent.MINE

/-- Flag-marked tiles are HIDDEN. -/
def flagsHidden (m : MinefieldWindow) : Prop :=
  ∀ i, (m.tileAt i).mark = TileMark.FLAG → (m.tileAt i).state = TileState.HIDDEN

/-- The inductive invariant of the minefield engine. -/
structure Inv (m : MinefieldWindow) : Prop where
  len_eq : m.m_aMineTiles.length = m.m_cTiles
  size_eq : m.m_cTiles = m.m_width * m.m_height
  mines_le : m.m_cMines ≤ m.m_cTiles
  rev_eq : m.m_cRevealedTiles = revealedTileCount m
  flag_eq : m.m_cFlaggedTiles = flaggedTileCount m
  lost_iff : lostIffMine m
  empty_sep : emptySeparated m
  flag_hidden : flagsHidden m

theorem tileAt_of_replicate (m : MinefieldWindow) (n : Nat)
    (h : m.m_aMineTiles = List.replicate n ({} : MineTile)) (i : Nat) :
    m.tileAt i = ({} : MineTile) := by
  unfold MinefieldWindow.tileAt
  rw [h]
  simp only [List.getD_eq_getElem?_getD, List.getElem?_replicate]
  split <;> rfl

/-- A freshly reallocated all-default tile array satisfies the tile-level
invariant components. -/
theorem inv_of_fresh (m : MinefieldWindow)
    (hlen : m.m_aMineTiles.length = m.m_cTiles)
    (hsize : m.m_cTiles = m.m_width * m.m_height)
    (hmines : m.m_cMines ≤ m.m_cTiles)
    (hrev : m.m_cRevealedTiles = 0)
    (hflag : m.m_cFlaggedTiles = 0)
    (hlost : m.m_bGameLost = false)
    (htiles : ∀ i, m.tileAt i = ({} : MineTile)) : Inv m := by
  have hrevcnt : revealedTileCount m = 0 := by
    unfold revealedTileCount
    rw [List.countP_eq_zero]
    intro a ha
    obtain ⟨i, hi, rfl⟩ := List.mem_iff_getElem.1 ha
    rw [← tileAt_eq_getElem m i hi, htiles i]
    decide
  have hflagcnt : flaggedTileCount m = 0 := by
    unfold flaggedTileCount
    rw [List.countP_eq_zero]
    intro a ha
    obtain ⟨i, hi, rfl⟩ := List.mem_iff_getElem.1 ha
    rw [← tileAt_eq_getElem m i hi, htiles i]
    decide
  refine ⟨hlen, hsize, hmines, by rw [hrev, hrevcnt], by rw [hflag, hflagcnt], ?_, ?_, ?_⟩
  · constructor
    · intro h
      rw [hlost] at h
      exact absurd h (by decide)
    · rintro ⟨i, -, hrev', -⟩
      unfold revealedAt at hrev'
      rw [htiles i] at hrev'
      exact absurd hrev' (by decide)
  · intro i _ _ u _
    rw [htiles u]
    decide
  · intro i hmk
    rw [htiles i] at hmk
    exact absurd hmk (by decide)

theorem inv_mk (width height cMines : Nat) : Inv (mkMinefieldWindow width height cMines) := by
  apply inv_of_fresh
  · exact List.length_replicate _ _
  · rfl
  · unfold mkMinefieldWindow
    split <;> simp <;> omega
  · rfl
  · rfl
  · rfl
  · intro i
    exact tileAt_of_replicate _ (width * height) rfl i

theorem inv_ResetGame (m : MinefieldWindow)
    (hsize : m.m_cTiles = m.m_width * m.m_height)
    (hmines : m.m_cMines ≤ m.m_cTiles) : Inv m.ResetGame := by
  apply inv_of_fresh
  · exact List.length_replicate _ _
  · exact hsize
  · exact hmines
  · rfl
  · rfl
  · rfl
  · intro i
    exact tileAt_of_replicate _ m.m_cTiles rfl i

theorem inv_Resize (m : MinefieldWindow) (hInv : Inv m) (width height cMines : Nat) :
    Inv (m.Resize width height cMines).1 := by
  unfold MinefieldWindow.Resize
  split
  · apply inv_ResetGame
    · rfl
    · simp only []
      split <;> omega
  · exact hInv

end Minesweeper

namespace Minesweeper

theorem lostIffMine_transfer (m m' : MinefieldWindow)
    (hlen : m'.m_aMineTiles.length = m.m_aMineTiles.length)
    (hlost : m'.m_bGameLost = m.m_bGameLost)
    (hrv : ∀ i, revealedAt m' i ↔ revealedAt m i)
    (hct : ∀ i, (m'.tileAt i).content = (m.tileAt i).content)
    (h : lostIffMine m) : lostIffMine m' := by
  unfold lostIffMine at h ⊢
  rw [hlost, hlen]
  have : (∃ i, i < m.m_aMineTiles.length ∧ revealedAt m' i ∧ mineAt m' i)
      ↔ (∃ i, i < m.m_aMineTiles.length ∧ revealedAt m i ∧ mineAt m i) := by
    apply exists_congr
    intro i
    unfold mineAt
    rw [hrv i, hct i]
  rw [this]
  exact h

theorem emptySeparated_transfer (m m' : MinefieldWindow)
    (hw : m'.m_width = m.m_width) (hh : m'.m_height = m.m_height)
    (hlen : m'.m_aMineTiles.length = m.m_aMineTiles.length)
    (hct : ∀ i, (m'.tileAt i).content = (m.tileAt i).content)
    (h : emptySeparated m) : emptySeparated m' := by
  intro i hi hie u hu
  rw [hw] at hu
  rw [GetTileGrid_congr hw hh] at hu
  rw [hct u]
  rw [hlen] at hi
  rw [hct i] at hie
  exact h i hi hie u hu

theorem inv_pressClicked (m : MinefieldWindow) (l : List Nat) (hInv : Inv m) :
    Inv (m.pressClicked l) := by
  obtain ⟨f1, f2, f3, f4, f5, f6, f7, f8, f9, f10⟩ := pressClicked_fields m l
  refine ⟨?_, ?_, ?_, ?_, ?_, ?_, ?_, ?_⟩
  · rw [f10, f3]
    exact hInv.len_eq
  · rw [f3, f1, f2]
    exact hInv.size_eq
  · rw [f4, f3]
    exact hInv.mines_le
  · rw [f5, pressClicked_revealedTileCount m l]
    exact hInv.rev_eq
  · rw [f6, pressClicked_flaggedTileCount m l]
    exact hInv.flag_eq
  · exact lostIffMine_transfer m _ f10 f7
      (fun i => (pressClicked_pointwise m l i).2.2)
      (fun i => (pressClicked_pointwise m l i).1) hInv.lost_iff
  · exact emptySeparated_transfer m _ f1 f2 f10
      (fun i => (pressClicked_pointwise m l i).1) hInv.empty_sep
  · intro i hmk
    rcases pressClicked_tileAt m l i with h | ⟨-, -, hm2, -⟩
    · rw [h] at hmk ⊢
      exact hInv.flag_hidden i hmk
    · rw [(pressClicked_pointwise m l i).2.1] at hmk
      exact absurd hmk hm2

theorem inv_revertClicked (m : MinefieldWindow) (l : List Nat) (hInv : Inv m) :
    Inv (m.revertClicked l) := by
  obtain ⟨f1, f2, f3, f4, f5, f6, f7, f8, f9, f10⟩ := revertClicked_fields m l
  refine ⟨?_, ?_, ?_, ?_, ?_, ?_, ?_, ?_⟩
  · rw [f10, f3]
    exact hInv.len_eq
  · rw [f3, f1, f2]
    exact hInv.size_eq
  · rw [f4, f3]
    exact hInv.mines_le
  · rw [f5, revertClicked_revealedTileCount m l]
    exact hInv.rev_eq
  · rw [f6, revertClicked_flaggedTileCount m l]
    exact hInv.flag_eq
  · exact lostIffMine_transfer m _ f10 f7
      (fun i => (revertClicked_pointwise m l i).2.2)
      (fun i => (revertClicked_pointwise m l i).1) hInv.lost_iff
  · exact emptySeparated_transfer m _ f1 f2 f10
      (fun i => (revertClicked_pointwise m l i).1) hInv.empty_sep
  · intro i hmk
    rcases revertClicked_tileAt m l i with h | ⟨h, hcl, -⟩
    · rw [h] at hmk ⊢
      exact hInv.flag_hidden i hmk
    · rw [h]

theorem inv_BeginChord (m : MinefieldWindow) (x y : Nat) (hInv : Inv m) :
    Inv (m.BeginChord x y) := by
  unfold MinefieldWindow.BeginChord
  obtain ⟨h1, h2, h3, h4, h5, h6, h7, h8⟩ := inv_pressClicked m (m.GetTileGrid x y 1) hInv
  exact ⟨h1, h2, h3, h4, h5, h6, h7, h8⟩

theorem pressSingle_eq (m : MinefieldWindow) (x y : Nat) :
    m.pressSingle x y = m.pressClicked [x + y * m.m_width] := rfl

theorem inv_pressSingle (m : MinefieldWindow) (x y : Nat) (hInv : Inv m) :
    Inv (m.pressSingle x y) := by
  rw [pressSingle_eq]
  exact inv_pressClicked m _ hInv

theorem inv_MovePos (m : MinefieldWindow) (oldX oldY newX newY r : Nat) (force : Bool)
    (hInv : Inv m) : Inv (m.MovePos oldX oldY newX newY r force) := by
  unfold MinefieldWindow.MovePos
  split
  · exact inv_pressClicked _ _ (inv_revertClicked m _ hInv)
  · exact hInv

theorem inv_mouseLeaveRevert (m : MinefieldWindow) (x y : Nat) (hInv : Inv m) :
    Inv (m.mouseLeaveRevert x y) :=
  inv_revertClicked m _ hInv

theorem inv_setChording (m : MinefieldWindow) (b : Bool) (hInv : Inv m) :
    Inv { m with m_bChording := b } := by
  obtain ⟨h1, h2, h3, h4, h5, h6, h7, h8⟩ := hInv
  exact ⟨h1, h2, h3, h4, h5, h6, h7, h8⟩

end Minesweeper

namespace Minesweeper

/-- Invariant preservation for a single mark rewrite on a tile, with the
matching flag-counter adjustment. -/
theorem inv_mark_update (m : MinefieldWindow) (idx : Nat) (newmark : TileMark) (newflag : Nat)
    (hidx : idx < m.m_aMineTiles.length)
    (hInv : Inv m)
    (hstate : newmark = TileMark.FLAG → (m.tileAt idx).state = TileState.HIDDEN)
    (hcount : newflag + (if (m.tileAt idx).mark = TileMark.FLAG then 1 else 0)
      = flaggedTileCount m + (if newmark = TileMark.FLAG then 1 else 0)) :
    Inv { m.setTileEntry idx { m.tileAt idx with mark := newmark } with
      m_cFlaggedTiles := newflag } := by
  set m1 := m.setTileEntry idx { m.tileAt idx with mark := newmark } with hm1
  have hpoint : ∀ j, ({ m1 with m_cFlaggedTiles := newflag }.tileAt j).state
        = (m.tileAt j).state ∧
      ({ m1 with m_cFlaggedTiles := newflag }.tileAt j).content = (m.tileAt j).content := by
    intro j
    show (m1.tileAt j).state = _ ∧ (m1.tileAt j).content = _
    rw [hm1]
    by_cases hj : idx = j
    · subst hj
      rw [tileAt_setTileEntry_self m idx _ hidx]
      exact ⟨rfl, rfl⟩
    · rw [tileAt_setTileEntry_ne m idx j _ hj]
      exact ⟨rfl, rfl⟩
  have hflagpos : (m.tileAt idx).mark = TileMark.FLAG → 0 < flaggedTileCount m := by
    intro hf
    unfold flaggedTileCount
    rw [List.countP_pos_iff]
    exact ⟨m.m_aMineTiles[idx], List.getElem_mem hidx, by
      rw [← tileAt_eq_getElem m idx hidx]
      simp [hf]⟩
  refine ⟨?_, ?_, ?_, ?_, ?_, ?_, ?_, ?_⟩
  · show m1.m_aMineTiles.length = m.m_cTiles
    rw [hm1, setTileEntry_length]
    exact hInv.len_eq
  · exact hInv.size_eq
  · exact hInv.mines_le
  · show m.m_cRevealedTiles = revealedTileCount { m1 with m_cFlaggedTiles := newflag }
    unfold revealedTileCount
    show _ = m1.m_aMineTiles.countP _
    rw [hm1]
    rw [countP_setTileEntry_eq m idx _ _ (by simp)]
    exact hInv.rev_eq
  · show newflag = flaggedTileCount { m1 with m_cFlaggedTiles := newflag }
    unfold flaggedTileCount
    show _ = m1.m_aMineTiles.countP _
    rw [hm1, countP_setTileEntry m idx _ _ hidx]
    unfold flaggedTileCount at hcount hflagpos
    simp only [decide_eq_true_eq]
    by_cases hold : (m.tileAt idx).mark = TileMark.FLAG
    · have := hflagpos hold
      simp only [if_pos hold] at hcount ⊢
      omega
    · simp only [if_neg hold] at hcount ⊢
      omega
  · refine lostIffMine_transfer m _ ?_ ?_ ?_ ?_ hInv.lost_iff
    · show m1.m_aMineTiles.length = _
      rw [hm1, setTileEntry_length]
    · rfl
    · intro i
      unfold revealedAt
      rw [(hpoint i).1]
    · intro i
      exact (hpoint i).2
  · refine emptySeparated_transfer m _ ?_ ?_ ?_ ?_ hInv.empty_sep
    · rfl
    · rfl
    · show m1.m_aMineTiles.length = _
      rw [hm1, setTileEntry_length]
    · intro i
      exact (hpoint i).2
  · intro i hmk
    have hmk1 : (m1.tileAt i).mark = TileMark.FLAG := hmk
    show (m1.tileAt i).state = TileState.HIDDEN
    by_cases hj : idx = i
    · rw [← hj] at hmk1 ⊢
      rw [hm1, tileAt_setTileEntry_self m idx _ hidx] at hmk1 ⊢
      exact hstate hmk1
    · rw [hm1, tileAt_setTileEntry_ne m idx i _ hj] at hmk1 ⊢
      exact hInv.flag_hidden i hmk1

theorem inv_cycleMark (m : MinefieldWindow) (x y : Nat)
    (hx : x < m.m_width) (hy : y < m.m_height) (hInv : Inv m) :
    Inv (m.cycleMark x y) := by
  have hidx : x + y * m.m_width < m.m_aMineTiles.length := by
    rw [hInv.len_eq, hInv.size_eq]
    exact idx_lt_size hx hy
  unfold MinefieldWindow.cycleMark
  split
  · next hhid =>
    unfold MinefieldWindow.tileAtXY at hhid ⊢
    split
    · next hmk =>
      apply inv_mark_update m _ TileMark.FLAG _ hidx hInv (fun _ => hhid)
      rw [if_neg (by rw [hmk]; decide), if_pos rfl, hInv.flag_eq]
    · next hmk =>
      apply inv_mark_update m _ _ _ hidx hInv
      · intro hf
        exfalso
        revert hf
        split <;> decide
      · rw [if_pos hmk, if_neg (by split <;> decide), hInv.flag_eq]
        have hpos : 0 < flaggedTileCount m := by
          unfold flaggedTileCount
          rw [List.countP_pos_iff]
          exact ⟨m.m_aMineTiles[x + y * m.m_width], List.getElem_mem hidx, by
            rw [← tileAt_eq_getElem m _ hidx]
            simp [hmk]⟩
        omega
    · next hmk =>
      have heq : m.setTileEntry (x + y * m.m_width)
            { m.tileAt (x + y * m.m_width) with mark := .NONE }
          = { m.setTileEntry (x + y * m.m_width)
              { m.tileAt (x + y * m.m_width) with mark := .NONE } with
              m_cFlaggedTiles := m.m_cFlaggedTiles } := rfl
      rw [heq]
      apply inv_mark_update m (x + y * m.m_width) TileMark.NONE m.m_cFlaggedTiles hidx hInv
      · intro h
        exact absurd h (by decide)
      · rw [if_neg (by rw [hmk]; decide), if_neg (by decide), hInv.flag_eq]
  · exact hInv

end Minesweeper

namespace Minesweeper

/-- The question-mark sweep loop of `ToggleQuestionMarkUsage`, generalized
over the remaining worklist. -/
theorem qmSweep_spec (ps : List (Nat × Nat)) : ∀ m : MinefieldWindow,
    ((ps.foldl (fun acc p =>
        if (acc.tileAtXY p.1 p.2).mark = TileMark.QUESTION_MARK then
          acc.setTileEntry (p.1 + p.2 * acc.m_width)
            { acc.tileAtXY p.1 p.2 with mark := .NONE }
        else acc) m).m_width = m.m_width ∧
      (ps.foldl (fun acc p =>
        if (acc.tileAtXY p.1 p.2).mark = TileMark.QUESTION_MARK then
          acc.setTileEntry (p.1 + p.2 * acc.m_width)
            { acc.tileAtXY p.1 p.2 with mark := .NONE }
        else acc) m).m_height = m.m_height ∧
      (ps.foldl (fun acc p =>
        if (acc.tileAtXY p.1 p.2).mark = TileMark.QUESTION_MARK then
          acc.setTileEntry (p.1 + p.2 * acc.m_width)
            { acc.tileAtXY p.1 p.2 with mark := .NONE }
        else acc) m).m_cTiles = m.m_cTiles ∧
      (ps.foldl (fun acc p =>
        if (acc.tileAtXY p.1 p.2).mark = TileMark.QUESTION_MARK then
          acc.setTileEntry (p.1 + p.2 * acc.m_width)
            { acc.tileAtXY p.1 p.2 with mark := .NONE }
        else acc) m).m_cMines = m.m_cMines ∧
      (ps.foldl (fun acc p =>
        if (acc.tileAtXY p.1 p.2).mark = TileMark.QUESTION_MARK then
          acc.setTileEntry (p.1 + p.2 * acc.m_width)
            { acc.tileAtXY p.1 p.2 with mark := .NONE }
        else acc) m).m_cRevealedTiles = m.m_cRevealedTiles ∧
      (ps.foldl (fun acc p =>
        if (acc.tileAtXY p.1 p.2).mark = TileMark.QUESTION_MARK then
          acc.setTileEntry (p.1 + p.2 * acc.m_width)
            { acc.tileAtXY p.1 p.2 with mark := .NONE }
        else acc) m).m_cFlaggedTiles = m.m_cFlaggedTiles ∧
      (ps.foldl (fun acc p =>
        if (acc.tileAtXY p.1 p.2).mark = TileMark.QUESTION_MARK then
          acc.setTileEntry (p.1 + p.2 * acc.m_width)
            { acc.tileAtXY p.1 p.2 with mark := .NONE }
        else acc) m).m_bGameLost = m.m_bGameLost ∧
      (ps.foldl (fun acc p =>
        if (acc.tileAtXY p.1 p.2).mark = TileMark.QUESTION_MARK then
          acc.setTileEntry (p.1 + p.2 * acc.m_width)
            { acc.tileAtXY p.1 p.2 with mark := .NONE }
        else acc) m).m_aMineTiles.length = m.m_aMineTiles.length) ∧
    revealedTileCount (ps.foldl (fun acc p =>
        if (acc.tileAtXY p.1 p.2).mark = TileMark.QUESTION_MARK then
          acc.setTileEntry (p.1 + p.2 * acc.m_width)
            { acc.tileAtXY p.1 p.2 with mark := .NONE }
        else acc) m) = revealedTileCount m ∧
    flaggedTileCount (ps.foldl (fun acc p =>
        if (acc.tileAtXY p.1 p.2).mark = TileMark.QUESTION_MARK then
          acc.setTileEntry (p.1 + p.2 * acc.m_width)
            { acc.tileAtXY p.1 p.2 with mark := .NONE }
        else acc) m) = flaggedTileCount m ∧
    ∀ j, (ps.foldl (fun acc p =>
        if (acc.tileAtXY p.1 p.2).mark = TileMark.QUESTION_MARK then
          acc.setTileEntry (p.1 + p.2 * acc.m_width)
            { acc.tileAtXY p.1 p.2 with mark := .NONE }
        else acc) m).tileAt j = m.tileAt j ∨
      ((ps.foldl (fun acc p =>
        if (acc.tileAtXY p.1 p.2).mark = TileMark.QUESTION_MARK then
          acc.setTileEntry (p.1 + p.2 * acc.m_width)
            { acc.tileAtXY p.1 p.2 with mark := .NONE }
        else acc) m).tileAt j = { m.tileAt j with mark := .NONE }
        ∧ (m.tileAt j).mark = TileMark.QUESTION_MARK) := by
  induction ps with
  | nil =>
    exact fun m => ⟨⟨rfl, rfl, rfl, rfl, rfl, rfl, rfl, rfl⟩, rfl, rfl, fun j => Or.inl rfl⟩
  | cons p ps' ih =>
    intro m
    rw [List.foldl_cons]
    by_cases hguard : (m.tileAtXY p.1 p.2).mark = TileMark.QUESTION_MARK
    · rw [if_pos hguard]
      set idx := p.1 + p.2 * m.m_width with hidxdef
      set m1 := m.setTileEntry idx { m.tileAtXY p.1 p.2 with mark := .NONE } with hm1
      have hpoint : ∀ j, m1.tileAt j = m.tileAt j ∨
          (m1.tileAt j = { m.tileAt j with mark := .NONE }
            ∧ (m.tileAt j).mark = TileMark.QUESTION_MARK) := by
        intro j
        rw [hm1]
        by_cases hj : idx = j
        · by_cases hb : idx < m.m_aMineTiles.length
          · rw [← hj, tileAt_setTileEntry_self m idx _ hb]
            refine Or.inr ⟨?_, ?_⟩
            · show ({ m.tileAtXY p.1 p.2 with mark := TileMark.NONE } : MineTile) = _
              unfold MinefieldWindow.tileAtXY
              rw [← hidxdef]
            · unfold MinefieldWindow.tileAtXY at hguard
              rw [← hidxdef] at hguard
              exact hguard
          · rw [setTileEntry_of_length_le m idx _ (Nat.le_of_not_lt hb)]
            exact Or.inl rfl
        · rw [tileAt_setTileEntry_ne m idx j _ hj]
          exact Or.inl rfl
      obtain ⟨⟨f1, f2, f3, f4, f5, f6, f7, f8⟩, c1, c2, g⟩ := ih m1
      have hw1 : m1.m_width = m.m_width := by rw [hm1]; rfl
      refine ⟨⟨f1.trans hw1, f2.trans (by rw [hm1]; rfl), f3.trans (by rw [hm1]; rfl),
        f4.trans (by rw [hm1]; rfl), f5.trans (by rw [hm1]; rfl),
        f6.trans (by rw [hm1]; rfl), f7.trans (by rw [hm1]; rfl),
        f8.trans (by rw [hm1, setTileEntry_length])⟩, ?_, ?_, ?_⟩
      · rw [c1, hm1]
        unfold revealedTileCount
        exact countP_setTileEntry_eq m _ _ _ (by simp [MinefieldWindow.tileAtXY])
      · rw [c2, hm1]
        unfold flaggedTileCount
        unfold MinefieldWindow.tileAtXY at hguard
        exact countP_setTileEntry_eq m _ _ _ (by simp [MinefieldWindow.tileAtXY, hguard])
      · intro j
        rcases g j with h | ⟨h, hq⟩
        · rcases hpoint j with h2 | ⟨h2, hq2⟩
          · exact Or.inl (h.trans h2)
          · exact Or.inr ⟨h.trans h2, hq2⟩
        · rcases hpoint j with h2 | ⟨h2, hq2⟩
          · rw [h2] at h hq
            exact Or.inr ⟨h, hq⟩
          · rw [h2] at hq
            exact absurd hq (by simp)
    · rw [if_neg hguard]
      exact ih m

theorem ToggleQuestionMarkUsage_eq (m : MinefieldWindow) :
    m.ToggleQuestionMarkUsage
      = if (!m.m_bQuestionMarksEnabled) = false then
          (gridPositions m.m_width m.m_height).foldl
            (fun acc p =>
              if (acc.tileAtXY p.1 p.2).mark = TileMark.QUESTION_MARK then
                acc.setTileEntry (p.1 + p.2 * acc.m_width)
                  { acc.tileAtXY p.1 p.2 with mark := .NONE }
              else acc)
            { m with m_bQuestionMarksEnabled := !m.m_bQuestionMarksEnabled }
        else { m with m_bQuestionMarksEnabled := !m.m_bQuestionMarksEnabled } := rfl

theorem inv_ToggleQuestionMarkUsage (m : MinefieldWindow) (hInv : Inv m) :
    Inv m.ToggleQuestionMarkUsage := by
  rw [ToggleQuestionMarkUsage_eq]
  have hInv1 : Inv { m with m_bQuestionMarksEnabled := !m.m_bQuestionMarksEnabled } := by
    obtain ⟨h1, h2, h3, h4, h5, h6, h7, h8⟩ := hInv
    exact ⟨h1, h2, h3, h4, h5, h6, h7, h8⟩
  split
  · set m1 := { m with m_bQuestionMarksEnabled := !m.m_bQuestionMarksEnabled } with hm1
    obtain ⟨⟨f1, f2, f3, f4, f5, f6, f7, f8⟩, c1, c2, g⟩ :=
      qmSweep_spec (gridPositions m.m_width m.m_height) m1
    refine ⟨?_, ?_, ?_, ?_, ?_, ?_, ?_, ?_⟩
    · rw [f8, f3]
      exact hInv1.len_eq
    · rw [f3, f1, f2]
      exact hInv1.size_eq
    · rw [f4, f3]
      exact hInv1.mines_le
    · rw [f5, c1]
      exact hInv1.rev_eq
    · rw [f6, c2]
      exact hInv1.flag_eq
    · refine lostIffMine_transfer m1 _ f8 f7 ?_ ?_ hInv1.lost_iff
      · intro i
        unfold revealedAt
        rcases g i with h | ⟨h, -⟩ <;> rw [h]
      · intro i
        rcases g i with h | ⟨h, -⟩ <;> rw [h]
    · refine emptySeparated_transfer m1 _ f1 f2 f8 ?_ hInv1.empty_sep
      intro i
      rcases g i with h | ⟨h, -⟩ <;> rw [h]
    · intro i hmk
      rcases g i with h | ⟨h, -⟩
      · rw [h] at hmk ⊢
        exact hInv1.flag_hidden i hmk
      · rw [h] at hmk
        exact absurd hmk (by simp)
  · exact hInv1

end Minesweeper

namespace Minesweeper

/-- Frame facts for the whole `GenerateMines` pipeline: only tile contents
change. -/
theorem GenerateMines_frame (m : MinefieldWindow) (x y : Nat) (sel : List Nat)
    (hwf : m.m_aMineTiles.length = m.m_width * m.m_height) :
    ((m.GenerateMines x y sel).m_width = m.m_width ∧
      (m.GenerateMines x y sel).m_height = m.m_height ∧
      (m.GenerateMines x y sel).m_cTiles = m.m_cTiles ∧
      (m.GenerateMines x y sel).m_cMines = m.m_cMines ∧
      (m.GenerateMines x y sel).m_cRevealedTiles = m.m_cRevealedTiles ∧
      (m.GenerateMines x y sel).m_cFlaggedTiles = m.m_cFlaggedTiles ∧
      (m.GenerateMines x y sel).m_bGameLost = m.m_bGameLost ∧
      (m.GenerateMines x y sel).m_aMineTiles.length = m.m_aMineTiles.length) ∧
    (∀ j, ((m.GenerateMines x y sel).tileAt j).state = (m.tileAt j).state ∧
      ((m.GenerateMines x y sel).tileAt j).mark = (m.tileAt j).mark) ∧
    revealedTileCount (m.GenerateMines x y sel) = revealedTileCount m ∧
    flaggedTileCount (m.GenerateMines x y sel) = flaggedTileCount m := by
  obtain ⟨⟨p1, p2, p3, p4, p5, p6, p7, p8, p9, p10⟩, pg1, -, -, -⟩ := placeMines_spec sel m
  have hwfP : (placeMines m sel).m_aMineTiles.length
      = (placeMines m sel).m_width * (placeMines m sel).m_height := by
    rw [p1, p2, p10]
    exact hwf
  obtain ⟨⟨f1, f2, f3, f4, f5, f6, f7, f8, f9, f10⟩, g1, -, -⟩ :=
    genFold_spec (gridPositions (placeMines m sel).m_width (placeMines m sel).m_height)
      (placeMines m sel) (fun p hp => mem_gridPositions.1 hp)
      (nodup_gridPositions_idx _ _) hwfP
  obtain ⟨cg1, cg2, cg3⟩ := counts_genFold
    (gridPositions (placeMines m sel).m_width (placeMines m sel).m_height) (placeMines m sel)
  obtain ⟨cp1, cp2⟩ := counts_placeMines sel m
  rw [GenerateMines_eq, GenerateNumbers_eqn]
  refine ⟨⟨f1.trans p1, f2.trans p2, f3.trans p3, f4.trans p4, f5.trans p5, f6.trans p6,
    f7.trans p7, f10.trans p10⟩, ?_, cg2.trans cp1, cg3.trans cp2⟩
  intro j
  obtain ⟨s1, s2, -⟩ := g1 j
  obtain ⟨t1, t2⟩ := pg1 j
  exact ⟨s1.trans t1, s2.trans t2⟩

/-- `GenerateNumbers` re-establishes the EMPTY-separation invariant from
scratch. -/
theorem emptySep_GenerateMines (m : MinefieldWindow) (x y : Nat) (sel : List Nat)
    (hwf : m.m_aMineTiles.length = m.m_width * m.m_height) :
    emptySeparated (m.GenerateMines x y sel) := by
  have hwfP : (placeMines m sel).m_aMineTiles.length
      = (placeMines m sel).m_width * (placeMines m sel).m_height := by
    obtain ⟨⟨p1, p2, -, -, -, -, -, -, -, p10⟩, -, -, -, -⟩ := placeMines_spec sel m
    rw [p1, p2, p10]
    exact hwf
  set P := placeMines m sel with hP
  obtain ⟨⟨f1, f2, f3, f4, f5, f6, f7, f8, f9, f10⟩, g1, g2, g3⟩ :=
    genFold_spec (gridPositions P.m_width P.m_height) P
      (fun p hp => mem_gridPositions.1 hp) (nodup_gridPositions_idx _ _) hwfP
  rw [GenerateMines_eq, GenerateNumbers_eqn, ← hP]
  set F := (gridPositions P.m_width P.m_height).foldl
    (fun acc p => acc.generateNumbersCell p.1 p.2) P with hF
  intro i hi hie u hu
  rw [f10, hwfP] at hi
  have hw0 : 0 < P.m_width := by
    rcases Nat.eq_zero_or_pos P.m_width with h0 | h0
    · rw [h0] at hi
      simp at hi
    · exact h0
  have hcx : i % P.m_width < P.m_width := Nat.mod_lt i hw0
  have hcy : i / P.m_width < P.m_height := by
    rw [Nat.div_lt_iff_lt_mul hw0]
    calc i < P.m_width * P.m_height := hi
      _ = P.m_height * P.m_width := Nat.mul_comm _ _
  have hidx : i % P.m_width + i / P.m_width * P.m_width = i := Nat.mod_add_div' i P.m_width
  have hnmP : (P.tileAt i).content ≠ TileContent.MINE := by
    intro hmine
    have := (g1 i).2.2.2 hmine
    rw [hie] at this
    exact absurd this (by decide)
  have hform := g3 (i % P.m_width, i / P.m_width)
    (mem_gridPositions.2 ⟨hcx, hcy⟩) (by
      show (P.tileAt (i % P.m_width + i / P.m_width * P.m_width)).content ≠ TileContent.MINE
      rw [hidx]
      exact hnmP)
  simp only [hidx] at hform
  rw [hie] at hform
  have hadj := numberContent_eq_empty hform.symm
  have hadj9 : P.GetNumberAdjacentMines (i % P.m_width) (i / P.m_width)
      ≤ (P.GetTileGrid (i % P.m_width) (i / P.m_width) 1).length := by
    unfold MinefieldWindow.GetNumberAdjacentMines
    exact List.countP_le_length _
  have hlen9 : (P.GetTileGrid (i % P.m_width) (i / P.m_width) 1).length ≤ 9 := by
    have := length_GetTileGrid_le P (i % P.m_width) (i / P.m_width) 1
    simpa using this
  have hadjne : P.GetNumberAdjacentMines (i % P.m_width) (i / P.m_width)
      ≠ (P.GetTileGrid (i % P.m_width) (i / P.m_width) 1).length := by
    intro heq
    have hall := List.countP_eq_length.1 heq
    have hcenter : i ∈ P.GetTileGrid (i % P.m_width) (i / P.m_width) 1 := by
      have := @center_mem_GetTileGrid P (i % P.m_width) (i / P.m_width)
        1 (by decide) hcx hcy
      rw [hidx] at this
      exact this
    have := hall i hcenter
    simp only [decide_eq_true_eq] at this
    exact hnmP this
  have hadj0 : P.GetNumberAdjacentMines (i % P.m_width) (i / P.m_width) = 0 := by
    rcases hadj with h0 | h9
    · exact h0
    · omega
  have hgridF : F.GetTileGrid (i % F.m_width) (i / F.m_width) 1
      = P.GetTileGrid (i % P.m_width) (i / P.m_width) 1 := by
    rw [f1]
    exact GetTileGrid_congr f1 f2 _ _ 1
  rw [hgridF] at hu
  have hnomine_u : (P.tileAt u).content ≠ TileContent.MINE := by
    intro hmine
    have hcount := hadj0
    unfold MinefieldWindow.GetNumberAdjacentMines at hcount
    rw [List.countP_eq_zero] at hcount
    have := hcount u hu
    simp only [decide_eq_true_eq] at this
    exact this hmine
  intro hmine
  exact hnomine_u ((g1 u).2.2.1 hmine)

end Minesweeper

namespace Minesweeper

theorem revealedTileCount_zero_no_revealed (m : MinefieldWindow)
    (h : revealedTileCount m = 0) : ∀ i, ¬ revealedAt m i := by
  intro i hrev
  by_cases hb : i < m.m_aMineTiles.length
  · unfold revealedTileCount at h
    rw [List.countP_eq_zero] at h
    have := h m.m_aMineTiles[i] (List.getElem_mem hb)
    rw [← tileAt_eq_getElem m i hb] at this
    simp only [decide_eq_true_eq] at this
    exact this hrev
  · unfold revealedAt at hrev
    rw [tileAt_of_length_le m i (Nat.le_of_not_lt hb)] at hrev
    exact absurd hrev (by decide)

theorem inv_SetTileRevealed (m : MinefieldWindow) (x y : Nat)
    (hx : x < m.m_width) (hy : y < m.m_height) (hInv : Inv m) :
    Inv (m.SetTileRevealed x y) := by
  have hwf : m.m_aMineTiles.length = m.m_width * m.m_height :=
    hInv.len_eq.trans hInv.size_eq
  have hidx : x + y * m.m_width < m.m_aMineTiles.length := by
    rw [hwf]
    exact idx_lt_size hx hy
  obtain ⟨ro, hlost⟩ := SetTileRevealed_spec m x y hwf hx hy
  obtain ⟨r1, r2, r3, r4, r5, r6, r7, r8, r9, r10, r11⟩ := ro
  refine ⟨?_, ?_, ?_, ?_, ?_, ?_, ?_, ?_⟩
  · rw [r7, r3]
    exact hInv.len_eq
  · rw [r3, r1, r2]
    exact hInv.size_eq
  · rw [r4, r3]
    exact hInv.mines_le
  · have := hInv.rev_eq
    omega
  · rw [r8, r9]
    exact hInv.flag_eq
  · have hro : revealsOnly m (m.SetTileRevealed x y) :=
      ⟨r1, r2, r3, r4, r5, r6, r7, r8, r9, r10, r11⟩
    have hl := hInv.lost_iff
    unfold lostIffMine at hl
    unfold lostIffMine
    rw [hlost, r7]
    by_cases hguard : (m.tileAtXY x y).state ≠ TileState.REVEALED
        ∧ (m.tileAtXY x y).mark ≠ TileMark.FLAG
    · by_cases hmine : (m.tileAtXY x y).content = TileContent.MINE
      · rw [decide_eq_true hguard, decide_eq_true hmine]
        constructor
        · intro h2
          refine ⟨x + y * m.m_width, hidx,
            SetTileRevealed_target m x y hwf hx hy hguard.2, ?_⟩
          unfold mineAt
          rw [revealsOnly_content hro]
          exact hmine
        · intro h2
          simp
      · rw [decide_eq_false hmine]
        simp only [Bool.and_false, Bool.or_false]
        rw [hl]
        constructor
        · rintro ⟨i, hi, hrev, hm2⟩
          refine ⟨i, hi, revealsOnly_mono hro hrev, ?_⟩
          unfold mineAt at hm2 ⊢
          rw [revealsOnly_content hro]
          exact hm2
        · rintro ⟨i, hi, hrev, hm2⟩
          have hm2' : mineAt m i := by
            unfold mineAt at hm2 ⊢
            rw [revealsOnly_content hro] at hm2
            exact hm2
          rcases SetTileRevealed_new_mine m x y hwf hx hy hInv.empty_sep i hrev
            with h | h | h
          · exact ⟨i, hi, h, hm2'⟩
          · subst h
            exact absurd hm2' hmine
          · exact absurd hm2' h
    · rw [decide_eq_false hguard]
      simp only [Bool.false_and, Bool.or_false]
      have hstr : m.SetTileRevealed x y = m := by
        rw [SetTileRevealed_eq, if_neg hguard]
      rw [hstr]
      exact hl
  · exact emptySeparated_transfer m _ r1 r2 r7
      (fun i => revealsOnly_content ⟨r1, r2, r3, r4, r5, r6, r7, r8, r9, r10, r11⟩ i)
      hInv.empty_sep
  · intro i hmk
    have hmkm : (m.tileAt i).mark = TileMark.FLAG := by
      rw [← revealsOnly_mark ⟨r1, r2, r3, r4, r5, r6, r7, r8, r9, r10, r11⟩ i]
      exact hmk
    rcases r11 i with h | ⟨-, -, hm2⟩
    · rw [h]
      exact hInv.flag_hidden i hmkm
    · exact absurd hmkm hm2

theorem inv_GenerateMines (m : MinefieldWindow) (x y : Nat) (sel : List Nat)
    (hInv : Inv m) (hrev0 : m.m_cRevealedTiles = 0) :
    Inv (m.GenerateMines x y sel) := by
  have hwf : m.m_aMineTiles.length = m.m_width * m.m_height :=
    hInv.len_eq.trans hInv.size_eq
  obtain ⟨⟨f1, f2, f3, f4, f5, f6, f7, f8⟩, g1, c1, c2⟩ := GenerateMines_frame m x y sel hwf
  have hnorev : ∀ i, ¬ revealedAt m i := by
    apply revealedTileCount_zero_no_revealed
    rw [← hInv.rev_eq]
    exact hrev0
  have hnorev' : ∀ i, ¬ revealedAt (m.GenerateMines x y sel) i := by
    intro i hrev
    apply hnorev i
    unfold revealedAt at hrev ⊢
    rw [(g1 i).1] at hrev
    exact hrev
  refine ⟨?_, ?_, ?_, ?_, ?_, ?_, ?_, ?_⟩
  · rw [f8, f3]
    exact hInv.len_eq
  · rw [f3, f1, f2]
    exact hInv.size_eq
  · rw [f4, f3]
    exact hInv.mines_le
  · rw [f5, c1]
    exact hInv.rev_eq
  · rw [f6, c2]
    exact hInv.flag_eq
  · unfold lostIffMine
    rw [f7]
    have hlostm : m.m_bGameLost = false := by
      by_contra hb
      rw [Bool.not_eq_false] at hb
      obtain ⟨i, -, hrev, -⟩ := hInv.lost_iff.1 hb
      exact hnorev i hrev
    rw [hlostm]
    constructor
    · intro h
      exact absurd h (by decide)
    · rintro ⟨i, -, hrev, -⟩
      exact absurd hrev (hnorev' i)
  · exact emptySep_GenerateMines m x y sel hwf
  · intro i hmk
    have hmkm : (m.tileAt i).mark = TileMark.FLAG := by
      rw [← (g1 i).2]
      exact hmk
    have := hInv.flag_hidden i hmkm
    rw [(g1 i).1]
    exact this

theorem inv_revealAction (m : MinefieldWindow) (x y : Nat) (sel : List Nat)
    (hx : x < m.m_width) (hy : y < m.m_height) (hInv : Inv m) :
    Inv (m.revealAction x y sel) := by
  unfold MinefieldWindow.revealAction
  split
  · next hrev0 =>
    have hwf : m.m_aMineTiles.length = m.m_width * m.m_height :=
      hInv.len_eq.trans hInv.size_eq
    obtain ⟨⟨f1, f2, -, -, -, -, -, -⟩, -, -, -⟩ := GenerateMines_frame m x y sel hwf
    exact inv_SetTileRevealed _ x y (by rw [f1]; exact hx) (by rw [f2]; exact hy)
      (inv_GenerateMines m x y sel hInv hrev0)
  · exact inv_SetTileRevealed m x y hx hy hInv

theorem inv_foldSTR (L : List Nat) : ∀ m : MinefieldWindow,
    (∀ t ∈ L, t < m.m_width * m.m_height) → Inv m →
    Inv (L.foldl (fun acc t => acc.SetTileRevealed (t % acc.m_width) (t / acc.m_width)) m) := by
  induction L with
  | nil => exact fun m _ hInv => hInv
  | cons t ts ih =>
    intro m hL hInv
    rw [List.foldl_cons]
    have hwf : m.m_aMineTiles.length = m.m_width * m.m_height :=
      hInv.len_eq.trans hInv.size_eq
    have htb : t < m.m_width * m.m_height := hL t (List.mem_cons_self t ts)
    have hw0 : 0 < m.m_width := by
      rcases Nat.eq_zero_or_pos m.m_width with h0 | h0
      · rw [h0] at htb
        simp at htb
      · exact h0
    have hx : t % m.m_width < m.m_width := Nat.mod_lt t hw0
    have hy : t / m.m_width < m.m_height := by
      rw [Nat.div_lt_iff_lt_mul hw0]
      calc t < m.m_width * m.m_height := htb
        _ = m.m_height * m.m_width := Nat.mul_comm _ _
    obtain ⟨ro, -⟩ := SetTileRevealed_spec m (t % m.m_width) (t / m.m_width) hwf hx hy
    apply ih
    · intro u hu
      rw [ro.1, ro.2.1]
      exact hL u (List.mem_cons_of_mem t hu)
    · exact inv_SetTileRevealed m _ _ hx hy hInv

theorem inv_EndChord (m : MinefieldWindow) (x y : Nat) (hInv : Inv m) :
    Inv (m.EndChord x y) := by
  rw [EndChord_eq]
  have hwf : m.m_aMineTiles.length = m.m_width * m.m_height :=
    hInv.len_eq.trans hInv.size_eq
  have hmain : Inv (if (m.tileAtXY x y).state = TileState.REVEALED then
      if (m.GetTileGrid x y 1).countP
          (fun t => decide ((m.tileAt t).mark = TileMark.FLAG))
          = m.GetNumberAdjacentMines x y then
        (m.GetTileGrid x y 1).foldl
          (fun acc t => acc.SetTileRevealed (t % acc.m_width) (t / acc.m_width)) m
      else m.revertClicked (m.GetTileGrid x y 1)
    else m.revertClicked (m.GetTileGrid x y 1)) := by
    split
    · split
      · exact inv_foldSTR _ m (fun t ht => mem_GetTileGrid_lt ht) hInv
      · exact inv_revertClicked m _ hInv
    · exact inv_revertClicked m _ hInv
  obtain ⟨h1, h2, h3, h4, h5, h6, h7, h8⟩ := hmain
  exact ⟨h1, h2, h3, h4, h5, h6, h7, h8⟩

/-- Every engine interaction preserves the invariant. -/
theorem inv_Step {m m' : MinefieldWindow} (hs : Step m m') (hInv : Inv m) : Inv m' := by
  cases hs with
  | pressSingle x y hx hy hA => exact inv_pressSingle m x y hInv
  | beginChord x y hx hy hA => exact inv_BeginChord m x y hInv
  | endChord x y hx hy hA => exact inv_EndChord m x y hInv
  | reveal x y sel hx hy hA hC hsel => exact inv_revealAction m x y sel hx hy hInv
  | cycleMark x y hx hy hA => exact inv_cycleMark m x y hx hy hInv
  | movePos ox oy nx ny r force hox hoy hnx hny hA =>
    exact inv_MovePos m ox oy nx ny r force hInv
  | mouseLeave x y hx hy hA => exact inv_mouseLeaveRevert m x y hInv
  | reset => exact inv_ResetGame m hInv.size_eq hInv.mines_le
  | resize w h c => exact inv_Resize m hInv w h c
  | toggleQM => exact inv_ToggleQuestionMarkUsage m hInv
  | setChording b => exact inv_setChording m b hInv

/-- Every reachable state satisfies the invariant. -/
theorem inv_Reachable {m : MinefieldWindow} (h : Reachable m) : Inv m := by
  obtain ⟨width, height, cMines, hreach⟩ := h
  induction hreach with
  | refl => exact inv_mk width height cMines
  | tail hr hs ih => exact inv_Step hs ih

end Minesweeper

/-!
## The claims

Each claim of the specification is settled by one theorem below; concrete
boards exercise the theorems and exhibit the counterexamples.
-/

namespace Minesweeper

/-- A 2×2 board in mid-game: tile 0 is revealed and shows ONE, tiles 1 and 2
are hidden ONEs, tile 3 is the flagged mine. -/
def chordBoard : MinefieldWindow :=
  { m_width := 2
    m_height := 2
    m_cTiles := 4
    m_cMines := 1
    m_cRevealedTiles := 1
    m_cFlaggedTiles := 1
    m_bGameLost := false
    m_bQuestionMarksEnabled := false
    m_bChording := false
    m_aMineTiles :=
      [ { content := .ONE, state := .REVEALED, mark := .NONE },
        { content := .ONE, state := .HIDDEN, mark := .NONE },
        { content := .ONE, state := .HIDDEN, mark := .NONE },
        { content := .MINE, state := .HIDDEN, mark := .FLAG } ] }

/-- A 1×1 mine-free board whose only tile is already revealed. -/
def resizeBoard : MinefieldWindow :=
  { m_width := 1, m_height := 1, m_cTiles := 1, m_cMines := 0,
    m_cRevealedTiles := 1, m_cFlaggedTiles := 0, m_bGameLost := false,
    m_bQuestionMarksEnabled := false, m_bChording := false,
    m_aMineTiles := [{ content := .EMPTY, state := .REVEALED, mark := .NONE }] }

/-- Claim C1: in every reachable state, `IsGameLost` returns true iff some
tile with state REVEALED has content MINE; `IsGameWon` returns true iff the
game is not lost, the revealed count is positive and
`tileCount − mineCount ≤ revealedCount`; the two are never both true. -/
theorem C1_game_over_predicates (m : MinefieldWindow) (h : Reachable m) :
    (m.IsGameLost = true ↔
      ∃ i, i < m.m_aMineTiles.length ∧ revealedAt m i ∧ mineAt m i) ∧
    (m.IsGameWon = true ↔
      m.IsGameLost = false ∧ 0 < revealedTileCount m ∧
        m.m_cTiles - m.m_cMines ≤ revealedTileCount m) ∧
    ¬(m.IsGameWon = true ∧ m.IsGameLost = true) := by
  have hInv := inv_Reachable h
  have hrev := hInv.rev_eq
  have hlost := hInv.lost_iff
  unfold lostIffMine at hlost
  have hwon : m.IsGameWon = true ↔
      m.IsGameLost = false ∧ 0 < revealedTileCount m ∧
        m.m_cTiles - m.m_cMines ≤ revealedTileCount m := by
    unfold MinefieldWindow.IsGameWon MinefieldWindow.IsGameLost
    constructor
    · intro h2
      simp only [Bool.and_eq_true, Bool.not_eq_true', decide_eq_true_eq] at h2
      refine ⟨h2.1, ?_, ?_⟩ <;> omega
    · intro h2
      simp only [Bool.and_eq_true, Bool.not_eq_true', decide_eq_true_eq]
      obtain ⟨h1, h2a, h2b⟩ := h2
      refine ⟨h1, ?_, ?_⟩ <;> omega
  refine ⟨?_, hwon, ?_⟩
  · unfold MinefieldWindow.IsGameLost
    exact hlost
  · rintro ⟨hw, hl⟩
    rw [hwon] at hw
    rw [hw.1] at hl
    exact Bool.noConfusion hl

/-- The lost-state characterization of C1, checked on the fresh 2×2 board. -/
theorem C1_game_over_predicates_witness :
    (mkMinefieldWindow 2 2 1).IsGameLost = true ↔
      ∃ i, i < (mkMinefieldWindow 2 2 1).m_aMineTiles.length ∧
        revealedAt (mkMinefieldWindow 2 2 1) i ∧ mineAt (mkMinefieldWindow 2 2 1) i :=
  (C1_game_over_predicates (mkMinefieldWindow 2 2 1) ⟨2, 2, 1, ReachableFrom.refl⟩).1

/-- Claim C7: in every reachable state `m_cRevealedTiles` counts the REVEALED
tiles and `m_cFlaggedTiles` counts the FLAG-marked tiles, and every engine
interaction preserves both equalities. -/
theorem C7_counters_match (m : MinefieldWindow) (h : Reachable m) :
    m.m_cRevealedTiles = revealedTileCount m ∧
    m.m_cFlaggedTiles = flaggedTileCount m ∧
    ∀ m', Step m m' →
      m'.m_cRevealedTiles = revealedTileCount m' ∧
      m'.m_cFlaggedTiles = flaggedTileCount m' := by
  have hInv := inv_Reachable h
  refine ⟨hInv.rev_eq, hInv.flag_eq, fun m' hs => ?_⟩
  have hInv' := inv_Step hs hInv
  exact ⟨hInv'.rev_eq, hInv'.flag_eq⟩

/-- The counter equalities of C7, checked across a concrete flag-placing
step on the fresh 2×2 board. -/
theorem C7_counters_match_witness :
    ((mkMinefieldWindow 2 2 0).cycleMark 1 1).m_cRevealedTiles
        = revealedTileCount ((mkMinefieldWindow 2 2 0).cycleMark 1 1) ∧
    ((mkMinefieldWindow 2 2 0).cycleMark 1 1).m_cFlaggedTiles
        = flaggedTileCount ((mkMinefieldWindow 2 2 0).cycleMark 1 1) :=
  (C7_counters_match (mkMinefieldWindow 2 2 0) ⟨2, 2, 0, ReachableFrom.refl⟩).2.2
    ((mkMinefieldWindow 2 2 0).cycleMark 1 1)
    (Step.cycleMark _ 1 1 (by decide) (by decide) (by decide))

/-- Claim C10: in every reachable state a FLAG-marked tile is HIDDEN — no
operation ever sets a flagged tile to CLICKED or REVEALED. -/
theorem C10_flagged_tiles_stay_hidden (m : MinefieldWindow) (h : Reachable m) :
    ∀ i, (m.tileAt i).mark = TileMark.FLAG → (m.tileAt i).state = TileState.HIDDEN :=
  (inv_Reachable h).flag_hidden

/-- The flag-stays-hidden property of C10 on a reachable 1×1 board whose
tile was flagged by a right-click step. -/
theorem C10_flagged_tiles_stay_hidden_witness :
    (((mkMinefieldWindow 1 1 0).cycleMark 0 0).tileAt 0).mark = TileMark.FLAG ∧
    (((mkMinefieldWindow 1 1 0).cycleMark 0 0).tileAt 0).state = TileState.HIDDEN :=
  ⟨by decide,
    C10_flagged_tiles_stay_hidden _
      ⟨1, 1, 0, ReachableFrom.tail ReachableFrom.refl
        (Step.cycleMark _ 0 0 (by decide) (by decide) (by decide))⟩
      0 (by decide)⟩

end Minesweeper

namespace Minesweeper

/-- Claim C8: for every grid and in-bounds `(x, y)`, the breadth-first flood
expansion started by `SetTileRevealed` drains its worklist within the
available fuel (it terminates), and no cell enters the worklist twice: the
initial cell together with the full push trace is duplicate-free. -/
theorem C8_flood_terminates_no_duplicates (m : MinefieldWindow) (x y : Nat)
    (hwf : m.m_aMineTiles.length = m.m_width * m.m_height)
    (hx : x < m.m_width) (hy : y < m.m_height) :
    (MinefieldWindow.floodLoop ((m.revealTile (x + y * m.m_width)).m_aMineTiles.length + 1)
        (m.revealTile (x + y * m.m_width)) [x + y * m.m_width]).2.1 = [] ∧
    ((x + y * m.m_width) ::
      (MinefieldWindow.floodLoop ((m.revealTile (x + y * m.m_width)).m_aMineTiles.length + 1)
        (m.revealTile (x + y * m.m_width)) [x + y * m.m_width]).2.2).Nodup := by
  have hidx : x + y * m.m_width < m.m_aMineTiles.length := by
    rw [hwf]
    exact idx_lt_size hx hy
  have hf := revealTile_fields m (x + y * m.m_width)
  have hwf1 : (m.revealTile (x + y * m.m_width)).m_aMineTiles.length
      = (m.revealTile (x + y * m.m_width)).m_width
        * (m.revealTile (x + y * m.m_width)).m_height := by
    rw [hf.2.2.2.2.2.2.2.2.2, hf.1, hf.2.1]
    exact hwf
  constructor
  · apply floodLoop_drains
    · exact hwf1
    · have hcnt : unrevealedEmptyCount (m.revealTile (x + y * m.m_width))
          ≤ (m.revealTile (x + y * m.m_width)).m_aMineTiles.length :=
        List.countP_le_length _
      simp only [List.length_cons, List.length_nil]
      omega
  · have hrev1 : ∀ c ∈ ([] : List Nat) ++ [x + y * m.m_width],
        revealedAt (m.revealTile (x + y * m.m_width)) c := by
      intro c hc
      simp only [List.nil_append, List.mem_singleton] at hc
      subst hc
      unfold revealedAt
      rw [revealTile_tileAt_self m _ hidx]
    have hnd1 : (([] : List Nat) ++ [x + y * m.m_width]).Nodup := by simp
    have hout := floodLoop_trace_nodup
      ((m.revealTile (x + y * m.m_width)).m_aMineTiles.length + 1)
      (m.revealTile (x + y * m.m_width)) [x + y * m.m_width] [] hwf1 hrev1 hnd1
    simpa using hout

/-- The flood call of `SetTileRevealed` on the center of a fresh 3×3 board:
the worklist drains and the trace is duplicate-free. -/
theorem C8_flood_terminates_no_duplicates_witness :
    (MinefieldWindow.floodLoop
        (((mkMinefieldWindow 3 3 0).revealTile 4).m_aMineTiles.length + 1)
        ((mkMinefieldWindow 3 3 0).revealTile 4) [4]).2.1 = [] ∧
    ((4 : Nat) :: (MinefieldWindow.floodLoop
        (((mkMinefieldWindow 3 3 0).revealTile 4).m_aMineTiles.length + 1)
        ((mkMinefieldWindow 3 3 0).revealTile 4) [4]).2.2).Nodup :=
  C8_flood_terminates_no_duplicates (mkMinefieldWindow 3 3 0) 1 1 rfl
    (by decide) (by decide)

/-- Claim C9: `SetTileRevealed` on an already-REVEALED or FLAG-marked tile
leaves the whole state unchanged, and the call is idempotent — in particular
a second call on the same cell keeps `m_cRevealedTiles`. -/
theorem C9_reveal_noop_idempotent (m : MinefieldWindow) (x y : Nat)
    (hwf : m.m_aMineTiles.length = m.m_width * m.m_height)
    (hx : x < m.m_width) (hy : y < m.m_height) :
    (((m.tileAtXY x y).state = TileState.REVEALED ∨ (m.tileAtXY x y).mark = TileMark.FLAG) →
      m.SetTileRevealed x y = m) ∧
    (m.SetTileRevealed x y).SetTileRevealed x y = m.SetTileRevealed x y ∧
    ((m.SetTileRevealed x y).SetTileRevealed x y).m_cRevealedTiles
      = (m.SetTileRevealed x y).m_cRevealedTiles := by
  have hnoop : ∀ m' : MinefieldWindow,
      ((m'.tileAtXY x y).state = TileState.REVEALED ∨ (m'.tileAtXY x y).mark = TileMark.FLAG) →
      m'.SetTileRevealed x y = m' := by
    intro m' hor
    rw [SetTileRevealed_eq, if_neg]
    rintro ⟨hs, hmk⟩
    rcases hor with h | h
    · exact hs h
    · exact hmk h
  have hsecond : (m.SetTileRevealed x y).SetTileRevealed x y = m.SetTileRevealed x y := by
    by_cases hmk : (m.tileAtXY x y).mark = TileMark.FLAG
    · rw [hnoop m (Or.inr hmk), hnoop m (Or.inr hmk)]
    · obtain ⟨ro, -⟩ := SetTileRevealed_spec m x y hwf hx hy
      apply hnoop
      left
      have hrv : revealedAt (m.SetTileRevealed x y) (x + y * m.m_width) :=
        SetTileRevealed_target m x y hwf hx hy hmk
      unfold revealedAt at hrv
      unfold MinefieldWindow.tileAtXY
      rw [ro.1]
      exact hrv
  exact ⟨hnoop m, hsecond, congrArg MinefieldWindow.m_cRevealedTiles hsecond⟩

/-- The no-op and idempotence of C9 on the already-revealed center of the
2×2 chord board. -/
theorem C9_reveal_noop_idempotent_witness :
    (((chordBoard.tileAtXY 0 0).state = TileState.REVEALED ∨
        (chordBoard.tileAtXY 0 0).mark = TileMark.FLAG) →
      chordBoard.SetTileRevealed 0 0 = chordBoard) ∧
    (chordBoard.SetTileRevealed 0 0).SetTileRevealed 0 0 = chordBoard.SetTileRevealed 0 0 ∧
    ((chordBoard.SetTileRevealed 0 0).SetTileRevealed 0 0).m_cRevealedTiles
      = (chordBoard.SetTileRevealed 0 0).m_cRevealedTiles :=
  C9_reveal_noop_idempotent chordBoard 0 0 (by decide) (by decide) (by decide)

end Minesweeper

namespace Minesweeper

/-- Claim C2 (amended): `EndChord(x, y)` calls `SetTileRevealed` on every
neighbor exactly when the center is REVEALED and the flagged-neighbor count
matches the adjacent-mine count, which reveals every neighbor that is not
itself FLAG-marked (a flagged neighbor stays put — the spec's "reveals all 8
neighbors" overstates this); otherwise the revealed-tile count is unchanged,
every CLICKED neighbor reverts to HIDDEN, and no tile becomes REVEALED. -/
theorem C2_chord_reveals_unflagged_neighbors (m : MinefieldWindow) (x y : Nat)
    (hwf : m.m_aMineTiles.length = m.m_width * m.m_height) :
    (((m.tileAtXY x y).state = TileState.REVEALED ∧
        (m.GetTileGrid x y 1).countP
            (fun t => decide ((m.tileAt t).mark = TileMark.FLAG))
          = m.GetNumberAdjacentMines x y) →
      ∀ t ∈ m.GetTileGrid x y 1, (m.tileAt t).mark ≠ TileMark.FLAG →
        revealedAt (m.EndChord x y) t) ∧
    (¬((m.tileAtXY x y).state = TileState.REVEALED ∧
        (m.GetTileGrid x y 1).countP
            (fun t => decide ((m.tileAt t).mark = TileMark.FLAG))
          = m.GetNumberAdjacentMines x y) →
      revealedTileCount (m.EndChord x y) = revealedTileCount m ∧
      (∀ t ∈ m.GetTileGrid x y 1, (m.tileAt t).state = TileState.CLICKED →
        ((m.EndChord x y).tileAt t).state = TileState.HIDDEN) ∧
      (∀ j, ((m.EndChord x y).tileAt j).state = TileState.REVEALED ↔
        (m.tileAt j).state = TileState.REVEALED)) := by
  constructor
  · rintro ⟨hctr, hcnt⟩ t ht hmk
    rw [EndChord_eq, if_pos hctr, if_pos hcnt]
    exact (foldSTR_spec (m.GetTileGrid x y 1) m hwf
      (grid_mem_lt_length hwf x y 1)).2 t ht hmk
  · intro hno
    have hrevert : m.EndChord x y
        = { m.revertClicked (m.GetTileGrid x y 1) with m_bChording := false } := by
      rw [EndChord_eq]
      by_cases hctr : (m.tileAtXY x y).state = TileState.REVEALED
      · rw [if_pos hctr, if_neg (fun hcnt => hno ⟨hctr, hcnt⟩)]
      · rw [if_neg hctr]
    rw [hrevert]
    refine ⟨revertClicked_revealedTileCount m _, fun t ht hcl => ?_, fun j => ?_⟩
    · exact revertClicked_of_mem_clicked m _ t ht hcl
    · exact (revertClicked_pointwise m _ j).2.2

/-- Counterexample to C2 as stated: on the 2×2 chord board the chord at the
revealed center matches (one flag, one adjacent mine), yet the flagged
neighbor 3 is not revealed by `EndChord`. -/
theorem C2_flagged_neighbor_not_revealed :
    (chordBoard.tileAtXY 0 0).state = TileState.REVEALED ∧
    (chordBoard.GetTileGrid 0 0 1).countP
        (fun t => decide ((chordBoard.tileAt t).mark = TileMark.FLAG))
      = chordBoard.GetNumberAdjacentMines 0 0 ∧
    3 ∈ chordBoard.GetTileGrid 0 0 1 ∧
    ¬ revealedAt (chordBoard.EndChord 0 0) 3 := by
  refine ⟨by decide, by decide, by decide, ?_⟩
  show ¬ ((chordBoard.EndChord 0 0).tileAt 3).state = TileState.REVEALED
  decide

/-- The mismatch branch of C2 on the fresh 2×2 board (hidden center): the
revealed-tile count is unchanged by `EndChord`. -/
theorem C2_chord_reveals_unflagged_neighbors_witness :
    revealedTileCount ((mkMinefieldWindow 2 2 0).EndChord 0 0)
      = revealedTileCount (mkMinefieldWindow 2 2 0) :=
  ((C2_chord_reveals_unflagged_neighbors (mkMinefieldWindow 2 2 0) 0 0 rfl).2
    (by decide)).1

end Minesweeper

namespace Minesweeper

/-- Claim C3 (amended): on a fresh board, for every configuration with
`mineCount < tileCount` (strictly fewer mines than tiles — the spec's
clamped `mineCount ≤ tileCount` admits the full board, where the first-click
exclusion makes the draw fall short) and every in-bounds first click,
`GenerateMines` places exactly `m_cMines` mines. -/
theorem C3_exact_mine_count (m : MinefieldWindow) (x y : Nat) (sel : List Nat)
    (hlenc : m.m_aMineTiles.length = m.m_cTiles)
    (hsize : m.m_cTiles = m.m_width * m.m_height)
    (hx : x < m.m_width) (hy : y < m.m_height)
    (hfresh : m.m_aMineTiles = List.replicate m.m_cTiles ({} : MineTile))
    (hs : SampleOK m x y sel)
    (hmlt : m.m_cMines < m.m_cTiles) :
    mineTileCount (m.GenerateMines x y sel) = m.m_cMines := by
  have hnomine : ∀ j, (m.tileAt j).content ≠ TileContent.MINE := by
    intro j
    rw [tileAt_of_replicate m m.m_cTiles hfresh j]
    decide
  exact GenerateMines_count m x y sel hlenc hsize hx hy hnomine hs hmlt

/-- Counterexample to C3 as stated: the 1×1 board with one (clamped) mine is
a valid configuration with `mineCount ≤ tileCount`, the empty draw is the
only admissible one, and generation ends with zero mines, not one. -/
theorem C3_clamped_board_misses_count :
    (mkMinefieldWindow 1 1 1).m_cMines ≤ (mkMinefieldWindow 1 1 1).m_cTiles ∧
    SampleOK (mkMinefieldWindow 1 1 1) 0 0 [] ∧
    mineTileCount ((mkMinefieldWindow 1 1 1).GenerateMines 0 0 [])
      ≠ (mkMinefieldWindow 1 1 1).m_cMines := by
  refine ⟨by decide, ⟨List.nil_sublist _, by decide⟩, by decide⟩

/-- The exact mine count of C3 on the 2×2 board with one mine and the draw
that picks tile 3. -/
theorem C3_exact_mine_count_witness :
    mineTileCount ((mkMinefieldWindow 2 2 1).GenerateMines 0 0 [3])
      = (mkMinefieldWindow 2 2 1).m_cMines :=
  C3_exact_mine_count (mkMinefieldWindow 2 2 1) 0 0 [3] rfl rfl
    (by decide) (by decide) rfl ⟨by decide, by decide⟩ (by decide)

/-- Claim C4 (amended): on the 1×1 grid with one requested mine, `m_cMines`
clamps to 1 and the exclusion radius is 0, but the exclusion zone is the
whole board: the candidate list is empty, every admissible draw is empty, the
single cell stays mine-free, and revealing it does not lose — it wins
(the spec's "the single cell becomes a mine; revealing it sets IsLost()"
contradicts the code). -/
theorem C4_one_by_one_no_mine (sel : List Nat)
    (hs : SampleOK (mkMinefieldWindow 1 1 1) 0 0 sel) :
    sel = [] ∧
    (((mkMinefieldWindow 1 1 1).GenerateMines 0 0 sel).tileAt 0).content
      ≠ TileContent.MINE ∧
    (((mkMinefieldWindow 1 1 1).GenerateMines 0 0 sel).SetTileRevealed 0 0).IsGameLost
      = false ∧
    (((mkMinefieldWindow 1 1 1).GenerateMines 0 0 sel).SetTileRevealed 0 0).IsGameWon
      = true := by
  have hnil : sel = [] := List.length_eq_zero.mp (hs.2.trans (by decide))
  subst hnil
  exact ⟨rfl, by decide, by decide, by decide⟩

/-- Counterexample to C4 as stated: on the 1×1 board the clamp and the radius
are as claimed, but the candidate list is empty, so the cell never becomes a
mine and revealing it leaves `IsGameLost` false. -/
theorem C4_one_by_one_counterexample :
    (mkMinefieldWindow 1 1 1).m_cMines = 1 ∧
    MinefieldWindow.mineRadius (mkMinefieldWindow 1 1 1) = 0 ∧
    (mkMinefieldWindow 1 1 1).mineCandidates 0 0 = [] ∧
    SampleOK (mkMinefieldWindow 1 1 1) 0 0 [] ∧
    (((mkMinefieldWindow 1 1 1).GenerateMines 0 0 []).tileAt 0).content
      ≠ TileContent.MINE ∧
    (((mkMinefieldWindow 1 1 1).GenerateMines 0 0 []).SetTileRevealed 0 0).IsGameLost
      = false := by
  refine ⟨by decide, by decide, by decide, ⟨List.nil_sublist _, by decide⟩,
    by decide, by decide⟩

/-- The amended 1×1 behavior of C4 at the empty draw. -/
theorem C4_one_by_one_no_mine_witness :
    ([] : List Nat) = [] ∧
    (((mkMinefieldWindow 1 1 1).GenerateMines 0 0 []).tileAt 0).content
      ≠ TileContent.MINE ∧
    (((mkMinefieldWindow 1 1 1).GenerateMines 0 0 []).SetTileRevealed 0 0).IsGameLost
      = false ∧
    (((mkMinefieldWindow 1 1 1).GenerateMines 0 0 []).SetTileRevealed 0 0).IsGameWon
      = true :=
  C4_one_by_one_no_mine [] ⟨List.nil_sublist _, by decide⟩

/-- Claim C5: the exclusion radius of `GenerateMines` is 0 exactly when
`tileCount − mineCount < 9` and 1 otherwise, and with at least 9 safe cells
every cell of the clipped 3×3 block around the first click is mine-free after
generation. -/
theorem C5_first_click_safe_zone (m : MinefieldWindow) (x y : Nat) (sel : List Nat)
    (hlenc : m.m_aMineTiles.length = m.m_cTiles)
    (hsize : m.m_cTiles = m.m_width * m.m_height)
    (hx : x < m.m_width) (hy : y < m.m_height)
    (hfresh : m.m_aMineTiles = List.replicate m.m_cTiles ({} : MineTile))
    (hs : SampleOK m x y sel) :
    (MinefieldWindow.mineRadius m = 0 ↔ m.m_cTiles - m.m_cMines < 9) ∧
    (MinefieldWindow.mineRadius m = 1 ↔ 9 ≤ m.m_cTiles - m.m_cMines) ∧
    (9 ≤ m.m_cTiles - m.m_cMines →
      ∀ u ∈ m.GetTileGrid x y 1,
        ((m.GenerateMines x y sel).tileAt u).content ≠ TileContent.MINE) := by
  have hnomine : ∀ j, (m.tileAt j).content ≠ TileContent.MINE := by
    intro j
    rw [tileAt_of_replicate m m.m_cTiles hfresh j]
    decide
  refine ⟨?_, ?_, fun h9 => GenerateMines_safe m x y sel hlenc hsize hx hy hnomine hs h9⟩
  · unfold MinefieldWindow.mineRadius
    by_cases h9 : m.m_cTiles - m.m_cMines < 9
    · rw [if_pos h9]
      exact ⟨fun _ => h9, fun _ => rfl⟩
    · rw [if_neg h9]
      exact ⟨fun h0 => absurd h0 (by decide), fun hlt => absurd hlt h9⟩
  · unfold MinefieldWindow.mineRadius
    by_cases h9 : m.m_cTiles - m.m_cMines < 9
    · rw [if_pos h9]
      exact ⟨fun h1 => absurd h1 (by decide), fun hge => absurd hge (by omega)⟩
    · rw [if_neg h9]
      exact ⟨fun _ => by omega, fun _ => rfl⟩

/-- The 3×3 safe zone of C5 on a fresh 4×4 board with one mine drawn at
tile 3: the neighbor 5 of the first click (1, 1) is mine-free. -/
theorem C5_first_click_safe_zone_witness :
    (((mkMinefieldWindow 4 4 1).GenerateMines 1 1 [3]).tileAt 5).content
      ≠ TileContent.MINE :=
  (C5_first_click_safe_zone (mkMinefieldWindow 4 4 1) 1 1 [3] rfl rfl
      (by decide) (by decide) rfl ⟨by decide, by decide⟩).2.2 (by decide) 5 (by decide)

end Minesweeper

namespace Minesweeper

/-- Claim C6 (amended): `Resize(width, height, cMines)` zeroes both counters
and leaves the game active when any parameter differs from the stored
configuration, and it returns FALSE and mutates nothing exactly when all
three parameters equal the stored ones — in that no-op case the counters
keep their old values, so the spec's unconditional "after Configure,
revealedCount == 0" does not hold for a repeated configuration. -/
theorem C6_configure_resets_iff_changed (m : MinefieldWindow)
    (width height cMines : Nat) :
    ((m.m_width ≠ width ∨ m.m_height ≠ height ∨ m.m_cMines ≠ cMines) →
      (m.Resize width height cMines).1.m_cRevealedTiles = 0 ∧
      (m.Resize width height cMines).1.m_cFlaggedTiles = 0 ∧
      (m.Resize width height cMines).1.IsGameActive = true ∧
      (m.Resize width height cMines).2 = true) ∧
    ((m.Resize width height cMines).2 = false ↔
      m.m_width = width ∧ m.m_height = height ∧ m.m_cMines = cMines) ∧
    (m.m_width = width ∧ m.m_height = height ∧ m.m_cMines = cMines →
      (m.Resize width height cMines).1 = m) := by
  refine ⟨?_, ?_, ?_⟩
  · intro hdiff
    unfold MinefieldWindow.Resize
    rw [if_pos hdiff]
    refine ⟨rfl, rfl, ?_, rfl⟩
    unfold MinefieldWindow.IsGameActive MinefieldWindow.IsGameWon
      MinefieldWindow.IsGameLost MinefieldWindow.ResetGame
    simp
  · unfold MinefieldWindow.Resize
    by_cases hc : m.m_width ≠ width ∨ m.m_height ≠ height ∨ m.m_cMines ≠ cMines
    · rw [if_pos hc]
      simp only [Bool.true_eq_false, false_iff]
      intro he
      rcases hc with h | h | h
      · exact h he.1
      · exact h he.2.1
      · exact h he.2.2
    · rw [if_neg hc]
      push_neg at hc
      exact iff_of_true rfl hc
  · rintro ⟨h1, h2, h3⟩
    have hnc : ¬(m.m_width ≠ width ∨ m.m_height ≠ height ∨ m.m_cMines ≠ cMines) := by
      push_neg
      exact ⟨h1, h2, h3⟩
    unfold MinefieldWindow.Resize
    rw [if_neg hnc]

/-- Counterexample to C6 as stated: configuring the 1×1 board with its own
stored parameters (a valid configuration, `0 ≤ 1·1`) is a no-op, so the
revealed-tile counter stays 1 instead of resetting to 0. -/
theorem C6_repeat_configure_keeps_counters :
    resizeBoard.m_cMines ≤ resizeBoard.m_width * resizeBoard.m_height ∧
    (resizeBoard.Resize 1 1 0).2 = false ∧
    (resizeBoard.Resize 1 1 0).1.m_cRevealedTiles ≠ 0 := by
  decide

end Minesweeper
